import Mathlib

/-!
Verification of the rKATS k-mer counting and enrichment engine.

This file is a shallow embedding, in Lean 4, of the C sources of the rKATS
repository (the `katss` and `ikke` k-mer counting libraries and the `seqfile`
sequence reader).  Byte strings are modelled as `List ℕ` of byte values,
machine counters as natural numbers (the modelled runs stay far below the
64-bit and 32-bit cell widths, so wraparound is unreachable and is noted where
it is dropped), and C `double` values as an inductive type `Dbl` carrying an
exact real number or one of the special values NaN, +inf, -inf (rounding of
exact arithmetic is not modelled).

Each claim about the program is stated and settled as a theorem near the end
of the file; the definitions are direct translations of the corresponding C
functions, referenced by file and function name in their doc comments.
-/

namespace RKats

/-! ## Nucleotide codes and key hashing (tables.c, hash_functions.c) -/

/-- Byte codes of the nucleotide key characters accepted by the key-hashing
loop of `katss_get` (KmerCounter/source/tables.c): `A`, `C`, `G` map to
0, 1, 2 and `T`, `U` both map to 3; any other byte makes the key unhashable
(the C function returns error code 1). -/
def keyCode (b : ℕ) : Option ℕ :=
  if b = 65 then some 0
  else if b = 67 then some 1
  else if b = 71 then some 2
  else if b = 84 then some 3
  else if b = 85 then some 3
  else none

/-- The key-hashing loop of `katss_get` (tables.c, lines 124-134):
`hash = hash * 4 + code` over an unsigned 32-bit `hash`, consuming the key
left to right; `none` when a byte is not a nucleotide letter. -/
def katssGetHash : List ℕ → ℕ → Option ℕ
  | [], h => some h
  | b :: bs, h =>
    match keyCode b with
    | some c => katssGetHash bs ((h * 4 + c) % 2 ^ 32)
    | none => none

/-- One digit of `katss_unhash` (KmerCounter/source/hash_functions.c): a
base-4 digit rendered as a nucleotide letter, digit 3 printed as `T` when
`use_t` is set and as `U` otherwise. -/
def unhashChar (d : ℕ) (use_t : Bool) : ℕ :=
  if d = 0 then 65
  else if d = 1 then 67
  else if d = 2 then 71
  else if use_t then 84
  else 85

/-- `katss_unhash` (hash_functions.c, lines 83-97): fills the key buffer from
index `kmer - 1` down to 0 with `hash_value % 4`, dividing the hash by 4 at
each step, so the last character comes from the lowest digit. -/
def katssUnhash (hash : ℕ) (kmer : ℕ) (use_t : Bool) : List ℕ :=
  match kmer with
  | 0 => []
  | k + 1 => katssUnhash (hash / 4) k use_t ++ [unhashChar (hash % 4) use_t]

/-- The bytes the claim C5 quantifies over: uppercase `A`, `C`, `G`, `T`. -/
def isACGT (b : ℕ) : Prop := b = 65 ∨ b = 67 ∨ b = 71 ∨ b = 84

instance (b : ℕ) : Decidable (isACGT b) := by unfold isACGT; infer_instance


/-! ## The count table (ikke KmerCounter/source/tables.c, katss_core.h) -/

/-- The `KatssCounter` state (katss_core.h): cells indexed directly by hash, a
running total, and the ordered list of removed kmer strings.  Cells are 64-bit
integers for k at most 12 and 32-bit for k in [13,16]; every run modelled in
this file stays far below both widths, so cell and total wraparound is not
modelled. -/
structure KatssCounter where
  kmer : ℕ
  capacity : ℕ
  cells : List ℕ
  total : ℕ
  removed : List (List ℕ)
deriving DecidableEq

/-- `katss_init_counter` (tables.c, lines 17-40): rejects k = 0 and k > 16,
otherwise allocates a zeroed table of `4 ^ k` cells with
`capacity = (1 << 2k) - 1`. -/
def katssInitCounter (kmer : ℕ) : Option KatssCounter :=
  if kmer = 0 ∨ 16 < kmer then none
  else some { kmer := kmer, capacity := 2 ^ (2 * kmer) - 1,
              cells := List.replicate (2 ^ (2 * kmer)) 0,
              total := 0, removed := [] }

/-- The cell value at a hash (the C table read `counter->table.small[hash]`,
resp. `.medium[hash]`). -/
def countAt (c : KatssCounter) (hash : ℕ) : ℕ := c.cells.getD hash 0

/-- `katss_increment` (tables.c, lines 85-97): bump the cell at `hash` and the
running total, each by one. -/
def katssIncrement (c : KatssCounter) (hash : ℕ) : KatssCounter :=
  match c with
  | ⟨kmer, capacity, cells, total, removed⟩ =>
    ⟨kmer, capacity, cells.set hash (cells.getD hash 0 + 1), total + 1, removed⟩

/-- `katss_increments` (tables.c, lines 68-82): under the table mutex, bump
the cell of every hash value in the array; after the loop the running total
is incremented once, by the single `counter->total++` statement. -/
def katssIncrements (c : KatssCounter) (hashes : List ℕ) : KatssCounter :=
  { c with
    cells := hashes.foldl (fun cs h => cs.set h (cs.getD h 0 + 1)) c.cells,
    total := c.total + 1 }

/-- `katss_get_from_hash` (tables.c, lines 189-240): fails when the hash
exceeds the capacity, otherwise yields the cell value (the `KATSS_DOUBLE`
branch casts it to double; counts stay far below 2^53, so the cast is
exact). -/
def katssGetFromHash (c : KatssCounter) (hash : ℕ) : Option ℕ :=
  if c.capacity < hash then none else some (countAt c hash)

/-- `kctr_push` (recounter.c, lines 378-399): append the removed kmer string
at the tail of the list; a NULL string is ignored (not modelled: callers in
this file always pass a kmer). -/
def kctrPush (c : KatssCounter) (s : List ℕ) : KatssCounter :=
  { c with removed := c.removed ++ [s] }

/-! ## seqfstrerror (seqfile/source/seqfstrerror.c) -/

/-- The static message table `seqf_err_msg` (seqfstrerror.c, lines 20-28):
seven entries, at indices 0 through 6. -/
def seqfErrMsg : List String :=
  ["No error",
   "Mutex failed to initialize",
   "Invalid mode passed to seqfopen",
   "Read failed, could not determine type of file",
   "Read failed, sequence is larger than input buffer",
   "Out of memory",
   "gets failed, sequence is larger than passed buffer"]

/-- The indices at which `seqfstrerror` (seqfstrerror.c, lines 46-54) reads
`seqf_err_msg`: none for code 1 (deferred to the OS `strerror`), index `k`
itself when `0 <= k <= 7`, and none otherwise (the fallback string is a
separate array). -/
def seqfstrerrorAccesses (k : ℤ) : List ℤ :=
  if k = 1 then []
  else if 0 ≤ k ∧ k ≤ 7 then [k]
  else []

/-- The indices at which `seqfstrerror_r` (seqfstrerror.c, lines 32-44) reads
`seqf_err_msg`: the `strncpy` source at line 38 when `0 <= k <= 7` (and
`k ≠ 1`), plus the unconditional `strlen(seqf_err_msg[_rnaferrno])` bounds
check at line 41 on every path that does not return at line 36. -/
def seqfstrerrorRAccesses (k : ℤ) : List ℤ :=
  if k = 1 then []
  else if 0 ≤ k ∧ k ≤ 7 then [k, k]
  else [k]

/-! ## The format classifier (katss KmerCounter/source/counter.c) -/

/-- `is_nucleotide` (counter.c, lines 588-604): the ten nucleotide letters
`A`, `C`, `G`, `T`, `U` in either case. -/
def isNucleotide (b : ℕ) : Bool :=
  b == 65 || b == 97 || b == 67 || b == 99 || b == 71 || b == 103 ||
  b == 84 || b == 116 || b == 85 || b == 117

/-- Split a byte stream into the records returned by `seqf_line`
(seqfread.c, lines 41-77): each record runs up to and including its newline;
a final newline-less remainder is its own record. -/
def splitAfterNl : List ℕ → List (List ℕ)
  | [] => []
  | b :: rest =>
    if b = 10 then [10] :: splitAfterNl rest
    else
      match splitAfterNl rest with
      | [] => [[b]]
      | l :: ls => (b :: l) :: ls

/-- The record sequence a `seqfgets` loop observes on a byte stream opened in
binary mode, for streams whose lines fit in the 64 KiB buffer: every
`seqf_line` record, and - when the stream is empty or ends with a newline -
one extra empty record at the moment the end of file is first discovered
(`seqf_line` hits `state->have == 0` before copying anything, breaks, and
returns the buffer holding only the terminator; the following call returns
NULL).  A stream ending mid-line sets the eof flag while returning the final
partial record, so no empty record follows it. -/
def classifierLines (content : List ℕ) : List (List ℕ) :=
  splitAfterNl content ++
    (if content = [] ∨ content.getLast? = some 10 then [[]] else [])

/-- The scan state of `determine_filetype` (counter.c, lines 536-539). -/
structure ClsState where
  linesRead : ℕ
  fastqScore : ℕ
  fastaScore : ℕ
  seqLines : ℕ
deriving DecidableEq

/-- One iteration of the `determine_filetype` scan loop (counter.c, lines
541-571).  `lines_read` is incremented before the checks, so line positions
are 1-based.  The raw-line test is the C double comparison
`(double)num/num_total > 0.9`; for the attainable values (integers bounded by
the 2^16 buffer size) the comparison coincides with the exact rational
comparison `10 * num > 9 * num_total`, including the `num_total = 0` case
where the C expression is NaN and the comparison is false. -/
def classifyLine (st : ClsState) (line : List ℕ) : ClsState :=
  let st := { st with linesRead := st.linesRead + 1 }
  let first := line.headD 0
  if first = 64 ∧ st.linesRead % 4 = 1 then
    { st with fastqScore := st.fastqScore + 1 }
  else if first = 43 ∧ st.linesRead % 4 = 3 then
    { st with fastqScore := st.fastqScore + 1 }
  else if first = 62 ∨ first = 59 then
    { st with fastaScore := st.fastaScore + 1 }
  else
    let num := (line.filter fun b => isNucleotide b).length
    if 9 * line.length < 10 * num then { st with seqLines := st.seqLines + 1 }
    else st

/-- The `determine_filetype` scan loop: records are consumed while
`lines_read < 10` held before the read (the loop condition also reads one
further record, with no effect on the tallies). -/
def classifyFold : ClsState → List (List ℕ) → ClsState
  | st, [] => st
  | st, l :: ls =>
    if st.linesRead < 10 then classifyFold (classifyLine st l) ls else st

/-- `determine_filetype` (counter.c, lines 524-585) on the byte stream of a
plain (uncompressed) file: scan at most 10 records, then decide
fastq / fasta / raw / unsupported. -/
def determineFiletype (content : List ℕ) : Char :=
  let st := classifyFold ⟨0, 0, 0, 0⟩ (classifierLines content)
  if 2 ≤ st.fastqScore then 'q'
  else if 0 < st.fastaScore then 'a'
  else if st.seqLines = 10 then 'r'
  else 'e'

/-- One scan step of the classifier described by claim C6, following the
claim's words: fastq and fasta evidence are tallied as in the source, but a
scanned line counts toward the raw tally exactly when at least 90% of its
characters are nucleotide letters (`10 * num >= 9 * num_total`), regardless
of which branch the line hit. -/
def claimClassifyLine (st : ClsState) (line : List ℕ) : ClsState :=
  let st := { st with linesRead := st.linesRead + 1 }
  let first := line.headD 0
  let st :=
    if first = 64 ∧ st.linesRead % 4 = 1 then
      { st with fastqScore := st.fastqScore + 1 }
    else if first = 43 ∧ st.linesRead % 4 = 3 then
      { st with fastqScore := st.fastqScore + 1 }
    else if first = 62 ∨ first = 59 then
      { st with fastaScore := st.fastaScore + 1 }
    else st
  let num := (line.filter fun b => isNucleotide b).length
  if 9 * line.length ≤ 10 * num then { st with seqLines := st.seqLines + 1 }
  else st

/-- The scan loop of the claimed classifier, over the same first 10 records
as the source classifier. -/
def claimClassifyFold : ClsState → List (List ℕ) → ClsState
  | st, [] => st
  | st, l :: ls =>
    if st.linesRead < 10 then claimClassifyFold (claimClassifyLine st l) ls
    else st

/-- The classifier described by claim C6, stated from the claim's words and
to be compared with `determineFiletype`, the classifier of the source. -/
def claimedFiletype (content : List ℕ) : Char :=
  let st := claimClassifyFold ⟨0, 0, 0, 0⟩ (classifierLines content)
  if 2 ≤ st.fastqScore then 'q'
  else if 0 < st.fastaScore then 'a'
  else if st.seqLines = 10 then 'r'
  else 'e'

/-- Fastq evidence of the amended claim C6: a record at 1-based position `p`
starting with `@` at a position 1 mod 4, or with `+` at a position 3 mod 4. -/
def fastqEvidence (p : ℕ) (line : List ℕ) : Bool :=
  (line.headD 0 == 64 && p % 4 == 1) || (line.headD 0 == 43 && p % 4 == 3)

/-- Fasta evidence of the amended claim C6: a record starting with `>` or `;`
that is not fastq evidence. -/
def fastaEvidence (p : ℕ) (line : List ℕ) : Bool :=
  !fastqEvidence p line && (line.headD 0 == 62 || line.headD 0 == 59)

/-- Raw line of the amended claim C6: strictly more than 90% of the record's
characters are nucleotide letters. -/
def rawLine (line : List ℕ) : Bool :=
  9 * line.length < 10 * (line.filter fun b => isNucleotide b).length

/-- Tallies of the amended claim C6: scanning records from 1-based position
`p`, count fastq evidence, fasta evidence, and raw lines, where a record is
tallied raw exactly when it is neither fastq nor fasta evidence and is a raw
line (strict 90% majority). -/
def amendedTallies : ℕ → List (List ℕ) → ℕ × ℕ × ℕ
  | _, [] => (0, 0, 0)
  | p, l :: ls =>
    let t := amendedTallies (p + 1) ls
    if fastqEvidence p l then (t.1 + 1, t.2.1, t.2.2)
    else if fastaEvidence p l then (t.1, t.2.1 + 1, t.2.2)
    else if rawLine l then (t.1, t.2.1, t.2.2 + 1)
    else t

/-- The classifier of the amended claim C6: tally the first 10 records from
position 1, then decide with the claimed cascade. -/
def amendedFiletype (content : List ℕ) : Char :=
  let t := amendedTallies 1 ((classifierLines content).take 10)
  if 2 ≤ t.1 then 'q'
  else if 0 < t.2.1 then 'a'
  else if t.2.2 = 10 then 'r'
  else 'e'

/-- Concrete classifier input: a raw line of ten `A`s and its newline. -/
def lineTenA : List ℕ := List.replicate 10 65 ++ [10]

/-- Concrete classifier input for C6: nine ten-`A` lines and a final
newline-less line of nine `A`s and one `N`, whose nucleotide share is exactly
90%. -/
def c6content1 : List ℕ :=
  (List.replicate 9 lineTenA).flatten ++ (List.replicate 9 65 ++ [78])

/-- Concrete classifier input for C6: ten-`A` lines except that the third
line starts with `+` followed by nineteen `A`s, putting its nucleotide share
above 90% while the scanner counts it as fastq evidence. -/
def c6content2 : List ℕ :=
  lineTenA ++ lineTenA ++ (43 :: (List.replicate 19 65 ++ [10])) ++
    (List.replicate 7 lineTenA).flatten

/-! ## A model of C doubles -/

/-- Model of an IEEE-754 double used by the enrichment and statistics code:
an exact real number, or NaN, or an infinity.  Rounding of exact arithmetic
and signed zeros are not modelled; the special-value rules of the operations
below follow IEEE semantics as C evaluates them. -/
inductive Dbl where
  | nan
  | pinf
  | ninf
  | fin (x : ℝ)

/-- The largest finite double, `DBL_MAX` = (2 - 2^-52) * 2^1023. -/
noncomputable def dblMax : ℝ := 2 ^ 1024 - 2 ^ 971

/-- The rational value of `DBL_MAX`, for the computable mirror. -/
def dblMaxQ : ℚ := 2 ^ 1024 - 2 ^ 971

/-- Double comparison `<`: false whenever either side is NaN. -/
def dlt : Dbl → Dbl → Prop
  | .fin a, .fin b => a < b
  | .fin _, .pinf => True
  | .ninf, .fin _ => True
  | .ninf, .pinf => True
  | _, _ => False

/-- Double comparison `<=`: false whenever either side is NaN. -/
def dle : Dbl → Dbl → Prop
  | .fin a, .fin b => a ≤ b
  | .fin _, .pinf => True
  | .ninf, .fin _ => True
  | .ninf, .pinf => True
  | .pinf, .pinf => True
  | .ninf, .ninf => True
  | _, _ => False

/-- Double comparison `==`: false whenever either side is NaN (NaN is not
equal to itself). -/
def deq : Dbl → Dbl → Prop
  | .fin a, .fin b => a = b
  | .pinf, .pinf => True
  | .ninf, .ninf => True
  | _, _ => False

/-- Double negation. -/
def dneg : Dbl → Dbl
  | .nan => .nan
  | .pinf => .ninf
  | .ninf => .pinf
  | .fin a => .fin (-a)

/-- Double absolute value (`fabs`). -/
def dabs : Dbl → Dbl
  | .nan => .nan
  | .pinf => .pinf
  | .ninf => .pinf
  | .fin a => .fin |a|

/-- Double addition. -/
def dadd : Dbl → Dbl → Dbl
  | .nan, _ => .nan
  | _, .nan => .nan
  | .fin a, .fin b => .fin (a + b)
  | .fin _, .pinf => .pinf
  | .fin _, .ninf => .ninf
  | .pinf, .fin _ => .pinf
  | .ninf, .fin _ => .ninf
  | .pinf, .pinf => .pinf
  | .ninf, .ninf => .ninf
  | .pinf, .ninf => .nan
  | .ninf, .pinf => .nan

/-- Double subtraction, as addition of the negation. -/
def dsub (a b : Dbl) : Dbl := dadd a (dneg b)

open scoped Classical in
/-- Double multiplication; zero times an infinity is NaN. -/
noncomputable def dmul : Dbl → Dbl → Dbl
  | .nan, _ => .nan
  | _, .nan => .nan
  | .fin a, .fin b => .fin (a * b)
  | .fin a, .pinf => if a = 0 then .nan else if 0 < a then .pinf else .ninf
  | .fin a, .ninf => if a = 0 then .nan else if 0 < a then .ninf else .pinf
  | .pinf, .fin b => if b = 0 then .nan else if 0 < b then .pinf else .ninf
  | .ninf, .fin b => if b = 0 then .nan else if 0 < b then .ninf else .pinf
  | .pinf, .pinf => .pinf
  | .ninf, .ninf => .pinf
  | .pinf, .ninf => .ninf
  | .ninf, .pinf => .ninf

open scoped Classical in
/-- Double division; a nonzero finite value divided by zero is an infinity
carrying the numerator's sign, zero by zero is NaN. -/
noncomputable def ddiv : Dbl → Dbl → Dbl
  | .nan, _ => .nan
  | _, .nan => .nan
  | .fin a, .fin b =>
      if b = 0 then (if a = 0 then .nan else if 0 < a then .pinf else .ninf)
      else .fin (a / b)
  | .fin _, .pinf => .fin 0
  | .fin _, .ninf => .fin 0
  | .pinf, .fin b => if b < 0 then .ninf else .pinf
  | .ninf, .fin b => if b < 0 then .pinf else .ninf
  | .pinf, _ => .nan
  | .ninf, _ => .nan

open scoped Classical in
/-- Double square root: NaN on negative or NaN input. -/
noncomputable def dsqrt : Dbl → Dbl
  | .nan => .nan
  | .pinf => .pinf
  | .ninf => .nan
  | .fin a => if a < 0 then .nan else .fin (Real.sqrt a)

open scoped Classical in
/-- Double base-2 logarithm (`log2`): -inf at zero, NaN on negatives. -/
noncomputable def dlog2 : Dbl → Dbl
  | .nan => .nan
  | .pinf => .pinf
  | .ninf => .nan
  | .fin a => if 0 < a then .fin (Real.logb 2 a) else if a = 0 then .ninf else .nan

/-- Double exponential (`exp`). -/
noncomputable def dexp : Dbl → Dbl
  | .nan => .nan
  | .pinf => .pinf
  | .ninf => .fin 0
  | .fin a => .fin (Real.exp a)

open scoped Classical in
/-- Double `log1p`: -inf at -1, NaN below -1. -/
noncomputable def dlog1p : Dbl → Dbl
  | .nan => .nan
  | .pinf => .pinf
  | .ninf => .nan
  | .fin a =>
      if -1 < a then .fin (Real.log (1 + a)) else if a = -1 then .ninf else .nan

/-! ## Enrichments (katss KmerCounter/source/enrichments.c) -/

/-- One enrichment entry (`KatssEnrichment` in enrichments.h): the kmer hash
key and its enrichment value. -/
structure KatssEnrichment where
  key : ℕ
  enrichment : Dbl

/-- The sort order realized by `compare` (enrichments.c, lines 472-493), as
the relation "compare a b is at most 0": NaN entries sort after everything
(mutually tied), non-NaN entries sort by descending enrichment. -/
def enrLe (a b : KatssEnrichment) : Prop :=
  b.enrichment = Dbl.nan ∨
    (a.enrichment ≠ Dbl.nan ∧ b.enrichment ≠ Dbl.nan ∧ dle b.enrichment a.enrichment)

open scoped Classical in
/-- The qsort call of `katss_compute_enrichments`, modelled as a comparison
sort over the `compare` order (qsort's order among ties is unspecified; any
sort realizing the comparator is a faithful model). -/
noncomputable def sortEnrichments (l : List KatssEnrichment) : List KatssEnrichment :=
  List.insertionSort enrLe l

/-- The enrichment value the loop body of `katss_compute_enrichments` and
`katss_top_enrichment` computes for a hash with counts `t`, `c` and totals
`tT`, `cT`: `(t / tT) / (c / cT)`, all in doubles. -/
noncomputable def enrValue (t tT c cT : ℕ) : Dbl :=
  ddiv (ddiv (.fin t) (.fin tT)) (ddiv (.fin c) (.fin cT))

/-- `katss_compute_enrichments` (enrichments.c, lines 17-52): NULL when the
two counters' k differ; otherwise one entry per hash `i` in
`[0, capacity]` - NaN when either cell is zero, else the ratio of normalized
frequencies, log2-transformed when `normalize` - sorted with `compare`. -/
noncomputable def katssComputeEnrichments (test ctrl : KatssCounter)
    (normalize : Bool) : Option (List KatssEnrichment) :=
  if test.kmer ≠ ctrl.kmer then none
  else some <| sortEnrichments <|
    (List.range (test.capacity + 1)).map fun i =>
      if countAt test i = 0 ∨ countAt ctrl i = 0 then ⟨i, Dbl.nan⟩
      else
        let r := enrValue (countAt test i) test.total (countAt ctrl i) ctrl.total
        ⟨i, if normalize then dlog2 r else r⟩

open scoped Classical in
/-- The loop body of `katss_top_enrichment` (enrichments.c, lines 388-404):
skip a hash with a zero cell on either side, otherwise compute the
enrichment (log2 under `normalize`) and keep the strictly larger value. -/
noncomputable def topStep (test ctrl : KatssCounter) (normalize : Bool)
    (st : ℕ × Dbl) (i : ℕ) : ℕ × Dbl :=
  if countAt test i = 0 ∨ countAt ctrl i = 0 then st
  else
    let cur := enrValue (countAt test i) test.total (countAt ctrl i) ctrl.total
    let cur := if normalize then dlog2 cur else cur
    if dlt st.2 cur then (i, cur) else st

open scoped Classical in
/-- `katss_top_enrichment` (enrichments.c, lines 367-415): sentinel
`{key 0, -DBL_MAX}` when either total is zero; otherwise a running maximum
over the hashes `i` in `[0, capacity)` (the loop bound is strict), skipping
hashes where either cell is zero; if no candidate beat `-DBL_MAX`, the
sentinel is returned. -/
noncomputable def katssTopEnrichment (test ctrl : KatssCounter)
    (normalize : Bool) : KatssEnrichment :=
  if ctrl.total = 0 ∨ test.total = 0 then ⟨0, .fin (-dblMax)⟩
  else
    let st := (List.range ctrl.capacity).foldl (topStep test ctrl normalize)
      (0, .fin (-dblMax))
    if deq st.2 (.fin (-dblMax)) then ⟨0, .fin (-dblMax)⟩ else ⟨st.1, st.2⟩

/-- Computable rational mirror of the `katss_top_enrichment` scan for
`normalize = false`, used only to evaluate concrete runs through
`katssTopEnrichment_eq_mirror`. -/
def topEnrichmentQ (test ctrl : KatssCounter) : ℕ × ℚ :=
  if ctrl.total = 0 ∨ test.total = 0 then (0, -dblMaxQ)
  else
    match (List.range ctrl.capacity).foldl
      (fun (st : ℕ × ℚ) i =>
        match st with
        | (bk, bv) =>
          if countAt test i = 0 ∨ countAt ctrl i = 0 then (bk, bv)
          else
            let cur : ℚ := ((countAt test i : ℚ) / test.total) /
              ((countAt ctrl i : ℚ) / ctrl.total)
            if bv < cur then (i, cur) else (bk, bv))
      (0, -dblMaxQ) with
    | (bk, bv) => if bv = -dblMaxQ then (0, -dblMaxQ) else (bk, bv)

/-! ## Bootstrap statistics (katss_enrichment.c, helpers/t_test2.c) -/

/-- The two-sample Welford aggregate `t_test2_aggregate` (t_test2.c, lines
8-22).  The mean and M2 accumulators only ever hold finite values: updates
are guarded on NaN and every modelled call site passes finite counts or NaN
(never an infinity), so they are carried as exact reals; `rMean` and `rM2`
are the aggregate's `df` and `pval` fields as reused by `running_stdev` for
the ratio statistics.  The possibly non-finite outputs of the finalize step
are produced in `Dbl`. -/
structure TT2 where
  xMean : ℝ
  xM2 : ℝ
  xCount : ℕ
  yMean : ℝ
  yM2 : ℝ
  yCount : ℕ
  rMean : ℝ
  rM2 : ℝ

/-- `t_test2_create` (t_test2.c, lines 25-40): everything starts at zero. -/
def tt2Create : TT2 := ⟨0, 0, 0, 0, 0, 0, 0, 0⟩

/-- `t_test2_update` (t_test2.c, lines 48-73): each of the two samples is
folded into its Welford accumulator unless it is NaN. -/
noncomputable def tTest2Update (a : TT2) (x y : Dbl) : TT2 :=
  let a :=
    match x with
    | .fin v =>
      let cnt : ℕ := a.xCount + 1
      let delta := v - a.xMean
      let mean := a.xMean + delta / (cnt : ℝ)
      { a with xCount := cnt, xMean := mean, xM2 := a.xM2 + delta * (v - mean) }
    | _ => a
  match y with
  | .fin v =>
    let cnt : ℕ := a.yCount + 1
    let delta := v - a.yMean
    let mean := a.yMean + delta / (cnt : ℝ)
    { a with yCount := cnt, yMean := mean, yM2 := a.yM2 + delta * (v - mean) }
  | _ => a

/-- `running_stdev` (katss_enrichment.c, lines 36-42): one Welford step with
an externally supplied run index; returns the new mean and M2. -/
noncomputable def runningStdev (mean m2 value : ℝ) (run : ℕ) : ℝ × ℝ :=
  let mean' := mean + (value - mean) / (run : ℝ)
  (mean', m2 + (value - mean) * (value - mean'))

/-- One bootstrap iteration of `bootstrap_regular` (katss_enrichment.c, lines
258-270) as seen by one kmer cell at iteration index `i`: the sub-sampled
test and control counts are mapped to NaN when zero, fed to
`t_test2_update`, and, when both are non-NaN, their ratio updates the reused
`df`/`pval` accumulators through `running_stdev` with `run = i + 1`. -/
noncomputable def bootstrapStep (a : TT2) (i : ℕ) (tc cc : ℕ) : TT2 :=
  let xv : Dbl := if tc = 0 then .nan else .fin tc
  let yv : Dbl := if cc = 0 then .nan else .fin cc
  let a := tTest2Update a xv yv
  if tc ≠ 0 ∧ cc ≠ 0 then
    let p := runningStdev a.rMean a.rM2 ((tc : ℝ) / cc) (i + 1)
    { a with rMean := p.1, rM2 := p.2 }
  else a

/-- The aggregate a kmer cell accumulates over the bootstrap iterations of
`bootstrap_regular`, given its per-iteration sub-sampled test and control
counts. -/
noncomputable def bootstrapAggregate (vals : List (ℕ × ℕ)) : TT2 :=
  (vals.enum).foldl (fun a p => bootstrapStep a p.1 p.2.1 p.2.2) tt2Create

/-- `reg_incomplete_beta` (t_test2.c, lines 85-92) with the TOMS708 `bratio`
routine supplied as the parameter `br` (its implementation is not part of
the sources; modelled from the spec: `br a b x y logP` returns the
regularized incomplete beta ratio `I_x(a,b)` and its complement).  Computes
`x1 = 0.5 - x + 0.5` and selects `w` or `wc`. -/
noncomputable def regIncompleteBeta (br : Dbl → Dbl → Dbl → Dbl → Bool → Dbl × Dbl)
    (x a b : Dbl) (lowerTail : Bool) (logP : Bool) : Dbl :=
  let x1 := dadd (dsub (.fin (1 / 2)) x) (.fin (1 / 2))
  let p := br a b x x1 logP
  if lowerTail then p.1 else p.2

open scoped Classical in
/-- `t_test_cdf` (t_test2.c, lines 103-125): the Student-t CDF via the
regularized incomplete beta, with the tail flipped for nonpositive `t`. -/
noncomputable def tTestCdf (br : Dbl → Dbl → Dbl → Dbl → Bool → Dbl × Dbl)
    (t df : Dbl) (lowerTail logP : Bool) : Dbl :=
  let nx := dadd (.fin 1) (dmul (ddiv t df) t)
  let val :=
    if dlt (dmul t t) df then
      regIncompleteBeta br (ddiv (dmul t t) (dadd df (dmul t t)))
        (.fin (1 / 2)) (ddiv df (.fin 2)) false logP
    else
      regIncompleteBeta br (ddiv (.fin 1) nx) (ddiv df (.fin 2)) (.fin (1 / 2))
        true logP
  let lowerTail := if dle t (.fin 0) then !lowerTail else lowerTail
  if logP then
    if lowerTail then dlog1p (dmul (.fin (-(1 / 2))) (dexp val))
    else dsub val (.fin (Real.log 2))
  else
    let val := ddiv val (.fin 2)
    if lowerTail then dadd (dsub (.fin (1 / 2)) val) (.fin (1 / 2)) else val

/-- `t_test2_finalize` (t_test2.c, lines 127-152) followed by the read of the
aggregate's `pval` field in `bootstrap_regular`: when either sample count is
below 2, finalize returns early and the field still holds the ratio M2
accumulator; otherwise Welch's t statistic and degrees of freedom are formed
and the p-value is `2 * t_test_cdf(-|t|, df, lower, non-log)`. -/
noncomputable def tTest2FinalizePval (br : Dbl → Dbl → Dbl → Dbl → Bool → Dbl × Dbl)
    (a : TT2) : Dbl :=
  if a.xCount < 2 ∨ a.yCount < 2 then .fin a.rM2
  else
    let xVar := a.xM2 / ((a.xCount : ℝ) - 1)
    let yVar := a.yM2 / ((a.yCount : ℝ) - 1)
    let tStat := ddiv (.fin (a.xMean - a.yMean))
      (.fin (Real.sqrt (xVar / a.xCount + yVar / a.yCount)))
    let xva := xVar / a.xCount
    let yva := yVar / a.yCount
    let num := (xva + yva) * (xva + yva)
    let denom := xva * xva / ((a.xCount : ℝ) - 1) + yva * yva / ((a.yCount : ℝ) - 1)
    let df := ddiv (.fin num) (.fin denom)
    dmul (.fin 2) (tTestCdf br (dneg (dabs tStat)) df true false)

/-- The per-kmer record reported by `bootstrap_regular` (katss_enrichment.c,
lines 277-287), as the triple (rval, stdev, pval): stdev is
`sqrt(pval_accumulator / (iters - 1))` computed before finalize, rval is the
ratio mean accumulator (log2 when normalize), and pval is the field after
`t_test2_finalize`. -/
noncomputable def bootstrapRegularKmer (br : Dbl → Dbl → Dbl → Dbl → Bool → Dbl × Dbl)
    (vals : List (ℕ × ℕ)) (normalize : Bool) : Dbl × Dbl × Dbl :=
  let a := bootstrapAggregate vals
  let stdev := dsqrt (ddiv (.fin a.rM2) (.fin ((vals.length : ℝ) - 1)))
  let rval := if normalize then dlog2 (.fin a.rMean) else .fin a.rMean
  (rval, stdev, tTest2FinalizePval br a)

/-- A concrete admissible instantiation of the `bratio` parameter (any
function whose outputs are fins in [0,1] satisfies the range hypothesis of
the bootstrap theorems). -/
def brZero : Dbl → Dbl → Dbl → Dbl → Bool → Dbl × Dbl :=
  fun _ _ _ _ _ => (.fin 0, .fin 1)

/-! ## The hasher state machine (hash_functions.c)

Byte buffers are `List ℕ`; the NUL terminator of a C buffer is the end of
the list, so a model buffer never contains a 0 byte (the seqf readers never
store one for the NUL-free streams considered here).  All counters are `ℕ`
with an explicit `% 2 ^ 32` where the C arithmetic is on `uint32_t`. -/

/-- The 256-entry classification table `base` (hash_functions.c, lines
32-49): nucleotides map to their 2-bit codes, `0x00 ↦ 4`, `> ↦ 5`, `@ ↦ 6`,
`+ ↦ 7`, newline `↦ 8`, everything else `↦ 9`.  Indices at or above 256
cannot arise from bytes. -/
def baseClass (b : ℕ) : ℕ :=
  if b = 0 then 4
  else if b = 10 then 8
  else if b = 43 then 7
  else if b = 62 then 5
  else if b = 64 then 6
  else if b = 65 ∨ b = 97 then 0
  else if b = 67 ∨ b = 99 then 1
  else if b = 71 ∨ b = 103 then 2
  else if b = 84 ∨ b = 116 ∨ b = 85 ∨ b = 117 then 3
  else 9

/-- `KatssHasher` (katss_core.h): the kmer length and the derived mask are
fixed at init; `seq` is the unread suffix of the current buffer; `pos` is the
window fill position shared with the `i` index of the base-hash loops (the
two are equal in every branch); `prevHash` is `previous_hash`;
`hasPrev`/`endOfSeq`/`endno` mirror the flag fields. -/
structure KatssHasher where
  kmer : ℕ
  seq : List ℕ
  pos : ℕ
  prevHash : ℕ
  hasPrev : Bool
  endOfSeq : Bool
  endno : ℕ
deriving DecidableEq

/-- `katss_init_hasher` (hash_functions.c, lines 55-69): all state cleared,
no sequence attached. -/
def katssInitHasher (kmer : ℕ) : KatssHasher :=
  { kmer := kmer, seq := [], pos := 0, prevHash := 0,
    hasPrev := false, endOfSeq := false, endno := 0 }

/-- Result of one base-hash call `fbh_r`/`fbh_a`/`fbh_q`: the returned hash,
the advanced sequence suffix, the window position, whether the terminator
was hit (which in C also sets `end_of_seq := true` and
`has_previous := false`), and the `endno` value when the call stores one. -/
structure FbhOut where
  hash : ℕ
  seq : List ℕ
  pos : ℕ
  endHit : Bool
  endno : Option ℕ

/-- The scan loop of `fbh_r` (hash_functions.c, lines 190-207), recursing on
the unread suffix.  The loop index `i` always equals `pos` (both advance on
nucleotides, both reset to 0 in the default branch), so only `pos` is
carried.  Nucleotides push a 2-bit code (`uint32_t` arithmetic), the
terminator returns with the partial state (the C `return` happens before
`++sequence`, so the suffix is unchanged), any other byte restarts the
window. -/
def fbhRLoop (kmer : ℕ) : List ℕ → ℕ → ℕ → FbhOut
  | seq, pos, hash =>
    if kmer ≤ pos then ⟨hash, seq, 0, false, none⟩
    else
      match seq with
      | [] => ⟨hash, [], pos, true, none⟩
      | b :: rest =>
        let x := baseClass b
        if x < 4 then fbhRLoop kmer rest (pos + 1) ((hash * 4 + x) % 2 ^ 32)
        else if x = 4 then ⟨hash, b :: rest, pos, true, none⟩
        else fbhRLoop kmer rest 0 0

/-- `fbh_r` (hash_functions.c, lines 182-210): seed the hash with
`previous_hash` when a window is partially filled, run the scan loop, and
fold its outcome back into the hasher (the terminator branch sets
`end_of_seq` and clears `has_previous`). -/
def fbhR (h : KatssHasher) : ℕ × KatssHasher :=
  match h with
  | ⟨kmer, seq, pos, prevHash, hasPrev, endOfSeq, endno⟩ =>
    match fbhRLoop kmer seq pos (if pos ≠ 0 then prevHash else 0) with
    | ⟨hash, seq2, pos2, endHit, endno2⟩ =>
      (hash, ⟨kmer, seq2, pos2, prevHash,
              (if endHit then false else hasPrev),
              (if endHit then true else endOfSeq), endno2.getD endno⟩)

/-- `indxchr` (hash_functions.c, lines 343-353): index of the first matching
byte before the terminator, `none` for not found (C returns -1). -/
def indxchr (s : List ℕ) (c : ℕ) : Option ℕ :=
  s.findIdx? (fun b => b = c)

/-- The scan loop of `fbh_a` (hash_functions.c, lines 221-253): like `fbh_r`
plus a newline skip (`i--` then `i++` leaves `pos` untouched) and a header
branch on `>`: skip to past the next newline (index found by `indxchr`, then
the loop's own `++sequence`), or end the buffer with `endno = 1` when no
newline remains (the C sequence pointer then rests on the `>`). -/
def fbhALoop (kmer : ℕ) : List ℕ → ℕ → ℕ → FbhOut
  | seq, pos, hash =>
    if kmer ≤ pos then ⟨hash, seq, 0, false, none⟩
    else
      match seq with
      | [] => ⟨hash, [], pos, true, none⟩
      | b :: rest =>
        let x := baseClass b
        if x < 4 then fbhALoop kmer rest (pos + 1) ((hash * 4 + x) % 2 ^ 32)
        else if x = 4 then ⟨hash, b :: rest, pos, true, none⟩
        else if x = 5 then
          match hidx : indxchr (b :: rest) 10 with
          | none => ⟨0, b :: rest, 0, true, some 1⟩
          | some i => fbhALoop kmer ((b :: rest).drop (i + 1)) 0 0
        else if x = 8 then fbhALoop kmer rest pos hash
        else fbhALoop kmer rest 0 0
termination_by seq _ _ => seq.length
decreasing_by
  all_goals simp_all [List.length_drop]
  all_goals omega

/-- `fbh_a` (hash_functions.c, lines 213-256). -/
def fbhA (h : KatssHasher) : ℕ × KatssHasher :=
  match h with
  | ⟨kmer, seq, pos, prevHash, hasPrev, endOfSeq, endno⟩ =>
    match fbhALoop kmer seq pos (if pos ≠ 0 then prevHash else 0) with
    | ⟨hash, seq2, pos2, endHit, endno2⟩ =>
      (hash, ⟨kmer, seq2, pos2, prevHash,
              (if endHit then false else hasPrev),
              (if endHit then true else endOfSeq), endno2.getD endno⟩)

/-- The scan loop of `fbh_q` (hash_functions.c, lines 269-321): like `fbh_a`
with the header byte `@` (class 6, skip one line, `endno = 1` when cut) and
the separator `+` (class 7, skip past the next newline and then to the
second newline, with `endno = 2` resp. `1` when the buffer ends first); a
`>` falls into the default branch here. -/
def fbhQLoop (kmer : ℕ) : List ℕ → ℕ → ℕ → FbhOut
  | seq, pos, hash =>
    if kmer ≤ pos then ⟨hash, seq, 0, false, none⟩
    else
      match seq with
      | [] => ⟨hash, [], pos, true, none⟩
      | b :: rest =>
        let x := baseClass b
        if x < 4 then fbhQLoop kmer rest (pos + 1) ((hash * 4 + x) % 2 ^ 32)
        else if x = 4 then ⟨hash, b :: rest, pos, true, none⟩
        else if x = 6 then
          match indxchr (b :: rest) 10 with
          | none => ⟨0, b :: rest, 0, true, some 1⟩
          | some i => fbhQLoop kmer ((b :: rest).drop (i + 1)) 0 0
        else if x = 7 then
          match indxchr (b :: rest) 10 with
          | none => ⟨0, b :: rest, 0, true, some 2⟩
          | some i =>
            let s2 := (b :: rest).drop (i + 1)
            match indxchr s2 10 with
            | none => ⟨0, s2, 0, true, some 1⟩
            | some j => fbhQLoop kmer (s2.drop (j + 1)) 0 0
        else if x = 8 then fbhQLoop kmer rest pos hash
        else fbhQLoop kmer rest 0 0
termination_by seq _ _ => seq.length
decreasing_by
  all_goals simp_all [List.length_drop]
  all_goals omega

/-- `fbh_q` (hash_functions.c, lines 261-324). -/
def fbhQ (h : KatssHasher) : ℕ × KatssHasher :=
  match h with
  | ⟨kmer, seq, pos, prevHash, hasPrev, endOfSeq, endno⟩ =>
    match fbhQLoop kmer seq pos (if pos ≠ 0 then prevHash else 0) with
    | ⟨hash, seq2, pos2, endHit, endno2⟩ =>
      (hash, ⟨kmer, seq2, pos2, prevHash,
              (if endHit then false else hasPrev),
              (if endHit then true else endOfSeq), endno2.getD endno⟩)

/-- `frh` (hash_functions.c, lines 328-332): `((previous_hash << 2) | x) &
mask` on `uint32_t`, with `mask = (1 << 2*kmer) - 1` fixed at init. -/
def frh (prev x kmer : ℕ) : ℕ :=
  ((prev * 4) % 2 ^ 32 ||| x) &&& (2 ^ (2 * kmer) - 1)

/-- One `katss_get_fh` call (hash_functions.c, lines 134-178).  `hv` is the
caller's `hash_value` variable (the C out-parameter `*hash`, which the
end-of-buffer branch leaves untouched); the result is the returned flag, the
new `hash_value`, and the updated hasher.  A filetype other than r/a/q only
prints an error in C and leaves `*hash` alone; it never occurs in the
callers modelled here. -/
def katssGetFh (h : KatssHasher) (hv : ℕ) (ft : Char) : Bool × ℕ × KatssHasher :=
  if ¬ h.hasPrev then
    match (if ft = 'r' then fbhR h else if ft = 'a' then fbhA h
           else if ft = 'q' then fbhQ h else (hv, h)) with
    | (hash, h1) =>
      match h1 with
      | ⟨kmer, seq, pos, _, hasPrev, endOfSeq, endno⟩ =>
        (¬ endOfSeq, hash,
         ⟨kmer, seq, pos, hash, (if endOfSeq then hasPrev else true), endOfSeq, endno⟩)
  else
    match h with
    | ⟨kmer, seq0, pos, prevHash, hasPrev, endOfSeq, endno⟩ =>
      match (if ft ≠ 'r' ∧ seq0.head? = some 10 then seq0.tail else seq0) with
      | [] => (false, hv, ⟨kmer, [], pos, hv, hasPrev, true, endno⟩)
      | b :: rest =>
        let x := baseClass b
        if x < 4 then
          let hash := frh prevHash x kmer
          (true, hash, ⟨kmer, rest, pos, hash, hasPrev, endOfSeq, endno⟩)
        else if 4 < x then
          match (if ft = 'r' then fbhR ⟨kmer, b :: rest, pos, prevHash, hasPrev, endOfSeq, endno⟩
                 else if ft = 'a' then fbhA ⟨kmer, b :: rest, pos, prevHash, hasPrev, endOfSeq, endno⟩
                 else if ft = 'q' then fbhQ ⟨kmer, b :: rest, pos, prevHash, hasPrev, endOfSeq, endno⟩
                 else (hv, ⟨kmer, b :: rest, pos, prevHash, hasPrev, endOfSeq, endno⟩)) with
          | (hash, h1) =>
            match h1 with
            | ⟨kmer2, seq2, pos2, _, hasPrev2, endOfSeq2, endno2⟩ =>
              (¬ endOfSeq2, hash, ⟨kmer2, seq2, pos2, hash, hasPrev2, endOfSeq2, endno2⟩)
        else
          (false, hv, ⟨kmer, b :: rest, pos, hv, hasPrev, true, endno⟩)

/-- The skip in `handle_endno` (hash_functions.c, lines 110-114): advance to
the first newline, then one further.  When no newline remains, the C pointer
walks to the terminator and one past it; the model clamps at the empty
suffix, whose head reads as NUL exactly like the C position on the
terminator (the one-past-NUL read is out of the modelled runs). -/
def skipPastNl (s : List ℕ) : List ℕ :=
  match indxchr s 10 with
  | none => []
  | some i => s.drop (i + 1)

/-- `handle_endno` (hash_functions.c, lines 107-127): apply the deferred
header skip recorded in `endno` (two newline skips for a cut fastq `+`
block), then flag an exhausted buffer (`endno := 1`, `end_of_seq := true`)
when the resulting position holds the terminator. -/
def handleEndno (h : KatssHasher) : KatssHasher :=
  match h with
  | ⟨kmer, seq, pos, prevHash, hasPrev, endOfSeq, endno⟩ =>
    match (if endno = 1 then skipPastNl seq
           else if endno = 2 then skipPastNl (skipPastNl seq) else seq) with
    | seq2 =>
      if seq2.headD 0 = 0 then ⟨kmer, seq2, pos, prevHash, hasPrev, true, 1⟩
      else ⟨kmer, seq2, pos, prevHash, hasPrev, endOfSeq, endno⟩

/-- `katss_set_seq` (hash_functions.c, lines 72-80): attach a fresh buffer,
clear `end_of_seq`, run `handle_endno`, then zero `endno`.  `pos`,
`previous_hash` and `has_previous` deliberately survive across buffers. -/
def katssSetSeq (h : KatssHasher) (buf : List ℕ) : KatssHasher :=
  match h with
  | ⟨kmer, _, pos, prevHash, hasPrev, _, endno⟩ =>
    match handleEndno ⟨kmer, buf, pos, prevHash, hasPrev, false, endno⟩ with
    | ⟨kmer2, seq2, pos2, prevHash2, hasPrev2, endOfSeq2, _⟩ =>
      ⟨kmer2, seq2, pos2, prevHash2, hasPrev2, endOfSeq2, 0⟩

/-- The drain loop `while(katss_get_fh(hasher, &hash_value, ft))
katss_increment(...)` shared by the counting and recounting routines:
the emitted hash values in order, with the final hasher and `hash_value`.
Fuel decreases per emission; every true return of `katss_get_fh` consumes
at least one buffer byte (established by the drain lemmas), so the callers'
fuel `buffer length + 1` reaches the false return. -/
def drainLoop (ft : Char) : ℕ → KatssHasher → ℕ → List ℕ × KatssHasher × ℕ
  | 0, h, hv => ([], h, hv)
  | fuel + 1, h, hv =>
    match katssGetFh h hv ft with
    | (true, hv2, h2) =>
      match drainLoop ft fuel h2 hv2 with
      | (emitted, h3, hv3) => (hv2 :: emitted, h3, hv3)
    | (false, hv2, h2) => ([], h2, hv2)

/-- One buffer round of the counting loops: `katss_set_seq` then the drain
loop. -/
def drainChunk (h : KatssHasher) (buf : List ℕ) (hv : ℕ) (ft : Char) :
    List ℕ × KatssHasher × ℕ :=
  drainLoop ft (buf.length + 1) (katssSetSeq h buf) hv

/-- `count_file` (counter.c, lines 292-338) for a byte stream shorter than
the 64 KiB read buffer: the file is opened in binary mode, so the single
`seqfread_unlocked` returns the whole stream, `buffer[still_reading] = 0`
terminates it, and the do-while exits after one iteration because
`still_reading` is below `BUFFER_SIZE`.  Streams needing several reads are
outside this model; every theorem below stays under the buffer size. -/
def countFile (content : List ℕ) (kmer : ℕ) (ft : Char) : Option KatssCounter :=
  match katssInitCounter kmer with
  | none => none
  | some counter =>
    match drainChunk (katssInitHasher kmer) content 0 ft with
    | (emitted, _, _) => some (emitted.foldl katssIncrement counter)

/-- `katss_count_kmers` (counter.c, lines 49-61): classify, reject the error
filetypes, then count (opening errors that produce 'N' involve the OS and
are not modelled). -/
def katssCountKmers (content : List ℕ) (kmer : ℕ) : Option KatssCounter :=
  let ft := determineFiletype content
  if ft = 'e' ∨ ft = 'N' then none
  else countFile content kmer ft

/-! ## Sequence search (seqseq.c) and masking (recounter.c cross_out)

Buffers are NUL-free byte lists (the seqf readers never store a 0 byte);
`clean_nt` takes a signed `char`, so bytes at or above 128 arrive as
negative values, modelled over `ℤ`. -/

/-- `clean_nt` (seqseq.c, lines 289-303): uppercase the lowercase letters
and turn U into T; the byte is first read through a signed `char`. -/
def cleanNt (b : ℕ) : ℤ :=
  let c : ℤ := if b < 128 then (b : ℤ) else (b : ℤ) - 256
  let r : ℤ := if 97 ≤ c ∧ c ≤ 122 then c - 32 else c
  if r = 85 then r - 1 else r

/-- Conversion of a C `int` value to `uint32_t` (two's complement). -/
def intToU32 (c : ℤ) : ℕ := (c % (2 ^ 32 : ℤ)).toNat

/-- `seqchr` (seqseq.c, lines 383-392): index of the first byte whose
cleaned value matches the cleaned target, `none` when the terminator is
reached first.  The targets passed by `seqseq` are nonzero, so the
terminator itself never matches. -/
def seqchrIdx (s : List ℕ) (nt : ℕ) : Option ℕ :=
  s.findIdx? (fun b => cleanNt b = cleanNt nt)

/-- The scan loop of `seqseq2` (seqseq.c, lines 50-52): push each cleaned
byte (as `uint32_t`) into the low 16-bit lane, exit on lane equality with
the needle hash (returning the pointer minus 2, i.e. two before the bytes
consumed so far) or at the terminator.  The loop guard `c != 0` only fails
at the terminator since no NUL-free byte cleans to 0. -/
def seqseq2Loop (h1 : ℕ) : List ℕ → ℕ → ℕ → Option ℕ
  | s, idx, h2 =>
    if h1 = h2 then some (idx - 2)
    else
      match s with
      | [] => none
      | b :: rest =>
        seqseq2Loop h1 rest (idx + 1)
          ((h2 * 2 ^ 16) % 2 ^ 32 ||| intToU32 (cleanNt b))

/-- `seqseq2` (seqseq.c, lines 45-53) on a haystack suffix: the needle hash
packs the two cleaned needle bytes into 16-bit lanes.  The callers pass
ACGT needle bytes (below 128), for which the C `int` shift is defined and
agrees with this arithmetic. -/
def seqseq2Idx (s : List ℕ) (n0 n1 : ℕ) : Option ℕ :=
  seqseq2Loop (intToU32 (cleanNt n0) * 2 ^ 16 ||| intToU32 (cleanNt n1)) s 0 0

/-- The scan loop of `seqseq3` (seqseq.c, lines 61-63): `h2 = (h2 | c) << 8`
on `uint32_t`, success returns the position minus 3. -/
def seqseq3Loop (h1 : ℕ) : List ℕ → ℕ → ℕ → Option ℕ
  | s, idx, h2 =>
    if h1 = h2 then some (idx - 3)
    else
      match s with
      | [] => none
      | b :: rest =>
        seqseq3Loop h1 rest (idx + 1)
          (((h2 ||| intToU32 (cleanNt b)) * 2 ^ 8) % 2 ^ 32)

/-- `seqseq3` (seqseq.c, lines 56-64) on a haystack suffix. -/
def seqseq3Idx (s : List ℕ) (n0 n1 n2 : ℕ) : Option ℕ :=
  seqseq3Loop
    (intToU32 (cleanNt n0) * 2 ^ 24 ||| intToU32 (cleanNt n1) * 2 ^ 16 |||
      intToU32 (cleanNt n2) * 2 ^ 8) s 0 0

/-- Byte read at an index; the position one past the end is the NUL
terminator, which reads as 0 (the BMH loop never reads further). -/
def byteAt (s : List ℕ) (i : ℕ) : ℕ := s.getD i 0

/-- `seqncmp` (seqseq.c, lines 337-344) reading at offsets: compare up to
`len` cleaned bytes, succeed early at the pattern terminator, fail at the
sequence terminator or on a mismatch. -/
def seqncmpB (s : List ℕ) (si : ℕ) (ne : List ℕ) (ni : ℕ) : ℕ → Bool
  | 0 => true
  | len + 1 =>
    let p := byteAt ne ni
    if p = 0 then true
    else
      let c := byteAt s si
      if c = 0 then false
      else if cleanNt p = cleanNt c then seqncmpB s (si + 1) ne (ni + 1) len
      else false

/-- The pair hash `hash2(p)` (seqseq.c, line 70) at position `q`:
`((size_t)clean(p[0]) - ((size_t)clean(p[-1]) << 3)) % 256`.  The `size_t`
conversions and subtraction work modulo `2^64`, and `256` divides `2^64`,
so the result is the integer `clean(p[0]) - 8*clean(p[-1])` modulo 256. -/
def hash2At (s : List ℕ) (q : ℕ) : ℕ :=
  ((cleanNt (byteAt s q) - cleanNt (byteAt s (q - 1)) * 8) % 256).toNat

/-- The bad-character table of `seqseq` (seqseq.c, lines 113-115) before the
needle-end write: entry `hash2(ne + i) ↦ i` for `i = 1 .. m1-1`, ascending,
over a zeroed table. -/
def bmhShiftTab (ne : List ℕ) (m1 : ℕ) : ℕ → ℕ :=
  (List.range' 1 (m1 - 1)).foldl (fun t i => Function.update t (hash2At ne i) i)
    (fun _ => 0)

/-- `shift1` (seqseq.c, line 118), read from the table before the final
write. -/
def bmhShift1 (ne : List ℕ) (m1 : ℕ) : ℕ := m1 - bmhShiftTab ne m1 (hash2At ne m1)

/-- The finished table after `shift[hash2(ne + m1)] = m1` (seqseq.c,
line 119). -/
def bmhTab (ne : List ℕ) (m1 : ℕ) : ℕ → ℕ :=
  Function.update (bmhShiftTab ne m1) (hash2At ne m1) m1

/-- The inner skip of `seqseq` (seqseq.c, lines 129-132): advance the probe
by `m1` while the table entry of the probe pair is 0 and the probe has not
passed `e`; the caller re-reads the table at the returned probe, which
equals the loop's `tmp`.  Fuel only pads termination; the callers pass
enough for the probe to leave `[0, e]`. -/
def bmhSkip (s : List ℕ) (tab : ℕ → ℕ) (m1 : ℕ) : ℕ → ℕ → ℕ → ℕ
  | 0, q, _ => q
  | fuel + 1, q, e =>
    if tab (hash2At s q) = 0 ∧ q ≤ e then bmhSkip s tab m1 fuel (q + m1) e
    else q

/-- The main loop of `seqseq` (seqseq.c, lines 121-152) on a haystack
suffix, with absolute indices: extend the verified end by
`strnlen(end + m1 + 1, 2048)` when the window start passed it (on a NUL-free
list the `strnlen` is the clamped remaining length), run the skip, back up
by the shift, and on a full-shift stop compare the window (`m1` bytes; the
last byte is forced by the pair-hash match), with the 8-byte filter probe
first when `m1 >= 15`.  The mismatch offset uses truncated subtraction:
below `m1 = 15` the C value wraps but is never read.  Fuel pads
termination; the window start strictly advances, so the callers' fuel
suffices. -/
def bmhLoop (s ne : List ℕ) (tab : ℕ → ℕ) (shift1 m1 : ℕ) :
    ℕ → ℕ → ℕ → ℕ → Option ℕ
  | 0, _, _, _ => none
  | fuel + 1, hs, e, offset =>
    let ee := if e < hs then e + min 2048 (s.length - (e + m1 + 1)) else e
    if e < hs ∧ ee < hs then none
    else
      let q := bmhSkip s tab m1 (s.length + 2) (hs + m1) ee
      let tmp := tab (hash2At s q)
      let hs2 := q - tmp
      if tmp < m1 then bmhLoop s ne tab shift1 m1 fuel hs2 ee offset
      else if (if m1 < 15 then true else seqncmpB s (hs2 + offset) ne offset 8) then
        if seqncmpB s hs2 ne 0 m1 then some hs2
        else
          bmhLoop s ne tab shift1 m1 fuel (hs2 + shift1) ee
            ((if 8 ≤ offset then offset else m1) - 8)
      else bmhLoop s ne tab shift1 m1 fuel (hs2 + shift1) ee offset

/-- `seqseq` (seqseq.c, lines 73-153) as an index into the haystack:
dispatch on the needle length after anchoring at the first cleaned-equal
byte via `seqchr`; lengths 1-3 use the lane scans, longer needles check the
length guard (`strnlen(hs, ne_len | 512)` clamps on a NUL-free list), try an
immediate match, reject needles past 256 bytes, and otherwise run the
Boyer-Moore-Horspool loop (fuel `2*length + m1 + 2` covers the strictly
decreasing loop measure). -/
def seqseqIdx (hay ne : List ℕ) : Option ℕ :=
  match ne with
  | [] => some 0
  | n0 :: netl =>
    match seqchrIdx hay n0 with
    | none => none
    | some i =>
      match netl with
      | [] => some i
      | n1 :: netl2 =>
        let s := hay.drop i
        match netl2 with
        | [] => (seqseq2Idx s n0 n1).map (fun r => i + r)
        | n2 :: netl3 =>
          match netl3 with
          | [] => (seqseq3Idx s n0 n1 n2).map (fun r => i + r)
          | _ :: _ =>
            let neLen := ne.length
            let hsLen := min (neLen ||| 512) s.length
            if hsLen < neLen then none
            else if seqncmpB s 0 ne 0 neLen then some i
            else if 256 < neLen then none
            else
              let m1 := neLen - 1
              (bmhLoop s ne (bmhTab ne m1) (bmhShift1 ne m1) m1
                  (2 * s.length + m1 + 2) 0 (hsLen - neLen) 0).map (fun r => i + r)

/-- `seqcmpa` (seqseq.c, lines 359-373): prefix comparison that skips
newlines in the sequence. -/
def seqcmpaB : List ℕ → List ℕ → Bool
  | _, [] => true
  | [], _ :: _ => false
  | b :: srest, p :: prest =>
    if b = 10 then seqcmpaB srest (p :: prest)
    else if cleanNt p = cleanNt b then seqcmpaB srest prest
    else false
termination_by s p => s.length + p.length

/-- The scan of `seqseqa` (seqseq.c, lines 177-187) at index `j`: the
model reads the end of the list as the NUL terminator (return `none`);
a `>` skips past the next newline (landing at the terminator when none
remains, so the following round returns `none`); a cleaned match of the
first needle byte checks the rest with `seqcmpa` from the next position and
returns the match index.  The index strictly increases, so the callers'
fuel `length + 1` reaches the exit. -/
def seqseqaLoop (hay : List ℕ) (c : ℤ) (patTail : List ℕ) : ℕ → ℕ → Option ℕ
  | 0, _ => none
  | fuel + 1, j =>
    if hay.length ≤ j then none
    else
      let b := byteAt hay j
      if b = 62 then
        match indxchr (hay.drop (j + 1)) 10 with
        | some i => seqseqaLoop hay c patTail fuel (j + 1 + i + 1)
        | none => seqseqaLoop hay c patTail fuel hay.length
      else if cleanNt b = c then
        if seqcmpaB (hay.drop (j + 1)) patTail then some j
        else seqseqaLoop hay c patTail fuel (j + 1)
      else seqseqaLoop hay c patTail fuel (j + 1)

/-- `seqseqa` (seqseq.c, lines 168-188) as an index. -/
def seqseqaIdx (hay ne : List ℕ) : Option ℕ :=
  match ne with
  | [] => some 0
  | p :: patTail =>
    if cleanNt p = 0 then some 0
    else seqseqaLoop hay (cleanNt p) patTail (hay.length + 1) 0

/-- `memset(ptr, 'X', len)` at a match position: overwrite `len` cells from
`p` with 88 (writes past the end cannot happen at a real match and are
no-ops of `List.set`). -/
def maskRange (b : List ℕ) (p len : ℕ) : List ℕ :=
  (List.range len).foldl (fun acc k => acc.set (p + k) 88) b

/-- The masking loop of `cross_out` (recounter.c, lines 363-376): search
from the previous match position (the C `ptr` is reassigned to each match,
and the masked bytes no longer match a nucleotide needle, so the position
strictly advances), mask, repeat until no occurrence remains.  Fuel
`length + 1` covers the strictly increasing match position for the nonempty
nucleotide needles passed here. -/
def crossOutLoop (ft : Char) (ne : List ℕ) : ℕ → List ℕ → ℕ → List ℕ
  | 0, b, _ => b
  | fuel + 1, b, j =>
    match (if ft = 'a' then seqseqaIdx (b.drop j) ne else seqseqIdx (b.drop j) ne) with
    | none => b
    | some r => crossOutLoop ft ne fuel (maskRange b (j + r) ne.length) (j + r)

/-- `cross_out` (recounter.c, lines 363-376). -/
def crossOut (b : List ℕ) (ne : List ℕ) (ft : Char) : List ℕ :=
  crossOutLoop ft ne (b.length + 1) b 0

/-- The removed-list masking pass of the recount loops: one `cross_out` per
removed kmer, in list order. -/
def crossOutAll (b : List ℕ) (removed : List (List ℕ)) (ft : Char) : List ℕ :=
  removed.foldl (fun acc w => crossOut acc w ft) b

/-! ## Recounting (recounter.c) -/

/-- `katss_recount_kmer` (recounter.c, lines 32-99) for a nonempty stream
shorter than the reader's 64 KiB capacity: classify (errors leave the
counter untouched and return nonzero, modelled as `none`), zero the cells
(`memset` over `capacity + 1` entries; the `total` field is left as it
was), push the removed kmer, then run the read loop.  The first
`seqfread_unlocked` in 's' mode returns the whole stream (below capacity,
so no newline trimming) NUL-terminated; `still_reading` is nonzero, so the
do-while body runs again: the second read returns 0 at end of file without
touching the buffer, and the body masks and drains the already processed
buffer once more.  Hasher and `hash_value` persist across the two rounds. -/
def katssRecountKmer (counter : KatssCounter) (content : List ℕ) (remove : List ℕ) :
    Option KatssCounter :=
  let ft := determineFiletype content
  if ft = 'e' ∨ ft = 'N' then none
  else
    let c1 := kctrPush { counter with cells := List.replicate (counter.capacity + 1) 0 } remove
    let m1 := crossOutAll content c1.removed ft
    match drainChunk (katssInitHasher counter.kmer) m1 0 ft with
    | (em1, h1, hv1) =>
      match drainChunk h1 (crossOutAll m1 c1.removed ft) hv1 ft with
      | (em2, _, _) => some (em2.foldl katssIncrement (em1.foldl katssIncrement c1))

/-- The record stream a `seqfsgets_unlocked` loop observes on a byte stream
in 's' mode whose lines fit the 64 KiB buffer: each line without its
newline, plus one empty record at the first end-of-file discovery when the
stream is empty or ends with a newline (a stream ending mid-line sets the
eof flag while returning the partial record). -/
def seqfgetsRecords (content : List ℕ) : List (List ℕ) :=
  (splitAfterNl content).map (fun l => if l.getLast? = some 10 then l.dropLast else l)
    ++ (if content = [] ∨ content.getLast? = some 10 then [[]] else [])

/-- `katss_recount_kmer_shuffle` (recounter.c, lines 101-175) with the
external `shuffle` routine (ushuffle, outside this repository) supplied as
the parameter `shuf` applied to the record and `klet`: per record, the
shuffled copy is truncated to the record length and NUL-terminated; the
removed-list masking runs on the ORIGINAL record buffer, whose masked value
is then dropped (the next `seqfsgets` overwrites it); the hasher drains the
unmasked shuffled copy.  Hasher state and `hash_value` persist across
records. -/
def katssRecountKmerShuffle (counter : KatssCounter) (content : List ℕ) (klet : ℕ)
    (remove : List ℕ) (shuf : List ℕ → ℕ → List ℕ) : Option KatssCounter :=
  let ft := determineFiletype content
  if ft = 'e' ∨ ft = 'N' then none
  else
    let c1 := kctrPush { counter with cells := List.replicate (counter.capacity + 1) 0 } remove
    match (seqfgetsRecords content).foldl
      (fun (st : KatssCounter × KatssHasher × ℕ) r =>
        match st with
        | (c, h, hv) =>
          let sh := (shuf r klet).take r.length
          let _masked := crossOutAll r c1.removed ft
          match drainChunk h sh hv ft with
          | (em, h2, hv2) => (em.foldl katssIncrement c, h2, hv2))
      (c1, katssInitHasher counter.kmer, 0) with
    | (c, _, _) => some c

/-- What the C8 claim describes for one record: mask the removed kmers out
of the shuffled copy, then count that masked copy.  Modelled from the spec
for comparison with `katssRecountKmerShuffle`. -/
def claimRecountShuffleStep (removed : List (List ℕ)) (ft : Char)
    (st : KatssCounter × KatssHasher × ℕ) (r : List ℕ) (klet : ℕ)
    (shuf : List ℕ → ℕ → List ℕ) : KatssCounter × KatssHasher × ℕ :=
  match st with
  | (c, h, hv) =>
    match drainChunk h (crossOutAll ((shuf r klet).take r.length) removed ft) hv ft with
    | (em, h2, hv2) => (em.foldl katssIncrement c, h2, hv2)

/-- The spec-side whole-file run built from `claimRecountShuffleStep`. -/
def claimRecountKmerShuffle (counter : KatssCounter) (content : List ℕ) (klet : ℕ)
    (remove : List ℕ) (shuf : List ℕ → ℕ → List ℕ) : Option KatssCounter :=
  let ft := determineFiletype content
  if ft = 'e' ∨ ft = 'N' then none
  else
    let c1 := kctrPush { counter with cells := List.replicate (counter.capacity + 1) 0 } remove
    some ((seqfgetsRecords content).foldl
      (fun st r => claimRecountShuffleStep c1.removed ft st r klet shuf)
      (c1, katssInitHasher counter.kmer, 0)).1

/-! ## IKKE (enrichments.c katss_ikke) -/

/-- The iteration loop of `katss_ikke` (enrichments.c, lines 177-183):
unhash the previous key with the counter's kmer length, recount both
counters (the C ignores the recount return value, and an erroring recount
leaves the counter unchanged), then take the next top enrichment. -/
noncomputable def ikkeLoop (testContent ctrlContent : List ℕ) (kmer : ℕ)
    (normalize : Bool) : ℕ → KatssCounter → KatssCounter → ℕ → List KatssEnrichment
  | 0, _, _, _ => []
  | n + 1, tc, cc, prevKey =>
    let w := katssUnhash prevKey kmer true
    let tc2 := (katssRecountKmer tc testContent w).getD tc
    let cc2 := (katssRecountKmer cc ctrlContent w).getD cc
    let e := katssTopEnrichment tc2 cc2 normalize
    e :: ikkeLoop testContent ctrlContent kmer normalize n tc2 cc2 e.key

/-- `katss_ikke` (enrichments.c, lines 151-190) for in-model streams: count
both files, truncate the iteration count at `capacity + 1`, then one top
enrichment followed by recount rounds.  The C requires `iterations >= 1`
(it writes entry 0 into an `iterations`-sized allocation); the model always
produces the entry-0 result plus `iterations - 1` rounds. -/
noncomputable def katssIkke (testContent ctrlContent : List ℕ) (kmer : ℕ)
    (iterations : ℕ) (normalize : Bool) : Option (List KatssEnrichment) :=
  match katssCountKmers testContent kmer, katssCountKmers ctrlContent kmer with
  | some tc, some cc =>
    let iters := if tc.capacity < iterations then tc.capacity + 1 else iterations
    let e0 := katssTopEnrichment tc cc normalize
    some (e0 :: ikkeLoop testContent ctrlContent kmer normalize (iters - 1) tc cc e0.key)
  | _, _ => none

/-- Ten raw lines of ten adenines each: a minimal raw-classifiable stream
(every line is over 90% nucleotides and there are exactly ten lines), used
by the concrete pipeline runs. -/
def tenLinesTenA : List ℕ := (List.replicate 10 lineTenA).flatten

/-! ## Specification devices for the pipeline correctness lemmas -/

/-- Big-endian base-4 digit decomposition: `digitsOf k h` is the `k` digits
of `h` from most to least significant (the order in which the hashing loops
consume a window and in which `katss_unhash` prints a key). -/
def digitsOf : ℕ → ℕ → List ℕ
  | 0, _ => []
  | k + 1, h => digitsOf k (h / 4) ++ [h % 4]

/-- A complete hash window: `k` consecutive buffer bytes starting at `i`
whose `base` classes are exactly the digits of `hsh` (in particular all
below 4, i.e. all nucleotides). -/
def windowAt (buf : List ℕ) (i k hsh : ℕ) : Prop :=
  i + k ≤ buf.length ∧ ((buf.drop i).take k).map baseClass = digitsOf k hsh

/-- An occurrence of the needle `ne` at index `i` of `hay` in the sense of
the `seqseq` family: every needle byte matches the haystack byte under
`clean_nt`. -/
def occursAt (hay ne : List ℕ) (i : ℕ) : Prop :=
  i + ne.length ≤ hay.length ∧
    ∀ j < ne.length, cleanNt (byteAt hay (i + j)) = cleanNt (byteAt ne j)

/-- NUL-free ASCII byte streams: the regime in which the seqf readers, the
search routines and the hasher are modelled exactly (a 0 byte would
terminate C strings early, and bytes at or above 128 reach `clean_nt` as
negative `char` values). -/
def asciiBytes (s : List ℕ) : Prop := ∀ b ∈ s, 0 < b ∧ b < 128

instance (s : List ℕ) : Decidable (asciiBytes s) := by
  unfold asciiBytes; infer_instance

/-- The reachable-state invariant of the raw-mode hasher over a fixed
buffer: the unread part is a suffix (`n` bytes consumed), a partially
filled window (`pos ≠ 0`) carries the codes of the last `pos` consumed
bytes in `prevHash`, and an established previous hash (`has_previous`)
carries the codes of the last full window.  `endno` stays 0 in raw mode. -/
def HasherInv (buf : List ℕ) (k : ℕ) (h : KatssHasher) : Prop :=
  h.kmer = k ∧ h.endno = 0 ∧ h.pos < k ∧ h.endOfSeq = false ∧
  (h.hasPrev = true → h.pos = 0) ∧
  ∃ n, n ≤ buf.length ∧ h.pos ≤ n ∧ h.seq = buf.drop n ∧
    (h.pos ≠ 0 →
      h.prevHash < 4 ^ h.pos ∧
      ((buf.drop (n - h.pos)).take h.pos).map baseClass = digitsOf h.pos h.prevHash) ∧
    (h.hasPrev = true →
      k ≤ n ∧ ((buf.drop (n - k)).take k).map baseClass = digitsOf k h.prevHash)

/-! ## Theorems: key hashing round trip (supporting lemmas for C5) -/

theorem keyCode_le (b c : ℕ) (h : keyCode b = some c) : c ≤ 3 := by
  unfold keyCode at h
  split_ifs at h <;> simp_all <;> omega

theorem katssGetHash_append (s : List ℕ) (b : ℕ) (h : ℕ) :
    katssGetHash (s ++ [b]) h =
      (katssGetHash s h).bind fun v =>
        (keyCode b).map fun c => (v * 4 + c) % 2 ^ 32 := by
  induction s generalizing h with
  | nil =>
    simp only [List.nil_append, katssGetHash, Option.bind]
    cases hb : keyCode b <;> simp [katssGetHash, hb]
  | cons x xs ih =>
    simp only [List.cons_append, katssGetHash]
    cases hx : keyCode x <;> simp [ih]

theorem katssGetHash_lt (s : List ℕ) (h u : ℕ)
    (hs : katssGetHash s h = some u) : u < (h + 1) * 4 ^ s.length := by
  induction s generalizing h with
  | nil =>
    simp only [katssGetHash, Option.some_inj] at hs
    simp only [List.length_nil, pow_zero, mul_one]
    omega
  | cons b bs ih =>
    simp only [katssGetHash] at hs
    cases hb : keyCode b with
    | none => simp [hb] at hs
    | some c =>
      rw [hb] at hs
      have hc : c ≤ 3 := keyCode_le b c hb
      have := ih _ hs
      have hmod : (h * 4 + c) % 2 ^ 32 ≤ h * 4 + c := Nat.mod_le _ _
      have hfin : u < (h + 1) * 4 ^ (bs.length + 1) := calc
        u < ((h * 4 + c) % 2 ^ 32 + 1) * 4 ^ bs.length := this
        _ ≤ (h * 4 + c + 1) * 4 ^ bs.length := by
            exact Nat.mul_le_mul_right _ (by omega)
        _ ≤ ((h + 1) * 4) * 4 ^ bs.length := by
            exact Nat.mul_le_mul_right _ (by omega)
        _ = (h + 1) * 4 ^ (bs.length + 1) := by ring
      simpa using hfin

theorem keyCode_unhashChar (d : ℕ) (hd : d < 4) :
    keyCode (unhashChar d true) = some d := by
  interval_cases d <;> rfl

/-- Re-hashing the unhashed string returns the original hash, for hashes
below the table capacity and k at most 16 (no 32-bit wraparound occurs). -/
theorem katssGetHash_katssUnhash (k : ℕ) (hk : k ≤ 16) (h : ℕ)
    (hh : h < 4 ^ k) : katssGetHash (katssUnhash h k true) 0 = some h := by
  induction k generalizing h with
  | zero =>
    interval_cases h
    rfl
  | succ n ih =>
    have hn : n ≤ 16 := by omega
    have hdiv : h / 4 < 4 ^ n := by
      have : h < 4 ^ n * 4 := by
        have : 4 ^ (n + 1) = 4 ^ n * 4 := by ring
        omega
      omega
    rw [katssUnhash, katssGetHash_append, ih hn _ hdiv]
    have hmod4 : h % 4 < 4 := Nat.mod_lt _ (by norm_num)
    rw [Option.bind, keyCode_unhashChar _ hmod4]
    have h1 : h / 4 * 4 + h % 4 = h := by
      have := Nat.div_add_mod h 4
      omega
    have hlt : h < 2 ^ 32 := by
      have h2 : (4 : ℕ) ^ (n + 1) ≤ 4 ^ 16 := Nat.pow_le_pow_right (by norm_num) hk
      have h3 : (4 : ℕ) ^ 16 = 2 ^ 32 := by norm_num
      omega
    simp only [Option.bind, Option.map, Option.some_inj]
    omega

theorem unhashChar_keyCode (b c : ℕ) (hb : isACGT b) (hc : keyCode b = some c) :
    unhashChar c true = b := by
  rcases hb with h | h | h | h <;> subst h <;>
    simp only [keyCode] at hc <;> norm_num at hc <;> simp [unhashChar, ← hc]

/-- Unhashing the hash of a kmer over `{A,C,G,T}` returns the kmer, for
length at most 16. -/
theorem katssUnhash_katssGetHash (s : List ℕ) (hlen : s.length ≤ 16)
    (hval : ∀ b ∈ s, isACGT b) (v : ℕ) (hv : katssGetHash s 0 = some v) :
    katssUnhash v s.length true = s := by
  induction s using List.reverseRecOn generalizing v with
  | nil =>
    simp only [katssGetHash, Option.some_inj] at hv
    simp [← hv, katssUnhash]
  | append_singleton xs b ih =>
    rw [katssGetHash_append] at hv
    cases hu : katssGetHash xs 0 with
    | none => simp [hu] at hv
    | some u =>
      rw [hu] at hv
      cases hc : keyCode b with
      | none => simp [hc] at hv
      | some c =>
        simp only [hc, Option.bind, Option.map, Option.some_inj] at hv
        have hxslen : xs.length ≤ 16 := by
          simpa using Nat.le_of_succ_le (by simpa using hlen)
        have hxslen15 : xs.length ≤ 15 := by
          have := hlen
          simp only [List.length_append, List.length_singleton] at this
          omega
        have hub : u < 4 ^ xs.length := by
          simpa using katssGetHash_lt xs 0 u hu
        have hc3 : c ≤ 3 := keyCode_le b c hc
        have hnomod : u * 4 + c < 2 ^ 32 := by
          have h1 : u * 4 + c < 4 ^ (xs.length + 1) := by
            have : 4 ^ (xs.length + 1) = 4 ^ xs.length * 4 := by ring
            omega
          have h2 : (4 : ℕ) ^ (xs.length + 1) ≤ 4 ^ 16 :=
            Nat.pow_le_pow_right (by norm_num) (by omega)
          have h3 : (4 : ℕ) ^ 16 = 2 ^ 32 := by norm_num
          omega
        rw [Nat.mod_eq_of_lt hnomod] at hv
        subst hv
        have hdiv : (u * 4 + c) / 4 = u := by omega
        have hmod : (u * 4 + c) % 4 = c := by omega
        simp only [List.length_append, List.length_singleton, katssUnhash,
          hdiv, hmod]
        rw [ih hxslen (fun x hx => hval x (List.mem_append_left _ hx)) u hu]
        rw [unhashChar_keyCode b c (hval b (by simp)) hc]
theorem katssGetHash_isSome (s : List ℕ) (h : ℕ) (hval : ∀ b ∈ s, isACGT b) :
    ∃ v, katssGetHash s h = some v := by
  induction s generalizing h with
  | nil => exact ⟨h, rfl⟩
  | cons b bs ih =>
    have hb : isACGT b := hval b (by simp)
    have hc : ∃ c, keyCode b = some c := by
      rcases hb with h' | h' | h' | h' <;> subst h' <;> exact ⟨_, rfl⟩
    obtain ⟨c, hc⟩ := hc
    simp only [katssGetHash, hc]
    exact ih _ fun x hx => hval x (by simp [hx])

/-! ## Theorems: the format classifier (C6) -/

theorem classifyLine_linesRead (st : ClsState) (l : List ℕ) :
    (classifyLine st l).linesRead = st.linesRead + 1 := by
  simp only [classifyLine]
  split_ifs <;> rfl

theorem classifyFold_take (ls : List (List ℕ)) (st : ClsState) :
    classifyFold st ls = classifyFold st (ls.take (10 - st.linesRead)) := by
  induction ls generalizing st with
  | nil => simp
  | cons l ls ih =>
    by_cases h : st.linesRead < 10
    · have h10 : 10 - st.linesRead = (10 - (st.linesRead + 1)) + 1 := by omega
      rw [h10]
      simp only [classifyFold, if_pos h, List.take_succ_cons]
      rw [ih (classifyLine st l), classifyLine_linesRead]
    · have h10 : 10 - st.linesRead = 0 := by omega
      rw [h10]
      simp [classifyFold, if_neg h]

theorem classifyLine_eq (st : ClsState) (l : List ℕ) :
    classifyLine st l =
      if fastqEvidence (st.linesRead + 1) l then
        { st with linesRead := st.linesRead + 1, fastqScore := st.fastqScore + 1 }
      else if fastaEvidence (st.linesRead + 1) l then
        { st with linesRead := st.linesRead + 1, fastaScore := st.fastaScore + 1 }
      else if rawLine l then
        { st with linesRead := st.linesRead + 1, seqLines := st.seqLines + 1 }
      else { st with linesRead := st.linesRead + 1 } := by
  simp only [classifyLine, fastqEvidence, fastaEvidence, rawLine,
    Bool.or_eq_true, Bool.and_eq_true, Bool.not_eq_eq_eq_not, Bool.not_true,
    beq_iff_eq, decide_eq_true_eq]
  split_ifs <;> simp_all <;> omega

theorem classifyFold_tallies (ls : List (List ℕ)) (st : ClsState)
    (h : st.linesRead + ls.length ≤ 10) :
    classifyFold st ls =
      ⟨st.linesRead + ls.length,
       st.fastqScore + (amendedTallies (st.linesRead + 1) ls).1,
       st.fastaScore + (amendedTallies (st.linesRead + 1) ls).2.1,
       st.seqLines + (amendedTallies (st.linesRead + 1) ls).2.2⟩ := by
  induction ls generalizing st with
  | nil => simp [classifyFold, amendedTallies]
  | cons l ls ih =>
    simp only [List.length_cons] at h
    have hlt : st.linesRead < 10 := by omega
    rw [classifyFold, if_pos hlt, classifyLine_eq]
    split_ifs with h1 h2 h3 <;>
      rw [ih _ (by show st.linesRead + 1 + ls.length ≤ 10; omega)] <;>
      simp_all [amendedTallies, ClsState.mk.injEq] <;> omega

/-- C6 (amended): the source classifier `determine_filetype` agrees, on every
byte stream, with the amended claimed classifier, in which a scanned line
counts toward the raw tally exactly when it reaches neither the fastq nor the
fasta branch and strictly more than 90% of its characters are nucleotide
letters; the decision cascade is as the claim states it. -/
theorem c6_classifier_amended (content : List ℕ) :
    determineFiletype content = amendedFiletype content := by
  unfold determineFiletype amendedFiletype
  rw [classifyFold_take]
  have hlen : (⟨0, 0, 0, 0⟩ : ClsState).linesRead +
      ((classifierLines content).take (10 - (⟨0, 0, 0, 0⟩ : ClsState).linesRead)).length ≤ 10 := by
    simp [List.length_take]
  rw [classifyFold_tallies _ _ hlen]
  simp

/-- C6 (counterexample): the claim's classifier differs from the source.  On
`c6content1`, whose last line has exactly 90% nucleotide characters, the
claim counts the line (at least 90%) and decides raw while the source
requires strictly more than 90% and reports unsupported; on `c6content2`,
whose third line starts with `+` and has more than 90% nucleotide characters,
the claim tallies it raw and decides raw while the source counts it only as
fastq evidence and reports unsupported. -/
theorem c6_counterexample :
    determineFiletype c6content1 = 'e' ∧ claimedFiletype c6content1 = 'r' ∧
    determineFiletype c6content2 = 'e' ∧ claimedFiletype c6content2 = 'r' ∧
    'e' ≠ 'r' := by
  refine ⟨by decide, by decide, by decide, by decide, by decide⟩

/-! ## Theorems: batch increment (C1) -/

/-- C1 (code bug): `katss_increments` increments the cell of each hash in the
batch, but advances the counter's total by exactly one per call instead of by
the batch length: on a k=1 counter with cells `[0,0,0,0]` and total 5, the
batch `[0, 1]` yields cells `[1,1,0,0]` but total 6 rather than `5 + 2`. -/
theorem c1_increments_total_bug :
    (∀ (c : KatssCounter) (hs : List ℕ),
        (katssIncrements c hs).total = c.total + 1) ∧
    (katssIncrements ⟨1, 3, [0, 0, 0, 0], 5, []⟩ [0, 1]).cells = [1, 1, 0, 0] ∧
    (katssIncrements ⟨1, 3, [0, 0, 0, 0], 5, []⟩ [0, 1]).total = 6 ∧
    (6 : ℕ) ≠ 5 + 2 :=
  ⟨fun _ _ => rfl, by decide, by decide, by decide⟩

/-! ## Theorems: error strings (C10) -/

/-- C10 (code bug): the message table has seven entries (indices 0 through 6)
and for codes 0 to 6 every access of `seqfstrerror` and `seqfstrerror_r` is
in bounds, but at code 7 both functions read `seqf_err_msg[7]`, one entry
past the end of the table. -/
theorem c10_strerror_table_oob :
    seqfErrMsg.length = 7 ∧
    (∀ k : ℤ, 0 ≤ k → k ≤ 6 →
      ∀ i ∈ seqfstrerrorAccesses k ++ seqfstrerrorRAccesses k, 0 ≤ i ∧ i < 7) ∧
    seqfstrerrorAccesses 7 = [7] ∧
    seqfstrerrorRAccesses 7 = [7, 7] ∧
    ¬ ((7 : ℤ) < 7) := by
  refine ⟨rfl, ?_, by decide, by decide, by decide⟩
  intro k h0 h6 i hi
  interval_cases k <;>
    simp_all [seqfstrerrorAccesses, seqfstrerrorRAccesses]

/-- Witness for C10: the in-bounds part applied at code 3. -/
theorem c10_witness :
    (0 : ℤ) ≤ 3 ∧ (3 : ℤ) ≤ 6 ∧
    ∀ i ∈ seqfstrerrorAccesses 3 ++ seqfstrerrorRAccesses 3, 0 ≤ i ∧ i < 7 :=
  ⟨by decide, by decide, c10_strerror_table_oob.2.1 3 (by decide) (by decide)⟩

/-! ## Theorems: hash and unhash round trip (C5) -/

/-- C5: for every k in [1,16], unhashing the canonical hash of a kmer over
`{A,C,G,T}` with `use_t` set returns the kmer, and hashing the string
`katss_unhash(h, k, true)` with the `katss_get` key hashing yields `h` for
every hash `h` below `4 ^ k`. -/
theorem c5_hash_unhash_roundtrip (k : ℕ) (_hk1 : 1 ≤ k) (hk16 : k ≤ 16) :
    (∀ s : List ℕ, s.length = k → (∀ b ∈ s, isACGT b) →
      ∃ v, katssGetHash s 0 = some v ∧ katssUnhash v k true = s) ∧
    (∀ h < 4 ^ k, katssGetHash (katssUnhash h k true) 0 = some h) := by
  refine ⟨?_, fun h hh => katssGetHash_katssUnhash k hk16 h hh⟩
  intro s hlen hval
  obtain ⟨v, hv⟩ := katssGetHash_isSome s 0 hval
  exact ⟨v, hv, hlen ▸ katssUnhash_katssGetHash s (hlen ▸ hk16) hval v hv⟩

/-! ## Theorems: the double order and the enrichment sort -/

theorem ddiv_fin_fin (a b : ℝ) (hb : b ≠ 0) :
    ddiv (.fin a) (.fin b) = .fin (a / b) := by
  simp [ddiv, hb]

theorem dle_total_of_ne_nan (a b : Dbl) (ha : a ≠ .nan) (hb : b ≠ .nan) :
    dle a b ∨ dle b a := by
  cases a <;> cases b <;> simp_all [dle]
  exact le_total _ _

theorem dle_trans_of (a b c : Dbl) (h1 : dle a b) (h2 : dle b c) : dle a c := by
  cases a <;> cases b <;> cases c <;> simp_all [dle]
  exact le_trans h1 h2

instance : IsTotal KatssEnrichment enrLe :=
  ⟨fun a b => by
    by_cases ha : a.enrichment = Dbl.nan
    · exact Or.inr (Or.inl ha)
    · by_cases hb : b.enrichment = Dbl.nan
      · exact Or.inl (Or.inl hb)
      · rcases dle_total_of_ne_nan _ _ ha hb with h | h
        · exact Or.inr (Or.inr ⟨hb, ha, h⟩)
        · exact Or.inl (Or.inr ⟨ha, hb, h⟩)⟩

instance : IsTrans KatssEnrichment enrLe :=
  ⟨fun a b c hab hbc => by
    rcases hbc with hc | ⟨hb, hc, hcb⟩
    · exact Or.inl hc
    · rcases hab with hb' | ⟨ha, hb', hba⟩
      · exact absurd hb' hb
      · exact Or.inr ⟨ha, hc, dle_trans_of _ _ _ hcb hba⟩⟩

open scoped Classical in
theorem sortEnrichments_sorted (l : List KatssEnrichment) :
    (sortEnrichments l).Sorted enrLe :=
  List.sorted_insertionSort enrLe l

open scoped Classical in
theorem sortEnrichments_perm (l : List KatssEnrichment) :
    (sortEnrichments l).Perm l :=
  List.perm_insertionSort enrLe l

theorem sorted_nan_last (l : List KatssEnrichment) (hs : l.Sorted enrLe)
    (p q : ℕ) (hpq : p < q) (hq : q < l.length) (hp : p < l.length)
    (hnan : (l.get ⟨p, hp⟩).enrichment = Dbl.nan) :
    (l.get ⟨q, hq⟩).enrichment = Dbl.nan := by
  have := (List.pairwise_iff_get.mp hs) ⟨p, hp⟩ ⟨q, hq⟩ hpq
  rcases this with h | ⟨hne, _⟩
  · exact h
  · exact absurd hnan hne

/-! ## Theorems: top enrichment sentinel (C9) -/

/-- C9 (counterexample): on two empty k=1 counters, `katss_top_enrichment`
returns the sentinel whose rval is `-DBL_MAX`, a finite double, not the
negative infinity the claim states. -/
theorem c9_counterexample :
    katssTopEnrichment ⟨1, 3, [0, 0, 0, 0], 0, []⟩
        ⟨1, 3, [0, 0, 0, 0], 0, []⟩ false = ⟨0, .fin (-dblMax)⟩ ∧
    Dbl.fin (-dblMax) ≠ Dbl.ninf :=
  ⟨by simp [katssTopEnrichment], fun h => Dbl.noConfusion h⟩

/-- C9 (amended): whenever either table is empty (test total or control
total equal to 0), `katss_top_enrichment` returns the sentinel entry with
key 0 and rval equal to `-DBL_MAX`, the most negative finite double. -/
theorem c9_top_enrichment_sentinel (test ctrl : KatssCounter)
    (normalize : Bool) (h : test.total = 0 ∨ ctrl.total = 0) :
    katssTopEnrichment test ctrl normalize = ⟨0, .fin (-dblMax)⟩ := by
  unfold katssTopEnrichment
  rw [if_pos (Or.symm h)]

/-- Witness for C9: the sentinel on a concrete pair with an empty test
table. -/
theorem c9_witness :
    ((⟨1, 3, [0, 0, 0, 0], 0, []⟩ : KatssCounter).total = 0 ∨
      (⟨1, 3, [0, 0, 1, 0], 7, []⟩ : KatssCounter).total = 0) ∧
    katssTopEnrichment ⟨1, 3, [0, 0, 0, 0], 0, []⟩
      ⟨1, 3, [0, 0, 1, 0], 7, []⟩ true = ⟨0, .fin (-dblMax)⟩ :=
  ⟨Or.inl rfl, c9_top_enrichment_sentinel _ _ true (Or.inl rfl)⟩

/-! ## Theorems: compute enrichments (C4) -/

theorem enrValue_eq (t tT c cT : ℕ) (htT : tT ≠ 0) (hc : c ≠ 0) (hcT : cT ≠ 0) :
    enrValue t tT c cT = .fin (((t : ℝ) / tT) / ((c : ℝ) / cT)) := by
  unfold enrValue
  rw [ddiv_fin_fin _ _ (Nat.cast_ne_zero.mpr htT),
    ddiv_fin_fin _ _ (Nat.cast_ne_zero.mpr hcT),
    ddiv_fin_fin]
  exact div_ne_zero (Nat.cast_ne_zero.mpr hc) (Nat.cast_ne_zero.mpr hcT)

/-- C4: with differing k the enrichment computation returns NULL; with equal
k and nonempty tables it returns all `4 ^ k` entries - for each hash `i` the
value is NaN when either count is zero and otherwise
`(test[i]/test_total) / (ctrl[i]/ctrl_total)`, log2-transformed when
`normalize` - sorted descending by enrichment with NaN entries last. -/
theorem c4_compute_enrichments (test ctrl : KatssCounter) (normalize : Bool) :
    (test.kmer ≠ ctrl.kmer → katssComputeEnrichments test ctrl normalize = none) ∧
    (test.kmer = ctrl.kmer → test.capacity = 4 ^ test.kmer - 1 →
      0 < test.total → 0 < ctrl.total →
      ∃ l, katssComputeEnrichments test ctrl normalize = some l ∧
        l.length = 4 ^ test.kmer ∧
        l.Perm ((List.range (4 ^ test.kmer)).map fun i =>
          if countAt test i = 0 ∨ countAt ctrl i = 0 then ⟨i, Dbl.nan⟩
          else ⟨i, if normalize
            then dlog2 (.fin (((countAt test i : ℝ) / test.total) /
              ((countAt ctrl i : ℝ) / ctrl.total)))
            else .fin (((countAt test i : ℝ) / test.total) /
              ((countAt ctrl i : ℝ) / ctrl.total))⟩) ∧
        l.Sorted enrLe ∧
        (∀ p q, p < q → ∀ (hq : q < l.length) (hp : p < l.length),
          (l.get ⟨p, hp⟩).enrichment = Dbl.nan →
          (l.get ⟨q, hq⟩).enrichment = Dbl.nan)) := by
  constructor
  · intro hne
    simp [katssComputeEnrichments, hne]
  · intro hk hcap htt hct
    have hcap1 : test.capacity + 1 = 4 ^ test.kmer := by
      have : (1 : ℕ) ≤ 4 ^ test.kmer := Nat.one_le_pow _ _ (by norm_num)
      omega
    have hmap : ((List.range (test.capacity + 1)).map fun i =>
        if countAt test i = 0 ∨ countAt ctrl i = 0 then
          (⟨i, Dbl.nan⟩ : KatssEnrichment)
        else
          let r := enrValue (countAt test i) test.total (countAt ctrl i) ctrl.total
          ⟨i, if normalize then dlog2 r else r⟩) =
        ((List.range (4 ^ test.kmer)).map fun i =>
          if countAt test i = 0 ∨ countAt ctrl i = 0 then ⟨i, Dbl.nan⟩
          else ⟨i, if normalize
            then dlog2 (.fin (((countAt test i : ℝ) / test.total) /
              ((countAt ctrl i : ℝ) / ctrl.total)))
            else .fin (((countAt test i : ℝ) / test.total) /
              ((countAt ctrl i : ℝ) / ctrl.total))⟩) := by
      rw [hcap1]
      refine List.map_congr_left fun i _ => ?_
      by_cases hz : countAt test i = 0 ∨ countAt ctrl i = 0
      · simp [hz]
      · push_neg at hz
        rw [if_neg (by tauto), if_neg (by tauto)]
        rw [enrValue_eq _ _ _ _ (by omega) hz.2 (by omega)]
    refine ⟨_, by rw [katssComputeEnrichments, if_neg (by simp [hk])], ?_, ?_, ?_, ?_⟩
    · rw [(sortEnrichments_perm _).length_eq, List.length_map, List.length_range,
        hcap1]
    · exact hmap ▸ sortEnrichments_perm _
    · exact sortEnrichments_sorted _
    · intro p q hpq hq hp hnan
      exact sorted_nan_last _ (sortEnrichments_sorted _) p q hpq hq hp hnan

/-- Witness for C4: both parts at concrete k=1 counters. -/
theorem c4_witness :
    ((⟨2, 15, List.replicate 16 0, 0, []⟩ : KatssCounter).kmer ≠
        (⟨1, 3, [1, 0, 0, 2], 3, []⟩ : KatssCounter).kmer →
      katssComputeEnrichments ⟨2, 15, List.replicate 16 0, 0, []⟩
        ⟨1, 3, [1, 0, 0, 2], 3, []⟩ false = none) ∧
    ((⟨1, 3, [1, 0, 0, 2], 3, []⟩ : KatssCounter).kmer =
        (⟨1, 3, [2, 1, 0, 0], 3, []⟩ : KatssCounter).kmer →
      (⟨1, 3, [1, 0, 0, 2], 3, []⟩ : KatssCounter).capacity = 4 ^ 1 - 1 →
      (0 : ℕ) < 3 → (0 : ℕ) < 3 →
      ∃ l, katssComputeEnrichments ⟨1, 3, [1, 0, 0, 2], 3, []⟩
          ⟨1, 3, [2, 1, 0, 0], 3, []⟩ false = some l) :=
  ⟨fun h => (c4_compute_enrichments _ _ false).1 h,
   fun h1 h2 h3 h4 =>
     ((c4_compute_enrichments ⟨1, 3, [1, 0, 0, 2], 3, []⟩
         ⟨1, 3, [2, 1, 0, 0], 3, []⟩ false).2 h1 h2 h3 h4).imp
       fun _ hl => hl.1⟩

/-- Witness for C5: the round trip at k = 2, on the kmer `AC` and the hash
6 (`CG`). -/
theorem c5_witness :
    (1 ≤ 2 ∧ 2 ≤ 16) ∧
    ((∀ s : List ℕ, s.length = 2 → (∀ b ∈ s, isACGT b) →
        ∃ v, katssGetHash s 0 = some v ∧ katssUnhash v 2 true = s) ∧
      (∀ h < 4 ^ 2, katssGetHash (katssUnhash h 2 true) 0 = some h)) :=
  ⟨⟨by decide, by decide⟩, c5_hash_unhash_roundtrip 2 (by decide) (by decide)⟩

/-! ## Theorems: bootstrap statistics (C7) -/

theorem dmul_fin_fin (a b : ℝ) : dmul (.fin a) (.fin b) = .fin (a * b) := rfl

theorem dadd_fin_fin (a b : ℝ) : dadd (.fin a) (.fin b) = .fin (a + b) := rfl

theorem dsub_fin_fin (a b : ℝ) : dsub (.fin a) (.fin b) = .fin (a - b) := by
  simp [dsub, dadd, dneg, sub_eq_add_neg]

theorem dsqrt_fin_of_nonneg (x : ℝ) (h : 0 ≤ x) :
    dsqrt (.fin x) = .fin (Real.sqrt x) := by
  simp [dsqrt, not_lt.mpr h]

/-- The Welford M2 increment `delta * (value - updated_mean)` is nonnegative
whenever the run index is at least one. -/
theorem welfordIncr_nonneg (m v : ℝ) (n : ℕ) (hn : 1 ≤ n) :
    0 ≤ (v - m) * (v - (m + (v - m) / (n : ℝ))) := by
  have hn' : (1 : ℝ) ≤ (n : ℝ) := by exact_mod_cast hn
  have hr : (0 : ℝ) < (n : ℝ) := by linarith
  have key : (v - m) * (v - (m + (v - m) / (n : ℝ))) =
      (v - m) ^ 2 * ((n : ℝ) - 1) / (n : ℝ) := by
    field_simp
    ring
  rw [key]
  exact div_nonneg (mul_nonneg (sq_nonneg _) (by linarith)) (le_of_lt hr)

theorem tTest2Update_xM2_le (a : TT2) (x y : Dbl) :
    a.xM2 ≤ (tTest2Update a x y).xM2 := by
  cases x <;> cases y <;>
    simp only [tTest2Update] <;>
    first
      | exact le_rfl
      | exact le_add_of_nonneg_right (welfordIncr_nonneg _ _ _ (by omega))

theorem tTest2Update_yM2_le (a : TT2) (x y : Dbl) :
    a.yM2 ≤ (tTest2Update a x y).yM2 := by
  cases x <;> cases y <;>
    simp only [tTest2Update] <;>
    first
      | exact le_rfl
      | exact le_add_of_nonneg_right (welfordIncr_nonneg _ _ _ (by omega))

theorem tTest2Update_rM2 (a : TT2) (x y : Dbl) :
    (tTest2Update a x y).rM2 = a.rM2 := by
  cases x <;> cases y <;> rfl

theorem bootstrapStep_le (a : TT2) (i tc cc : ℕ) :
    a.xM2 ≤ (bootstrapStep a i tc cc).xM2 ∧
    a.yM2 ≤ (bootstrapStep a i tc cc).yM2 ∧
    a.rM2 ≤ (bootstrapStep a i tc cc).rM2 := by
  unfold bootstrapStep
  by_cases h : tc ≠ 0 ∧ cc ≠ 0
  · simp only [if_pos h, runningStdev]
    refine ⟨tTest2Update_xM2_le _ _ _, tTest2Update_yM2_le _ _ _, ?_⟩
    rw [tTest2Update_rM2]
    exact le_add_of_nonneg_right (welfordIncr_nonneg _ _ (i + 1) (by omega))
  · simp only [if_neg h]
    refine ⟨tTest2Update_xM2_le _ _ _, tTest2Update_yM2_le _ _ _, ?_⟩
    rw [tTest2Update_rM2]

theorem bootstrapFold_m2_nonneg (l : List (ℕ × ℕ × ℕ)) (a : TT2)
    (h : 0 ≤ a.xM2 ∧ 0 ≤ a.yM2 ∧ 0 ≤ a.rM2) :
    0 ≤ (l.foldl (fun a p => bootstrapStep a p.1 p.2.1 p.2.2) a).xM2 ∧
    0 ≤ (l.foldl (fun a p => bootstrapStep a p.1 p.2.1 p.2.2) a).yM2 ∧
    0 ≤ (l.foldl (fun a p => bootstrapStep a p.1 p.2.1 p.2.2) a).rM2 := by
  induction l generalizing a with
  | nil => exact h
  | cons p l ih =>
    refine ih _ ?_
    have := bootstrapStep_le a p.1 p.2.1 p.2.2
    exact ⟨le_trans h.1 this.1, le_trans h.2.1 this.2.1, le_trans h.2.2 this.2.2⟩

theorem bootstrapAggregate_m2_nonneg (vals : List (ℕ × ℕ)) :
    0 ≤ (bootstrapAggregate vals).xM2 ∧ 0 ≤ (bootstrapAggregate vals).yM2 ∧
    0 ≤ (bootstrapAggregate vals).rM2 :=
  bootstrapFold_m2_nonneg (vals.enum) tt2Create ⟨le_rfl, le_rfl, le_rfl⟩

theorem bootstrapAggregate_single (t c : ℕ) :
    (bootstrapAggregate [(t, c)]).rM2 = 0 ∧
    (bootstrapAggregate [(t, c)]).xCount < 2 := by
  by_cases ht : t = 0 <;> by_cases hc : c = 0 <;>
    simp [bootstrapAggregate, bootstrapStep, tTest2Update, runningStdev,
      tt2Create, ht, hc]

theorem tTest2Update_fin_fin (a : TT2) (v w : ℝ) :
    tTest2Update a (.fin v) (.fin w) =
      ⟨a.xMean + (v - a.xMean) / ((a.xCount + 1 : ℕ) : ℝ),
       a.xM2 + (v - a.xMean) *
         (v - (a.xMean + (v - a.xMean) / ((a.xCount + 1 : ℕ) : ℝ))),
       a.xCount + 1,
       a.yMean + (w - a.yMean) / ((a.yCount + 1 : ℕ) : ℝ),
       a.yM2 + (w - a.yMean) *
         (w - (a.yMean + (w - a.yMean) / ((a.yCount + 1 : ℕ) : ℝ))),
       a.yCount + 1, a.rMean, a.rM2⟩ := rfl

theorem tTest2Update_nan_fin (a : TT2) (w : ℝ) :
    tTest2Update a .nan (.fin w) =
      ⟨a.xMean, a.xM2, a.xCount,
       a.yMean + (w - a.yMean) / ((a.yCount + 1 : ℕ) : ℝ),
       a.yM2 + (w - a.yMean) *
         (w - (a.yMean + (w - a.yMean) / ((a.yCount + 1 : ℕ) : ℝ))),
       a.yCount + 1, a.rMean, a.rM2⟩ := rfl

theorem bootstrapStep_eq_pos (a : TT2) (i tc cc : ℕ) (ht : tc ≠ 0)
    (hc : cc ≠ 0) :
    bootstrapStep a i tc cc =
      { tTest2Update a (.fin tc) (.fin cc) with
        rMean := (tTest2Update a (.fin tc) (.fin cc)).rMean +
          ((tc : ℝ) / cc - (tTest2Update a (.fin tc) (.fin cc)).rMean) /
            ((i + 1 : ℕ) : ℝ),
        rM2 := (tTest2Update a (.fin tc) (.fin cc)).rM2 +
          ((tc : ℝ) / cc - (tTest2Update a (.fin tc) (.fin cc)).rMean) *
          ((tc : ℝ) / cc - ((tTest2Update a (.fin tc) (.fin cc)).rMean +
            ((tc : ℝ) / cc - (tTest2Update a (.fin tc) (.fin cc)).rMean) /
              ((i + 1 : ℕ) : ℝ))) } := by
  simp only [bootstrapStep, if_neg ht, if_neg hc, if_pos (And.intro ht hc),
    runningStdev]

theorem bootstrapStep_eq_tnan (a : TT2) (i cc : ℕ) (hc : cc ≠ 0) :
    bootstrapStep a i 0 cc = tTest2Update a .nan (.fin cc) := by
  simp [bootstrapStep, hc]

theorem bootstrapAggregate_pair (t1 c1 t2 c2 : ℕ) :
    bootstrapAggregate [(t1, c1), (t2, c2)] =
      bootstrapStep (bootstrapStep tt2Create 0 t1 c1) 1 t2 c2 := rfl

theorem bootstrapAggregate_one (t c : ℕ) :
    bootstrapAggregate [(t, c)] = bootstrapStep tt2Create 0 t c := rfl

/-- C7 (counterexample): with a single iteration and counts (2, 1), the
reported stdev is NaN (the square root of 0/0) and the reported pval is 0
(the untouched ratio-M2 accumulator) - the claim states the opposite pair;
with two iterations and counts (0,1), (100,1) the reported pval is 5000,
outside [0, 1]; and with two iterations of identical counts (1,1), (1,1)
both Welford sample counts reach 2 with both sample variances zero, the
t statistic and degrees of freedom degenerate to 0/0, and the p-value
`2 * t_test_cdf(-|t|, df)` comes out as 2, again outside [0, 1] - so the
`[0, 1]` guarantee needs some sample variance to be nonzero. -/
theorem c7_counterexample :
    (bootstrapRegularKmer brZero [(2, 1)] false).2.1 = Dbl.nan ∧
    (bootstrapRegularKmer brZero [(2, 1)] false).2.2 = Dbl.fin 0 ∧
    Dbl.nan ≠ Dbl.fin 0 ∧
    (bootstrapRegularKmer brZero [(0, 1), (100, 1)] false).2.2 = Dbl.fin 5000 ∧
    ¬ ((5000 : ℝ) ≤ 1) ∧
    2 ≤ (bootstrapAggregate [(1, 1), (1, 1)]).xCount ∧
    2 ≤ (bootstrapAggregate [(1, 1), (1, 1)]).yCount ∧
    (bootstrapAggregate [(1, 1), (1, 1)]).xM2 = 0 ∧
    (bootstrapAggregate [(1, 1), (1, 1)]).yM2 = 0 ∧
    (bootstrapRegularKmer brZero [(1, 1), (1, 1)] false).2.2 = Dbl.fin 2 ∧
    ¬ ((2 : ℝ) ≤ 1) := by
  have h1 : bootstrapAggregate [(2, 1)] = ⟨2, 0, 1, 1, 0, 1, 2, 0⟩ := by
    rw [bootstrapAggregate_one, bootstrapStep_eq_pos _ _ _ _ (by norm_num)
      (by norm_num), tTest2Update_fin_fin]
    show TT2.mk _ _ _ _ _ _ _ _ = _
    simp only [tt2Create, TT2.mk.injEq]
    norm_num
  have h2 : bootstrapAggregate [(0, 1), (100, 1)] =
      ⟨100, 0, 1, 1, 0, 2, 50, 5000⟩ := by
    have hs1 : bootstrapStep tt2Create 0 0 1 = ⟨0, 0, 0, 1, 0, 1, 0, 0⟩ := by
      rw [bootstrapStep_eq_tnan _ _ _ (by norm_num), tTest2Update_nan_fin]
      simp only [tt2Create, TT2.mk.injEq]
      norm_num
    rw [bootstrapAggregate_pair, hs1, bootstrapStep_eq_pos _ _ _ _ (by norm_num)
      (by norm_num), tTest2Update_fin_fin]
    show TT2.mk _ _ _ _ _ _ _ _ = _
    simp only [TT2.mk.injEq]
    norm_num
  have h3 : bootstrapAggregate [(1, 1), (1, 1)] = ⟨1, 0, 2, 1, 0, 2, 1, 0⟩ := by
    have hs1 : bootstrapStep tt2Create 0 1 1 = ⟨1, 0, 1, 1, 0, 1, 1, 0⟩ := by
      rw [bootstrapStep_eq_pos _ _ _ _ (by norm_num) (by norm_num),
        tTest2Update_fin_fin]
      show TT2.mk _ _ _ _ _ _ _ _ = _
      simp only [tt2Create, TT2.mk.injEq]
      norm_num
    rw [bootstrapAggregate_pair, hs1, bootstrapStep_eq_pos _ _ _ _ (by norm_num)
      (by norm_num), tTest2Update_fin_fin]
    show TT2.mk _ _ _ _ _ _ _ _ = _
    simp only [TT2.mk.injEq]
    norm_num
  refine ⟨?_, ?_, fun h => Dbl.noConfusion h, ?_, by norm_num,
    by rw [h3], by rw [h3], by rw [h3], by rw [h3], ?_, by norm_num⟩
  · show dsqrt (ddiv (.fin (bootstrapAggregate [(2, 1)]).rM2)
      (.fin (([((2 : ℕ), (1 : ℕ))].length : ℝ) - 1))) = Dbl.nan
    rw [h1]
    norm_num [ddiv, dsqrt]
  · show tTest2FinalizePval brZero (bootstrapAggregate [(2, 1)]) = Dbl.fin 0
    rw [h1, tTest2FinalizePval]
    norm_num
  · show tTest2FinalizePval brZero (bootstrapAggregate [(0, 1), (100, 1)]) =
      Dbl.fin 5000
    rw [h2, tTest2FinalizePval]
    norm_num
  · show tTest2FinalizePval brZero (bootstrapAggregate [(1, 1), (1, 1)]) =
      Dbl.fin 2
    rw [h3]
    unfold tTest2FinalizePval
    rw [if_neg (by norm_num)]
    norm_num [tTestCdf, regIncompleteBeta, brZero, ddiv, dmul, dadd, dsub,
      dneg, dabs, dlt, dle, Real.sqrt_zero]

theorem dlt_fin_fin (a b : ℝ) : dlt (.fin a) (.fin b) ↔ a < b := Iff.rfl

theorem dle_fin_fin (a b : ℝ) : dle (.fin a) (.fin b) ↔ a ≤ b := Iff.rfl

/-- The range hypothesis on the bratio parameter: both returned components
are finite values in [0, 1] (true of the regularized incomplete beta ratio
and its complement, which TOMS708's bratio computes). -/
def brInRange (br : Dbl → Dbl → Dbl → Dbl → Bool → Dbl × Dbl) : Prop :=
  ∀ a b x y lp, (∃ u, (br a b x y lp).1 = .fin u ∧ 0 ≤ u ∧ u ≤ 1) ∧
    (∃ u, (br a b x y lp).2 = .fin u ∧ 0 ≤ u ∧ u ≤ 1)

theorem tTestCdf_range (br : Dbl → Dbl → Dbl → Dbl → Bool → Dbl × Dbl)
    (hbr : brInRange br) (t0 d0 : ℝ) (ht0 : t0 ≤ 0) (hd0 : 0 < d0) :
    ∃ u, tTestCdf br (.fin t0) (.fin d0) true false = .fin (u / 2) ∧
      0 ≤ u ∧ u ≤ 1 := by
  unfold tTestCdf
  simp only [ddiv_fin_fin _ _ (ne_of_gt hd0), dmul_fin_fin, dadd_fin_fin]
  have hsq : t0 / d0 * t0 = t0 ^ 2 / d0 := by ring
  have hnx : (0 : ℝ) < 1 + t0 / d0 * t0 := by
    rw [hsq]
    positivity
  have hflip : dle (Dbl.fin t0) (Dbl.fin 0) := (dle_fin_fin _ _).mpr ht0
  by_cases hbranch : dlt (Dbl.fin (t0 * t0)) (Dbl.fin d0)
  · rw [if_pos hbranch]
    unfold regIncompleteBeta
    have hpos : (0 : ℝ) < d0 + t0 * t0 := by nlinarith [mul_self_nonneg t0]
    rw [ddiv_fin_fin _ _ (ne_of_gt hpos), ddiv_fin_fin _ _ (by norm_num)]
    obtain ⟨u, hu, hu0, hu1⟩ := (hbr (.fin (1 / 2)) (.fin (d0 / 2))
      (.fin (t0 * t0 / (d0 + t0 * t0)))
      (dadd (dsub (.fin (1 / 2)) (.fin (t0 * t0 / (d0 + t0 * t0)))) (.fin (1 / 2)))
      false).2
    refine ⟨u, ?_, hu0, hu1⟩
    simp only [Bool.false_eq_true, if_false, hu, if_pos hflip, Bool.not_true]
    rw [ddiv_fin_fin _ _ (by norm_num)]
  · rw [if_neg hbranch]
    unfold regIncompleteBeta
    rw [ddiv_fin_fin _ _ (ne_of_gt hnx), ddiv_fin_fin _ _ (by norm_num)]
    obtain ⟨u, hu, hu0, hu1⟩ := (hbr (.fin (d0 / 2)) (.fin (1 / 2))
      (.fin (1 / (1 + t0 / d0 * t0)))
      (dadd (dsub (.fin (1 / 2)) (.fin (1 / (1 + t0 / d0 * t0)))) (.fin (1 / 2)))
      false).1
    refine ⟨u, ?_, hu0, hu1⟩
    simp only [if_true, hu, if_pos hflip, Bool.not_true, Bool.false_eq_true,
      if_false]
    rw [ddiv_fin_fin _ _ (by norm_num)]

/-- C7 (amended): for a kmer's per-iteration bootstrap counts, with a single
iteration the reported stdev is NaN (sqrt of 0/0) and the reported pval is 0
(the ratio-M2 accumulator, untouched by the early-returning finalize); with
at least two iterations the stdev is a nonnegative finite value, the pval is
the nonnegative ratio-M2 accumulator whenever either Welford sample count is
below two, and the pval lies in [0, 1] whenever both sample counts are at
least two and a sample variance is nonzero. -/
theorem c7_bootstrap_amended (br : Dbl → Dbl → Dbl → Dbl → Bool → Dbl × Dbl)
    (vals : List (ℕ × ℕ)) (normalize : Bool) (hbr : brInRange br) :
    (vals.length = 1 →
      (bootstrapRegularKmer br vals normalize).2.1 = Dbl.nan ∧
      (bootstrapRegularKmer br vals normalize).2.2 = Dbl.fin 0) ∧
    (2 ≤ vals.length →
      ((∃ s, (bootstrapRegularKmer br vals normalize).2.1 = .fin s ∧ 0 ≤ s) ∧
       (((bootstrapAggregate vals).xCount < 2 ∨
           (bootstrapAggregate vals).yCount < 2) →
         (bootstrapRegularKmer br vals normalize).2.2 =
           .fin (bootstrapAggregate vals).rM2 ∧
         0 ≤ (bootstrapAggregate vals).rM2) ∧
       (2 ≤ (bootstrapAggregate vals).xCount →
         2 ≤ (bootstrapAggregate vals).yCount →
         ((bootstrapAggregate vals).xM2 ≠ 0 ∨ (bootstrapAggregate vals).yM2 ≠ 0) →
         ∃ p, (bootstrapRegularKmer br vals normalize).2.2 = .fin p ∧
           0 ≤ p ∧ p ≤ 1))) := by
  obtain ⟨hxM2, hyM2, hrM2⟩ := bootstrapAggregate_m2_nonneg vals
  constructor
  · intro hlen
    obtain ⟨p, rfl⟩ := List.length_eq_one.mp hlen
    obtain ⟨t, c⟩ := p
    obtain ⟨hr0, hxlt⟩ := bootstrapAggregate_single t c
    constructor
    · show dsqrt (ddiv (.fin (bootstrapAggregate [(t, c)]).rM2)
        (.fin (([((t : ℕ), (c : ℕ))].length : ℝ) - 1))) = Dbl.nan
      rw [hr0]
      norm_num [ddiv, dsqrt]
    · show tTest2FinalizePval br (bootstrapAggregate [(t, c)]) = Dbl.fin 0
      rw [tTest2FinalizePval, if_pos (Or.inl hxlt), hr0]
  · intro hlen
    have hlenR : (0 : ℝ) < (vals.length : ℝ) - 1 := by
      have : (2 : ℝ) ≤ (vals.length : ℝ) := by exact_mod_cast hlen
      linarith
    refine ⟨?_, ?_, ?_⟩
    · show ∃ s, dsqrt (ddiv (.fin (bootstrapAggregate vals).rM2)
        (.fin ((vals.length : ℝ) - 1))) = .fin s ∧ 0 ≤ s
      rw [ddiv_fin_fin _ _ (ne_of_gt hlenR),
        dsqrt_fin_of_nonneg _ (div_nonneg hrM2 (le_of_lt hlenR))]
      exact ⟨_, rfl, Real.sqrt_nonneg _⟩
    · intro hcnt
      constructor
      · show tTest2FinalizePval br (bootstrapAggregate vals) = _
        rw [tTest2FinalizePval, if_pos hcnt]
      · exact hrM2
    · intro hx2 hy2 hvar
      set a := bootstrapAggregate vals with ha
      have hxc : (1 : ℝ) ≤ (a.xCount : ℝ) - 1 := by
        have : (2 : ℝ) ≤ (a.xCount : ℝ) := by exact_mod_cast hx2
        linarith
      have hyc : (1 : ℝ) ≤ (a.yCount : ℝ) - 1 := by
        have : (2 : ℝ) ≤ (a.yCount : ℝ) := by exact_mod_cast hy2
        linarith
      have hxcp : (0 : ℝ) < (a.xCount : ℝ) := by
        have : (2 : ℝ) ≤ (a.xCount : ℝ) := by exact_mod_cast hx2
        linarith
      have hycp : (0 : ℝ) < (a.yCount : ℝ) := by
        have : (2 : ℝ) ≤ (a.yCount : ℝ) := by exact_mod_cast hy2
        linarith
      set xVar := a.xM2 / ((a.xCount : ℝ) - 1) with hxVar
      set yVar := a.yM2 / ((a.yCount : ℝ) - 1) with hyVar
      have hxv0 : 0 ≤ xVar := div_nonneg hxM2 (by linarith)
      have hyv0 : 0 ≤ yVar := div_nonneg hyM2 (by linarith)
      set xva := xVar / (a.xCount : ℝ) with hxva
      set yva := yVar / (a.yCount : ℝ) with hyva
      have hxva0 : 0 ≤ xva := div_nonneg hxv0 (le_of_lt hxcp)
      have hyva0 : 0 ≤ yva := div_nonneg hyv0 (le_of_lt hycp)
      have hs2 : 0 < xva + yva := by
        rcases hvar with hv | hv
        · have : 0 < xVar :=
            div_pos (lt_of_le_of_ne hxM2 (Ne.symm hv)) (by linarith)
          have : 0 < xva := div_pos this hxcp
          linarith
        · have : 0 < yVar :=
            div_pos (lt_of_le_of_ne hyM2 (Ne.symm hv)) (by linarith)
          have : 0 < yva := div_pos this hycp
          linarith
      have hsqrt : 0 < Real.sqrt (xva + yva) := Real.sqrt_pos.mpr hs2
      have hor : 0 < xva ∨ 0 < yva := by
        rcases lt_or_eq_of_le hxva0 with h | h
        · exact Or.inl h
        · rcases lt_or_eq_of_le hyva0 with h' | h'
          · exact Or.inr h'
          · rw [← h, ← h'] at hs2
            norm_num at hs2
      have hdenom : 0 < xva * xva / ((a.xCount : ℝ) - 1) +
          yva * yva / ((a.yCount : ℝ) - 1) := by
        rcases hor with h | h
        · have h1 : 0 < xva * xva / ((a.xCount : ℝ) - 1) :=
            div_pos (mul_pos h h) (by linarith)
          have h2 : 0 ≤ yva * yva / ((a.yCount : ℝ) - 1) :=
            div_nonneg (mul_nonneg hyva0 hyva0) (by linarith)
          linarith
        · have h1 : 0 < yva * yva / ((a.yCount : ℝ) - 1) :=
            div_pos (mul_pos h h) (by linarith)
          have h2 : 0 ≤ xva * xva / ((a.xCount : ℝ) - 1) :=
            div_nonneg (mul_nonneg hxva0 hxva0) (by linarith)
          linarith
      have hnum : 0 < (xva + yva) * (xva + yva) := mul_pos hs2 hs2
      have hproj : (bootstrapRegularKmer br vals normalize).2.2 =
          tTest2FinalizePval br a := rfl
      rw [hproj, tTest2FinalizePval, if_neg (by omega)]
      simp only [← hxVar, ← hyVar, ← hxva, ← hyva]
      rw [ddiv_fin_fin _ _ (ne_of_gt hsqrt), dabs, dneg,
        ddiv_fin_fin _ _ (ne_of_gt hdenom)]
      obtain ⟨u, hcdf, hu0, hu1⟩ := tTestCdf_range br hbr
        (-|(a.xMean - a.yMean) / Real.sqrt (xva + yva)|)
        ((xva + yva) * (xva + yva) /
          (xva * xva / ((a.xCount : ℝ) - 1) + yva * yva / ((a.yCount : ℝ) - 1)))
        (neg_nonpos.mpr (abs_nonneg _)) (div_pos hnum hdenom)
      rw [hcdf, dmul_fin_fin]
      exact ⟨u, by rw [show (2 : ℝ) * (u / 2) = u from by ring], hu0, hu1⟩

/-- Witness for C7: the amended statement applied on a concrete two-iteration
stream with distinct counts, discharging the bratio range hypothesis with the
constant function and the variance hypothesis by direct computation. -/
theorem c7_witness :
    brInRange brZero ∧
    (2 ≤ ([((1 : ℕ), (2 : ℕ)), ((2 : ℕ), (1 : ℕ))].length) ∧
      (2 ≤ (bootstrapAggregate [(1, 2), (2, 1)]).xCount →
        2 ≤ (bootstrapAggregate [(1, 2), (2, 1)]).yCount →
        ((bootstrapAggregate [(1, 2), (2, 1)]).xM2 ≠ 0 ∨
          (bootstrapAggregate [(1, 2), (2, 1)]).yM2 ≠ 0) →
        ∃ p, (bootstrapRegularKmer brZero [(1, 2), (2, 1)] false).2.2 =
          .fin p ∧ 0 ≤ p ∧ p ≤ 1)) :=
  have hbr : brInRange brZero := fun _ _ _ _ _ =>
    ⟨⟨0, rfl, le_refl 0, by norm_num⟩, ⟨1, rfl, by norm_num, le_refl 1⟩⟩
  ⟨hbr, by norm_num,
    ((c7_bootstrap_amended brZero [(1, 2), (2, 1)] false hbr).2 (by norm_num)).2.2⟩

/-! ## C2: recounting -/

/-- C2: refuted on a concrete run.  The stream is ten raw lines of
ten adenines; counting with k = 1 gives the cell of A the value 100 and
total 100.  The kmer G does not occur (`seqseqIdx` finds no match), so the
claimed post-recount state is the same count table with total decreased by
0.  The code instead returns cell 200 and total 300: the recount clears the
cells but not the running total, each re-increment bumps the total again,
and the do-while's second round re-masks and re-counts the stale buffer a
second time after the empty read at end of file. -/
theorem c2_recount_stale_buffer :
    katssCountKmers tenLinesTenA 1 =
      some ⟨1, 3, [100, 0, 0, 0], 100, []⟩ ∧
    katssRecountKmer ⟨1, 3, [100, 0, 0, 0], 100, []⟩ tenLinesTenA [71] =
      some ⟨1, 3, [200, 0, 0, 0], 300, [[71]]⟩ ∧
    seqseqIdx tenLinesTenA [71] = none := by
  set_option maxRecDepth 40000 in decide

/-! ## C8: shuffled recounting -/

/-- C8: refuted on a concrete run with the identity shuffle (which preserves
every klet count) on ten raw lines of ten adenines, k = 2, removing AA.  In
the claimed semantics every shuffled record is masked before hashing, so the
AA cell ends at 0; the code masks the original record buffer (a dead store)
and hashes the unmasked shuffled copy, leaving 99 counts of AA (nine windows
inside each of ten records, plus nine windows rolled across record
boundaries by the persisting hasher state). -/
theorem c8_shuffle_masks_wrong_buffer :
    katssCountKmers tenLinesTenA 2 =
      some ⟨2, 15, 90 :: List.replicate 15 0, 90, []⟩ ∧
    katssRecountKmerShuffle ⟨2, 15, 90 :: List.replicate 15 0, 90, []⟩
        tenLinesTenA 2 [65, 65] (fun r _ => r) =
      some ⟨2, 15, 99 :: List.replicate 15 0, 189, [[65, 65]]⟩ ∧
    claimRecountKmerShuffle ⟨2, 15, 90 :: List.replicate 15 0, 90, []⟩
        tenLinesTenA 2 [65, 65] (fun r _ => r) =
      some ⟨2, 15, List.replicate 16 0, 90, [[65, 65]]⟩ := by
  set_option maxRecDepth 40000 in decide

/-! ## Arithmetic and digit lemmas for the pipeline development -/

theorem cleanNt_acgt (b : ℕ) (h : isACGT b) : cleanNt b = b := by
  rcases h with rfl | rfl | rfl | rfl <;> decide

theorem cleanNt_bounds (b : ℕ) (hb : b < 128) : 0 ≤ cleanNt b ∧ cleanNt b < 128 := by
  simp only [cleanNt]
  split_ifs <;> omega

theorem cleanNt_pos (b : ℕ) (h0 : 0 < b) (hb : b < 128) : 0 < cleanNt b := by
  simp only [cleanNt]
  split_ifs <;> omega

theorem cleanNt_neg (b : ℕ) (hb : 128 ≤ b) (hb2 : b < 256) : cleanNt b < 0 := by
  simp only [cleanNt]
  split_ifs <;> omega

theorem intToU32_cleanNt (b : ℕ) (hb : b < 128) :
    intToU32 (cleanNt b) = (cleanNt b).toNat := by
  obtain ⟨h0, h1⟩ := cleanNt_bounds b hb
  unfold intToU32
  rw [Int.emod_eq_of_lt h0 (by omega)]

theorem cleanNt_toNat_lt (b : ℕ) (hb : b < 128) : (cleanNt b).toNat < 128 := by
  obtain ⟨h0, h1⟩ := cleanNt_bounds b hb
  omega

theorem frh_eq (prev x k : ℕ) (hx : x < 4) (hk : k ≤ 16) :
    frh prev x k = (prev * 4 + x) % 4 ^ k := by
  unfold frh
  have h1 : (prev * 4) % 2 ^ 32 = 2 ^ 2 * (prev % 2 ^ 30) := by
    have : prev * 4 = 2 ^ 2 * prev := by ring
    rw [this, show (2 : ℕ) ^ 32 = 2 ^ 2 * 2 ^ 30 from by norm_num,
      Nat.mul_mod_mul_left]
  rw [h1, ← Nat.mul_add_lt_is_or hx, Nat.and_pow_two_sub_one_eq_mod]
  have h2 : (4 : ℕ) ^ k = 2 ^ (2 * k) := by
    rw [show (4 : ℕ) = 2 ^ 2 from rfl, ← pow_mul]
  rw [h2]
  have h3 : 2 ^ 2 * (prev % 2 ^ 30) + x ≡ 2 ^ 2 * prev + x [MOD 2 ^ (2 * k)] := by
    refine Nat.ModEq.add_right x ?_
    have h4 : 2 ^ 2 * (prev % 2 ^ 30) ≡ 2 ^ 2 * prev [MOD 2 ^ 2 * 2 ^ 30] :=
      Nat.ModEq.mul_left' _ (Nat.mod_modEq prev (2 ^ 30))
    refine Nat.ModEq.of_dvd ?_ h4
    rw [show (2 : ℕ) ^ 2 * 2 ^ 30 = 2 ^ 32 from by norm_num]
    exact pow_dvd_pow 2 (by omega)
  calc (2 ^ 2 * (prev % 2 ^ 30) + x) % 2 ^ (2 * k)
      = (2 ^ 2 * prev + x) % 2 ^ (2 * k) := h3
    _ = (prev * 4 + x) % 2 ^ (2 * k) := by ring_nf

theorem digitsOf_length (k h : ℕ) : (digitsOf k h).length = k := by
  induction k generalizing h with
  | zero => rfl
  | succ k ih => simp [digitsOf, ih]

theorem digitsOf_lt (k h : ℕ) : ∀ d ∈ digitsOf k h, d < 4 := by
  induction k generalizing h with
  | zero => simp [digitsOf]
  | succ k ih =>
    intro d hd
    simp only [digitsOf, List.mem_append, List.mem_singleton] at hd
    rcases hd with hd | rfl
    · exact ih _ _ hd
    · omega

theorem digitsOf_mod (k h : ℕ) : digitsOf k (h % 4 ^ k) = digitsOf k h := by
  induction k generalizing h with
  | zero => rfl
  | succ k ih =>
    simp only [digitsOf]
    have h4 : (4 : ℕ) ^ (k + 1) = 4 * 4 ^ k := by ring
    have hm : h % 4 ^ (k + 1) % 4 = h % 4 := by
      rw [Nat.mod_mod_of_dvd h (by rw [h4]; exact Dvd.intro _ rfl)]
    have hd : h % 4 ^ (k + 1) / 4 = h / 4 % 4 ^ k := by
      rw [h4, Nat.mod_mul_right_div_self]
    rw [hm, hd, ih]

theorem digits_roll (k : ℕ) : ∀ h c, c < 4 → 1 ≤ k →
    digitsOf k ((h * 4 + c) % 4 ^ k) = (digitsOf k h).drop 1 ++ [c] := by
  induction k with
  | zero => omega
  | succ k ih =>
    intro h c hc _
    rcases Nat.eq_zero_or_pos k with rfl | hk2
    · simp only [digitsOf, List.nil_append, List.drop_succ_cons, List.drop_nil]
      have h1 : (h * 4 + c) % 4 ^ 1 % 4 = c := by
        rw [pow_one]; omega
      rw [h1]
    · simp only [digitsOf]
      have h4 : (4 : ℕ) ^ (k + 1) = 4 * 4 ^ k := by ring
      have hm : (h * 4 + c) % 4 ^ (k + 1) % 4 = c := by
        rw [Nat.mod_mod_of_dvd _ ⟨4 ^ k, by ring⟩]
        omega
      have hd : (h * 4 + c) % 4 ^ (k + 1) / 4 = h % 4 ^ k := by
        rw [h4, Nat.mod_mul_right_div_self,
          Nat.mul_comm h 4, Nat.mul_add_div (by norm_num),
          Nat.div_eq_of_lt hc, Nat.add_zero]
      rw [hm, hd]
      have hstep : digitsOf k (h % 4 ^ k) = (digitsOf k (h / 4)).drop 1 ++ [h % 4] := by
        have := ih (h / 4) (h % 4) (Nat.mod_lt _ (by norm_num)) hk2
        rwa [Nat.div_add_mod' h 4] at this
      rw [hstep,
        List.drop_append_of_le_length (by rw [digitsOf_length]; omega),
        List.append_assoc]

theorem baseClass_unhashChar (d : ℕ) (hd : d < 4) :
    baseClass (unhashChar d true) = d := by
  interval_cases d <;> decide

theorem unhash_length (h k : ℕ) (t : Bool) : (katssUnhash h k t).length = k := by
  induction k generalizing h with
  | zero => rfl
  | succ k ih => simp [katssUnhash, ih]

theorem unhash_acgt (h k : ℕ) : ∀ b ∈ katssUnhash h k true, isACGT b := by
  induction k generalizing h with
  | zero => simp [katssUnhash]
  | succ k ih =>
    intro b hb
    simp only [katssUnhash, List.mem_append, List.mem_singleton] at hb
    rcases hb with hb | rfl
    · exact ih _ _ hb
    · unfold unhashChar
      split_ifs <;> simp_all [isACGT]

theorem map_baseClass_unhash (k h : ℕ) :
    (katssUnhash h k true).map baseClass = digitsOf k h := by
  induction k generalizing h with
  | zero => rfl
  | succ k ih =>
    simp only [katssUnhash, digitsOf, List.map_append, List.map_cons, List.map_nil, ih]
    rw [baseClass_unhashChar _ (Nat.mod_lt _ (by norm_num))]

theorem cleanNt_baseClass_bridge (t b : ℕ) (ht : isACGT t) (hb : b < 128) :
    cleanNt b = cleanNt t ↔ baseClass b = baseClass t := by
  have key : ∀ b' < 128,
      (cleanNt b' = cleanNt 65 ↔ baseClass b' = baseClass 65) ∧
      (cleanNt b' = cleanNt 67 ↔ baseClass b' = baseClass 67) ∧
      (cleanNt b' = cleanNt 71 ↔ baseClass b' = baseClass 71) ∧
      (cleanNt b' = cleanNt 84 ↔ baseClass b' = baseClass 84) := by decide
  rcases ht with rfl | rfl | rfl | rfl
  · exact (key b hb).1
  · exact (key b hb).2.1
  · exact (key b hb).2.2.1
  · exact (key b hb).2.2.2

/-- An occurrence of the unhashed key (in the `clean_nt` sense of `seqseq`)
is exactly a complete hash window of that key. -/
theorem occurs_iff_window (hay : List ℕ) (key k i : ℕ) (hhay : asciiBytes hay) :
    occursAt hay (katssUnhash key k true) i ↔ windowAt hay i k key := by
  unfold occursAt windowAt
  rw [unhash_length]
  have hlenmap : i + k ≤ hay.length →
      (((hay.drop i).take k).map baseClass).length = k := by
    intro hl
    simp only [List.length_map, List.length_take, List.length_drop]
    omega
  constructor
  · rintro ⟨hlen, hmatch⟩
    refine ⟨hlen, ?_⟩
    rw [← map_baseClass_unhash k key]
    apply List.ext_getElem
    · rw [hlenmap hlen, List.length_map, unhash_length]
    · intro j h1 h2
      rw [List.getElem_map, List.getElem_map, List.getElem_take, List.getElem_drop]
      have hj : j < k := by rw [hlenmap hlen] at h1; exact h1
      have hb := hmatch j hj
      unfold byteAt at hb
      rw [List.getD_eq_getElem _ _ (show i + j < hay.length by omega),
        List.getD_eq_getElem _ _ (show j < (katssUnhash key k true).length by
          rw [unhash_length]; exact hj)] at hb
      exact (cleanNt_baseClass_bridge _ _
        (unhash_acgt key k _ (List.getElem_mem _))
        (hhay _ (List.getElem_mem _)).2).mp hb
  · rintro ⟨hlen, hmatch⟩
    refine ⟨hlen, ?_⟩
    intro j hj
    rw [← map_baseClass_unhash k key] at hmatch
    have h1 : j < (((hay.drop i).take k).map baseClass).length := by
      rw [hlenmap hlen]; exact hj
    have hpt := List.getElem_of_eq hmatch h1
    rw [List.getElem_map, List.getElem_map, List.getElem_take, List.getElem_drop] at hpt
    unfold byteAt
    rw [List.getD_eq_getElem _ _ (show i + j < hay.length by omega),
      List.getD_eq_getElem _ _ (show j < (katssUnhash key k true).length by
        rw [unhash_length]; exact hj)]
    exact (cleanNt_baseClass_bridge _ _
      (unhash_acgt key k _ (List.getElem_mem _))
      (hhay _ (List.getElem_mem _)).2).mpr hpt

/-! ## Hasher soundness (raw mode): every emitted hash is a window -/

theorem baseClass_ne_four (b : ℕ) (hb : 0 < b) : baseClass b ≠ 4 := by
  unfold baseClass
  split_ifs <;> omega

theorem drop_cons_tail {α : Type} (buf : List α) (n : ℕ) (b : α) (rest : List α)
    (h : buf.drop n = b :: rest) : buf.drop (n + 1) = rest := by
  have := congrArg List.tail h
  rwa [List.tail_drop] at this

theorem drop_cons_lt {α : Type} (buf : List α) (n : ℕ) (b : α) (rest : List α)
    (h : buf.drop n = b :: rest) : n < buf.length := by
  by_contra hc
  rw [List.drop_eq_nil_of_le (by omega)] at h
  exact List.noConfusion h

theorem drop_cons_byteAt (buf : List ℕ) (n : ℕ) (b : ℕ) (rest : List ℕ)
    (h : buf.drop n = b :: rest) : byteAt buf n = b := by
  have hn := drop_cons_lt buf n b rest h
  unfold byteAt
  rw [List.getD_eq_getElem _ _ hn]
  have := congrArg (fun l => l.headD 0) h
  simpa [List.headD_eq_head?, List.head?_drop,
    List.getElem?_eq_getElem hn] using this

/-- Advancing a full window by one byte: the new window slice is the old one
without its first byte, with the byte at `n` appended. -/
theorem slice_shift (buf : List ℕ) (n k : ℕ) (hk : 1 ≤ k) (hkn : k ≤ n)
    (hn : n < buf.length) :
    (buf.drop (n + 1 - k)).take k =
      ((buf.drop (n - k)).take k).drop 1 ++ [byteAt buf n] := by
  obtain ⟨j, rfl⟩ : ∃ j, k = j + 1 := ⟨k - 1, by omega⟩
  have hidx1 : n + 1 - (j + 1) = n - j := by omega
  rw [hidx1]
  have hlhs : (buf.drop (n - j)).take (j + 1) =
      (buf.drop (n - j)).take j ++ [byteAt buf n] := by
    rw [List.take_succ, List.getElem?_drop]
    have hidx2 : n - j + j = n := by omega
    rw [hidx2, List.getElem?_eq_getElem hn]
    unfold byteAt
    rw [List.getD_eq_getElem _ _ hn]
    rfl
  have hrhs : ((buf.drop (n - (j + 1))).take (j + 1)).drop 1 =
      (buf.drop (n - j)).take j := by
    rw [List.drop_take, List.drop_drop]
    have hidx3 : n - (j + 1) + 1 = n - j := by omega
    rw [hidx3, Nat.add_sub_cancel]
  rw [hlhs, hrhs]

/-- Soundness of the `fbh_r` scan loop: starting `n` bytes into the buffer
with a partial window of `pos` codes accumulated in `hash`, the loop
consumes a suffix; a normal return has completed a window whose codes are
the digits of the returned hash, and a terminator return is at the end of
the buffer with the partial state preserved. -/
theorem fbhRLoop_sound (k : ℕ) (hk16 : k ≤ 16) (buf : List ℕ)
    (hnul : ∀ b ∈ buf, 0 < b) :
    ∀ seq n pos hash,
      seq = buf.drop n → n ≤ buf.length → pos ≤ k → pos ≤ n → hash < 4 ^ pos →
      ((buf.drop (n - pos)).take pos).map baseClass = digitsOf pos hash →
      ∃ m, n ≤ m ∧ m ≤ buf.length ∧
        (fbhRLoop k seq pos hash).seq = buf.drop m ∧
        (fbhRLoop k seq pos hash).endno = none ∧
        ((fbhRLoop k seq pos hash).endHit = false →
          (pos < k → n < m) ∧ (fbhRLoop k seq pos hash).pos = 0 ∧
          (fbhRLoop k seq pos hash).hash < 4 ^ k ∧ k ≤ m ∧
          ((buf.drop (m - k)).take k).map baseClass =
            digitsOf k (fbhRLoop k seq pos hash).hash) ∧
        ((fbhRLoop k seq pos hash).endHit = true →
          m = buf.length ∧ (fbhRLoop k seq pos hash).seq = [] ∧
          (fbhRLoop k seq pos hash).pos ≤ k ∧
          (fbhRLoop k seq pos hash).pos ≤ m ∧
          ((fbhRLoop k seq pos hash).pos ≠ 0 →
            (fbhRLoop k seq pos hash).hash < 4 ^ (fbhRLoop k seq pos hash).pos ∧
            ((buf.drop (m - (fbhRLoop k seq pos hash).pos)).take
                (fbhRLoop k seq pos hash).pos).map baseClass =
              digitsOf (fbhRLoop k seq pos hash).pos (fbhRLoop k seq pos hash).hash)) := by
  intro seq
  induction seq with
  | nil =>
    intro n pos hash hseq hn hposk hposn hhash hdig
    have hnlen : n = buf.length := by
      have := congrArg List.length hseq
      simp only [List.length_nil, List.length_drop] at this
      omega
    by_cases hguard : k ≤ pos
    · have hpk : pos = k := by omega
      refine ⟨n, le_refl n, hn, ?_⟩
      rw [fbhRLoop, if_pos hguard]
      subst hpk
      refine ⟨hseq, rfl, ?_, ?_⟩
      · intro _
        exact ⟨fun h => absurd h (by omega), rfl, hhash, by omega, hdig⟩
      · intro habs
        simp at habs
    · refine ⟨n, le_refl n, hn, ?_⟩
      rw [fbhRLoop, if_neg hguard]
      refine ⟨hseq, rfl, ?_, ?_⟩
      · intro habs
        simp at habs
      · intro _
        exact ⟨hnlen, rfl, hposk, hposn, fun hp => ⟨hhash, hdig⟩⟩
  | cons b rest ih =>
    intro n pos hash hseq hn hposk hposn hhash hdig
    have hnlt : n < buf.length := drop_cons_lt buf n b rest hseq.symm
    have hrest : rest = buf.drop (n + 1) := (drop_cons_tail buf n b rest hseq.symm).symm
    have hbb : byteAt buf n = b := drop_cons_byteAt buf n b rest hseq.symm
    have hbpos : 0 < b := hnul b (by
      have : b ∈ buf.drop n := by rw [hseq.symm]; exact List.mem_cons_self b rest
      exact List.mem_of_mem_drop this)
    by_cases hguard : k ≤ pos
    · have hpk : pos = k := by omega
      refine ⟨n, le_refl n, hn, ?_⟩
      rw [fbhRLoop, if_pos hguard]
      subst hpk
      refine ⟨hseq, rfl, ?_, ?_⟩
      · intro _
        exact ⟨fun h => absurd h (by omega), rfl, hhash, by omega, hdig⟩
      · intro habs
        simp at habs
    · have hposlt : pos < k := by omega
      rw [fbhRLoop, if_neg hguard]
      by_cases hx4 : baseClass b < 4
      · -- nucleotide: push a digit
        simp only [if_pos hx4]
        have hlt : hash * 4 + baseClass b < 4 ^ (pos + 1) := by
          have : 4 ^ (pos + 1) = 4 ^ pos * 4 := by ring
          omega
        have hmod : (hash * 4 + baseClass b) % 2 ^ 32 = hash * 4 + baseClass b := by
          apply Nat.mod_eq_of_lt
          calc hash * 4 + baseClass b < 4 ^ (pos + 1) := hlt
            _ ≤ 4 ^ 16 := Nat.pow_le_pow_right (by norm_num) (by omega)
            _ ≤ 2 ^ 32 := by norm_num
        rw [hmod]
        have hdig2 : ((buf.drop (n + 1 - (pos + 1))).take (pos + 1)).map baseClass =
            digitsOf (pos + 1) (hash * 4 + baseClass b) := by
          have hidx : n + 1 - (pos + 1) = n - pos := by omega
          rw [hidx, List.take_succ, List.getElem?_drop]
          have hidx2 : n - pos + pos = n := by omega
          rw [hidx2, List.getElem?_eq_getElem hnlt]
          have hgb : buf[n] = b := by
            unfold byteAt at hbb
            rw [List.getD_eq_getElem _ _ hnlt] at hbb
            exact hbb
          simp only [digitsOf, Option.toList_some, List.map_append, List.map_cons,
            List.map_nil, hgb]
          have hq : (hash * 4 + baseClass b) / 4 = hash := by omega
          have hr : (hash * 4 + baseClass b) % 4 = baseClass b := by omega
          rw [hq, hr, hdig]
        have := ih (n + 1) (pos + 1) (hash * 4 + baseClass b) hrest (by omega)
          (by omega) (by omega) hlt hdig2
        obtain ⟨m, hm1, hm2, hs2, he2, hfalse, htrue⟩ := this
        refine ⟨m, by omega, hm2, hs2, he2, ?_, htrue⟩
        intro hf
        obtain ⟨_, hp0, hhlt, hkm, hwin⟩ := hfalse hf
        exact ⟨fun _ => by omega, hp0, hhlt, hkm, hwin⟩
      · by_cases hx : baseClass b = 4
        · exact absurd hx (baseClass_ne_four b hbpos)
        · -- other byte: window restart
          simp only [if_neg hx4, if_neg hx]
          have := ih (n + 1) 0 0 hrest (by omega) (by omega) (by omega)
            (by norm_num) (by simp [digitsOf])
          obtain ⟨m, hm1, hm2, hrest2⟩ := this
          exact ⟨m, by omega, hm2, hrest2.1, hrest2.2.1,
            fun hf => ⟨fun _ => by
              have := (hrest2.2.2.1 hf).1
              omega, (hrest2.2.2.1 hf).2.1, (hrest2.2.2.1 hf).2.2.1,
              (hrest2.2.2.1 hf).2.2.2.1, (hrest2.2.2.1 hf).2.2.2.2⟩,
            hrest2.2.2.2⟩

/-- A nonempty window or partial window cannot end at the final byte of a
newline-terminated buffer: its codes would all be digits (below 4), but the
newline's class is 8. -/
theorem tail_digits_zero (buf : List ℕ) (p hsh : ℕ) (hp : p ≤ buf.length)
    (hlast : buf.getLast? = some 10)
    (hdig : ((buf.drop (buf.length - p)).take p).map baseClass = digitsOf p hsh) :
    p = 0 := by
  by_contra hp0
  have hlen0 : 0 < buf.length := by
    cases buf with
    | nil => simp at hlast
    | cons a l => simp
  have hslice : (buf.drop (buf.length - p)).take p = buf.drop (buf.length - p) := by
    apply List.take_of_length_le
    rw [List.length_drop]
    omega
  rw [hslice] at hdig
  have h1 : buf[buf.length - 1]? = some 10 := by
    rw [← List.getLast?_eq_getElem?]; exact hlast
  have hlast2 : (buf.drop (buf.length - p)).getLast? = some 10 := by
    rw [List.getLast?_eq_getElem?, List.length_drop, List.getElem?_drop,
      show buf.length - p + (buf.length - (buf.length - p) - 1) = buf.length - 1 from by omega]
    exact h1
  have h8 : (digitsOf p hsh).getLast? = some 8 := by
    rw [← hdig, List.getLast?_map, hlast2]
    rfl
  exact absurd (digitsOf_lt p hsh 8 (List.mem_of_getLast?_eq_some h8)) (by omega)

/-- One true step of `katss_get_fh` in raw mode preserves the invariant,
consumes at least one byte, and emits a window hash; a false step leaves a
state with the kmer and a zero `endno`, and on a newline-terminated buffer
with no previous hash and an empty window position. -/
theorem getFh_step (buf : List ℕ) (k : ℕ) (hk1 : 1 ≤ k) (hk16 : k ≤ 16)
    (hnul : ∀ b ∈ buf, 0 < b) (h : KatssHasher) (hv : ℕ)
    (hInv : HasherInv buf k h) :
    (∀ x h2, katssGetFh h hv 'r' = (true, x, h2) →
      HasherInv buf k h2 ∧ h2.seq.length < h.seq.length ∧ ∃ i, windowAt buf i k x) ∧
    (∀ x h2, katssGetFh h hv 'r' = (false, x, h2) →
      h2.kmer = k ∧ h2.endno = 0 ∧
      (buf.getLast? = some 10 → h2.hasPrev = false ∧ h2.pos = 0)) := by
  obtain ⟨kmer, seq, pos, prevHash, hasPrev, endOfSeq, endno⟩ := h
  obtain ⟨hkm, hen, hposk, heos, hhp0, n, hn, hposn, hseq, hposcl, hprevcl⟩ := hInv
  simp only at hkm hen hposk heos hhp0 hseq hposcl hprevcl
  have hkk := hkm.symm
  subst hkk hen heos
  have hloop := fbhRLoop_sound k hk16 buf hnul seq n pos
  cases hasPrev with
  | false =>
    -- base-hash path
    rcases hout : fbhRLoop k seq pos (if pos ≠ 0 then prevHash else 0) with
      ⟨oh, os, op, oe, oen⟩
    have hpre : (if pos ≠ 0 then prevHash else 0) < 4 ^ pos ∧
        ((buf.drop (n - pos)).take pos).map baseClass =
          digitsOf pos (if pos ≠ 0 then prevHash else 0) := by
      by_cases hp : pos = 0
      · subst hp
        simp [digitsOf]
      · rw [if_pos hp]
        exact hposcl hp
    have hfacts := hloop (if pos ≠ 0 then prevHash else 0) hseq hn (by omega) hposn
      hpre.1 hpre.2
    rw [hout] at hfacts
    obtain ⟨m, hnm, hmlen, hos, hoen, hfalse, htrue⟩ := hfacts
    simp only at hos hoen hfalse htrue
    cases oe with
    | false =>
      obtain ⟨hcons, hop0, hohlt, hkm2, hwin⟩ := hfalse rfl
      have hred : katssGetFh ⟨k, seq, pos, prevHash, false, false, 0⟩ hv 'r' =
          (true, oh, ⟨k, os, op, oh, true, false, oen.getD 0⟩) := by
        simp only [katssGetFh, fbhR, hout]
        rfl
      constructor
      · intro x h2 hstep
        rw [hred] at hstep
        injection hstep with h1 h23
        injection h23 with hxeq hh2
        cases hxeq
        cases hh2
        refine ⟨⟨rfl, by simp [hoen], show op < k by omega, rfl, fun _ => hop0,
          m, hmlen, show op ≤ m by omega, hos, ?_, ?_⟩, ?_, ?_⟩
        · exact fun hop => absurd hop0 hop
        · intro _
          exact ⟨hkm2, hwin⟩
        · show os.length < seq.length
          rw [hos, hseq]
          simp only [List.length_drop]
          have := hcons hposk
          omega
        · exact ⟨m - k, by unfold windowAt; exact ⟨by omega, hwin⟩⟩
      · intro x h2 hstep
        rw [hred] at hstep
        injection hstep with hb _
        simp at hb
    | true =>
      obtain ⟨hmlen2, hos2, hople, hoplem, hopcl⟩ := htrue rfl
      have hred : katssGetFh ⟨k, seq, pos, prevHash, false, false, 0⟩ hv 'r' =
          (false, oh, ⟨k, os, op, oh, false, true, oen.getD 0⟩) := by
        simp only [katssGetFh, fbhR, hout]
        rfl
      constructor
      · intro x h2 hstep
        rw [hred] at hstep
        injection hstep with hb _
        simp at hb
      · intro x h2 hstep
        rw [hred] at hstep
        injection hstep with h1 h23
        injection h23 with hxeq hh2
        cases hxeq
        cases hh2
        refine ⟨rfl, by simp [hoen], fun hlast => ⟨rfl, ?_⟩⟩
        show op = 0
        rcases Nat.eq_zero_or_pos op with hz | hpos
        · exact hz
        · exact tail_digits_zero buf op oh (by omega)
            hlast (by rw [← hmlen2]; exact (hopcl (by omega)).2)
  | true =>
    -- rolling or restart path
    have hpz : pos = 0 := hhp0 rfl
    subst hpz
    obtain ⟨hkn, hwprev⟩ := hprevcl rfl
    cases hseqc : seq with
    | nil =>
      -- terminator while a previous hash exists: impossible on a
      -- newline-terminated buffer, and a false return regardless
      have hnlen : n = buf.length := by
        rw [hseqc] at hseq
        have := congrArg List.length hseq
        simp only [List.length_nil, List.length_drop] at this
        omega
      have hred : katssGetFh ⟨k, [], 0, prevHash, true, false, 0⟩ hv 'r' =
          (false, hv, ⟨k, [], 0, hv, true, true, 0⟩) := by
        simp only [katssGetFh]
        rfl
      subst hseqc
      constructor
      · intro x h2 hstep
        rw [hred] at hstep
        injection hstep with hb _
        simp at hb
      · intro x h2 hstep
        rw [hred] at hstep
        injection hstep with h1 h23
        injection h23 with hxeq hh2
        cases hxeq
        cases hh2
        refine ⟨rfl, rfl, fun hlast => ?_⟩
        have := tail_digits_zero buf k prevHash (by omega) hlast (by
          rw [← hnlen]; exact hwprev)
        omega
    | cons b rest =>
      subst hseqc
      have hnlt : n < buf.length := drop_cons_lt buf n b rest hseq.symm
      have hrest : rest = buf.drop (n + 1) := (drop_cons_tail buf n b rest hseq.symm).symm
      have hbb : byteAt buf n = b := drop_cons_byteAt buf n b rest hseq.symm
      have hbpos : 0 < b := hnul b (by
        have : b ∈ buf.drop n := by rw [← hseq]; exact List.mem_cons_self b rest
        exact List.mem_of_mem_drop this)
      by_cases hx4 : baseClass b < 4
      · -- rolling
        have hred : katssGetFh ⟨k, b :: rest, 0, prevHash, true, false, 0⟩ hv 'r' =
            (true, frh prevHash (baseClass b) k,
              ⟨k, rest, 0, frh prevHash (baseClass b) k, true, false, 0⟩) := by
          simp only [katssGetFh]
          rw [if_neg (by simp), if_neg (by simp)]
          simp only [if_pos hx4]
        constructor
        · intro x h2 hstep
          rw [hred] at hstep
          injection hstep with h1 h23
          injection h23 with hxeq hh2
          cases hxeq
          cases hh2
          have hfrh : frh prevHash (baseClass b) k =
              (prevHash * 4 + baseClass b) % 4 ^ k := frh_eq _ _ _ hx4 hk16
          have hwinnew : ((buf.drop (n + 1 - k)).take k).map baseClass =
              digitsOf k (frh prevHash (baseClass b) k) := by
            rw [hfrh, digits_roll k prevHash (baseClass b) hx4 hk1,
              slice_shift buf n k hk1 hkn hnlt, List.map_append, List.map_drop, hwprev,
              List.map_cons, List.map_nil, hbb]
          refine ⟨⟨rfl, rfl, show (0 : ℕ) < k by omega, rfl, fun _ => rfl,
            n + 1, by omega, Nat.zero_le (n + 1), hrest, ?_, fun _ => ⟨by omega, ?_⟩⟩, ?_, ?_⟩
          · exact fun hop => absurd rfl hop
          · show ((buf.drop (n + 1 - k)).take k).map baseClass =
              digitsOf k (frh prevHash (baseClass b) k)
            exact hwinnew
          · show rest.length < (b :: rest).length
            simp
          · exact ⟨n + 1 - k, by
              unfold windowAt
              exact ⟨by omega, hwinnew⟩⟩
        · intro x h2 hstep
          rw [hred] at hstep
          injection hstep with hb _
          simp at hb
      · by_cases hx : baseClass b = 4
        · exact absurd hx (baseClass_ne_four b hbpos)
        · -- non-nucleotide byte: mid-stream base hash
          rcases hout : fbhRLoop k (b :: rest) 0 0 with ⟨oh, os, op, oe, oen⟩
          have hfacts := hloop 0 hseq hn (by omega) (by omega) (by norm_num)
            (by simp [digitsOf])
          rw [hout] at hfacts
          obtain ⟨m, hnm, hmlen, hos, hoen, hfalse, htrue⟩ := hfacts
          simp only at hos hoen hfalse htrue
          have h45 : 4 < baseClass b := by omega
          have hifz : (if (0 : ℕ) ≠ 0 then prevHash else 0) = 0 := by simp
          have hfbh : fbhR ⟨k, b :: rest, 0, prevHash, true, false, 0⟩ =
              (oh, ⟨k, os, op, prevHash, (if oe then false else true),
                (if oe then true else false), oen.getD 0⟩) := by
            simp only [fbhR, hifz, hout]
          cases oe with
          | false =>
            obtain ⟨hcons, hop0, hohlt, hkm2, hwin⟩ := hfalse rfl
            have hred : katssGetFh ⟨k, b :: rest, 0, prevHash, true, false, 0⟩ hv 'r' =
                (true, oh, ⟨k, os, op, oh, true, false, oen.getD 0⟩) := by
              simp only [katssGetFh]
              rw [if_neg (by simp), if_neg (by simp)]
              simp only [if_neg hx4, if_pos h45, hfbh]
              simp
            constructor
            · intro x h2 hstep
              rw [hred] at hstep
              injection hstep with h1 h23
              injection h23 with hxeq hh2
              cases hxeq
              cases hh2
              refine ⟨⟨rfl, by simp [hoen], show op < k by omega, rfl, fun _ => hop0,
                m, hmlen, show op ≤ m by omega, hos, ?_, ?_⟩, ?_, ?_⟩
              · exact fun hop => absurd hop0 hop
              · intro _
                exact ⟨hkm2, hwin⟩
              · show os.length < (b :: rest).length
                have hlc : (b :: rest).length = buf.length - n := by
                  rw [hseq]
                  simp [List.length_drop]
                rw [hos, hlc]
                simp only [List.length_drop]
                have := hcons hk1
                omega
              · exact ⟨m - k, by unfold windowAt; exact ⟨by omega, hwin⟩⟩
            · intro x h2 hstep
              rw [hred] at hstep
              injection hstep with hb _
              simp at hb
          | true =>
            obtain ⟨hmlen2, hos2, hople, hoplem, hopcl⟩ := htrue rfl
            have hred : katssGetFh ⟨k, b :: rest, 0, prevHash, true, false, 0⟩ hv 'r' =
                (false, oh, ⟨k, os, op, oh, false, true, oen.getD 0⟩) := by
              simp only [katssGetFh]
              rw [if_neg (by simp), if_neg (by simp)]
              simp only [if_neg hx4, if_pos h45, hfbh]
              simp
            constructor
            · intro x h2 hstep
              rw [hred] at hstep
              injection hstep with hb _
              simp at hb
            · intro x h2 hstep
              rw [hred] at hstep
              injection hstep with h1 h23
              injection h23 with hxeq hh2
              cases hxeq
              cases hh2
              refine ⟨rfl, by simp [hoen], fun hlast => ⟨rfl, ?_⟩⟩
              show op = 0
              rcases Nat.eq_zero_or_pos op with hz | hpos
              · exact hz
              · exact tail_digits_zero buf op oh (by omega)
                  hlast (by rw [← hmlen2]; exact (hopcl (by omega)).2)

/-- `katss_set_seq` on a hasher whose previous round ended cleanly
(`has_previous` off, empty window, zero `endno`) establishes the invariant
over the fresh buffer: `handle_endno` is a no-op and the read starts at the
head. -/
theorem setSeq_inv (buf : List ℕ) (k : ℕ) (hk1 : 1 ≤ k)
    (hbuf : buf ≠ []) (hnul : ∀ b ∈ buf, 0 < b)
    (h : KatssHasher) (hkm : h.kmer = k) (hhp : h.hasPrev = false)
    (hpos : h.pos = 0) (hen : h.endno = 0) :
    HasherInv buf k (katssSetSeq h buf) := by
  obtain ⟨kmer, seq, pos, prevHash, hasPrev, endOfSeq, endno⟩ := h
  simp only at hkm hhp hpos hen
  have hkk := hkm.symm
  subst hkk hhp hpos hen
  cases buf with
  | nil => exact absurd rfl hbuf
  | cons hd tl =>
    have hhd : (0 : ℕ) < hd := hnul hd (List.mem_cons_self hd tl)
    have hhd0 : hd ≠ 0 := by omega
    have hred : katssSetSeq ⟨k, seq, 0, prevHash, false, endOfSeq, 0⟩ (hd :: tl) =
        ⟨k, hd :: tl, 0, prevHash, false, false, 0⟩ := by
      simp [katssSetSeq, handleEndno, hhd0]
    rw [hred]
    refine ⟨rfl, rfl, hk1, rfl, fun _ => rfl, 0, Nat.zero_le _, Nat.le_refl 0,
      (List.drop_zero _).symm, ?_, ?_⟩
    · exact fun hop => absurd rfl hop
    · intro habs
      simp at habs

/-- Soundness of the drain loop `while(katss_get_fh) katss_increment` in raw
mode: with enough fuel, every emitted hash is a complete window of the
buffer, and the loop ends on a false return whose state has the kmer, a zero
`endno`, and (on a newline-terminated buffer) no pending window or previous
hash. -/
theorem drain_sound (buf : List ℕ) (k : ℕ) (hk1 : 1 ≤ k) (hk16 : k ≤ 16)
    (hnul : ∀ b ∈ buf, 0 < b) :
    ∀ (fuel : ℕ) (h : KatssHasher) (hv : ℕ), HasherInv buf k h →
      h.seq.length < fuel →
      (∀ x ∈ (drainLoop 'r' fuel h hv).1, ∃ i, windowAt buf i k x) ∧
      (drainLoop 'r' fuel h hv).2.1.kmer = k ∧
      (drainLoop 'r' fuel h hv).2.1.endno = 0 ∧
      (buf.getLast? = some 10 →
        (drainLoop 'r' fuel h hv).2.1.hasPrev = false ∧
        (drainLoop 'r' fuel h hv).2.1.pos = 0) := by
  intro fuel
  induction fuel with
  | zero =>
    intro h hv _ hlt
    omega
  | succ f ih =>
    intro h hv hInv hlt
    obtain ⟨hstep_t, hstep_f⟩ := getFh_step buf k hk1 hk16 hnul h hv hInv
    rcases hgf : katssGetFh h hv 'r' with ⟨flag, hv2, h2⟩
    cases flag with
    | true =>
      obtain ⟨hInv2, hdec, i, hwin⟩ := hstep_t hv2 h2 hgf
      have hrec := ih h2 hv2 hInv2 (by omega)
      rcases hdl : drainLoop 'r' f h2 hv2 with ⟨em, h3, hv3⟩
      rw [hdl] at hrec
      simp only [drainLoop, hgf, hdl]
      refine ⟨?_, hrec.2.1, hrec.2.2.1, hrec.2.2.2⟩
      intro x hx
      simp only [List.mem_cons] at hx
      rcases hx with rfl | hx
      · exact ⟨i, hwin⟩
      · exact hrec.1 x hx
    | false =>
      obtain ⟨hkm2, hen2, hclean⟩ := hstep_f hv2 h2 hgf
      simp only [drainLoop, hgf]
      exact ⟨by simp, hkm2, hen2, hclean⟩

/-! ## Counter bookkeeping lemmas -/

theorem increment_fields (c : KatssCounter) (x : ℕ) :
    (katssIncrement c x).kmer = c.kmer ∧ (katssIncrement c x).capacity = c.capacity ∧
    (katssIncrement c x).removed = c.removed := by
  obtain ⟨a, b, cs, t, r⟩ := c
  exact ⟨rfl, rfl, rfl⟩

theorem foldl_increment_fields (l : List ℕ) : ∀ c : KatssCounter,
    ((l.foldl katssIncrement c).kmer = c.kmer ∧
     (l.foldl katssIncrement c).capacity = c.capacity ∧
     (l.foldl katssIncrement c).removed = c.removed) := by
  induction l with
  | nil => intro c; exact ⟨rfl, rfl, rfl⟩
  | cons x xs ih =>
    intro c
    have h1 := increment_fields c x
    have h2 := ih (katssIncrement c x)
    simp only [List.foldl_cons]
    exact ⟨h2.1.trans h1.1, h2.2.1.trans h1.2.1, h2.2.2.trans h1.2.2⟩

theorem countAt_increment_ne (c : KatssCounter) (x κ : ℕ) (hne : x ≠ κ) :
    countAt (katssIncrement c x) κ = countAt c κ := by
  obtain ⟨a, b, cs, t, r⟩ := c
  simp only [katssIncrement, countAt]
  rw [List.getD_eq_getElem?_getD, List.getElem?_set_ne hne,
    List.getD_eq_getElem?_getD]

theorem countAt_foldl_increment (l : List ℕ) : ∀ (c : KatssCounter) (κ : ℕ), κ ∉ l →
    countAt (l.foldl katssIncrement c) κ = countAt c κ := by
  induction l with
  | nil => intro c κ _; rfl
  | cons x xs ih =>
    intro c κ hκ
    simp only [List.mem_cons, not_or] at hκ
    simp only [List.foldl_cons]
    rw [ih (katssIncrement c x) κ hκ.2, countAt_increment_ne c x κ (fun h => hκ.1 h.symm)]

/-- A generic fold invariant. -/
theorem foldl_inv {α β : Type} (f : β → α → β) (Q : β → Prop) :
    ∀ (l : List α) (st : β), Q st → (∀ st2 a, a ∈ l → Q st2 → Q (f st2 a)) →
      Q (l.foldl f st) := by
  intro l
  induction l with
  | nil => intro st hst _; exact hst
  | cons x xs ih =>
    intro st hst hstep
    exact ih (f st x) (hstep st x (List.mem_cons_self x xs) hst)
      (fun st2 a ha => hstep st2 a (List.mem_cons_of_mem x ha))

open scoped Classical in
/-- A non-sentinel result of `katss_top_enrichment` names a key below the
control capacity whose test cell (and control cell) is nonzero: the fold only
moves to candidates passing the zero-skip, and a `-DBL_MAX` comparison result
returns the sentinel. -/
theorem topEnrichment_nonsentinel (test ctrl : KatssCounter) (normalize : Bool)
    (hne : (katssTopEnrichment test ctrl normalize).enrichment ≠ .fin (-dblMax)) :
    (katssTopEnrichment test ctrl normalize).key < ctrl.capacity ∧
    countAt test (katssTopEnrichment test ctrl normalize).key ≠ 0 := by
  by_cases h0 : ctrl.total = 0 ∨ test.total = 0
  · exact absurd (by simp [katssTopEnrichment, h0]) hne
  · have hQ := foldl_inv (topStep test ctrl normalize)
      (fun st => st = (0, .fin (-dblMax)) ∨
        (st.1 < ctrl.capacity ∧ countAt test st.1 ≠ 0))
      (List.range ctrl.capacity) (0, .fin (-dblMax)) (Or.inl rfl) ?step
    case step =>
      intro st2 i hi hst2
      simp only [List.mem_range] at hi
      unfold topStep
      by_cases hskip : countAt test i = 0 ∨ countAt ctrl i = 0
      · simp only [if_pos hskip]
        exact hst2
      · simp only [if_neg hskip]
        by_cases hl : dlt st2.2
            (if normalize
             then dlog2 (enrValue (countAt test i) test.total (countAt ctrl i) ctrl.total)
             else enrValue (countAt test i) test.total (countAt ctrl i) ctrl.total)
        · simp only [if_pos hl]
          right
          refine ⟨hi, ?_⟩
          intro hz
          exact hskip (Or.inl hz)
        · simp only [if_neg hl]
          exact hst2
    rcases hst : (List.range ctrl.capacity).foldl (topStep test ctrl normalize)
      (0, .fin (-dblMax)) with ⟨bk, bv⟩
    rw [hst] at hQ
    by_cases hdq : deq bv (.fin (-dblMax))
    · exact absurd (by simp [katssTopEnrichment, h0, hst, hdq]) hne
    · have hres : katssTopEnrichment test ctrl normalize = ⟨bk, bv⟩ := by
        simp [katssTopEnrichment, h0, hst, hdq]
      rw [hres]
      rcases hQ with hQ | hQ
      · have hbv : bv = .fin (-dblMax) := congrArg Prod.snd hQ
        rw [hbv] at hdq
        exact absurd rfl hdq
      · exact hQ

/-! ## Sequence search correctness (seqseq.c) for the short-needle scans -/

theorem byteAt_drop (s : List ℕ) (j i : ℕ) :
    byteAt (s.drop j) i = byteAt s (j + i) := by
  unfold byteAt
  rw [List.getD_eq_getElem?_getD, List.getD_eq_getElem?_getD, List.getElem?_drop]

theorem byteAt_mem (s : List ℕ) (i : ℕ) (hi : i < s.length) : byteAt s i ∈ s := by
  unfold byteAt
  rw [List.getD_eq_getElem _ _ hi]
  exact List.getElem_mem _

theorem occursAt_drop (hay ne : List ℕ) (j p : ℕ) (hj : j ≤ hay.length) :
    occursAt (hay.drop j) ne p ↔ occursAt hay ne (j + p) := by
  unfold occursAt
  rw [List.length_drop]
  constructor
  · rintro ⟨hl, hm⟩
    refine ⟨by omega, ?_⟩
    intro q hq
    rw [show j + p + q = j + (p + q) from by omega, ← byteAt_drop]
    exact hm q hq
  · rintro ⟨hl, hm⟩
    refine ⟨by omega, ?_⟩
    intro q hq
    rw [byteAt_drop, show j + (p + q) = j + p + q from by omega]
    exact hm q hq

theorem intToU32_ofNat (n : ℕ) (h : n < 2 ^ 32) : intToU32 (n : ℤ) = n := by
  unfold intToU32
  omega

theorem or_eq_add_pow (i a b : ℕ) (hb : b < 2 ^ i) : a * 2 ^ i ||| b = a * 2 ^ i + b := by
  rw [mul_comm a (2 ^ i), ← Nat.mul_add_lt_is_or hb]

/-- The cleaned value of an ACGT byte as a natural number is the byte. -/
theorem cleanNt_toNat_acgt (t : ℕ) (ht : isACGT t) : (cleanNt t).toNat = t := by
  rw [cleanNt_acgt t ht]
  omega

/-- `seqchr` soundness and completeness: a returned index is the leftmost
cleaned match of the target, `none` means no byte matches. -/
theorem seqchrIdx_spec (nt : ℕ) : ∀ s : List ℕ,
    (∀ i, seqchrIdx s nt = some i →
      i < s.length ∧ cleanNt (byteAt s i) = cleanNt nt ∧
      ∀ p < i, cleanNt (byteAt s p) ≠ cleanNt nt) ∧
    (seqchrIdx s nt = none → ∀ p < s.length, cleanNt (byteAt s p) ≠ cleanNt nt) := by
  intro s
  induction s with
  | nil =>
    constructor
    · intro i h
      simp [seqchrIdx] at h
    · intro _ p hp
      simp at hp
  | cons b rest ih =>
    constructor
    · intro i h
      simp only [seqchrIdx, List.findIdx?_cons, List.findIdx?_succ] at h
      by_cases hb : cleanNt b = cleanNt nt
      · rw [if_pos (by simp [hb])] at h
        injection h with h
        subst h
        exact ⟨by simp, hb, fun p hp => absurd hp (by omega)⟩
      · rw [if_neg (by simp [hb])] at h
        simp only [Nat.zero_add, Option.map_eq_some'] at h
        obtain ⟨j, hj, rfl⟩ := h
        obtain ⟨hj1, hj2, hj3⟩ := (ih.1) j hj
        refine ⟨by simp; omega, hj2, ?_⟩
        intro p hp
        cases p with
        | zero => exact hb
        | succ q => exact hj3 q (by omega)
    · intro h p hp
      simp only [seqchrIdx, List.findIdx?_cons, List.findIdx?_succ] at h
      by_cases hb : cleanNt b = cleanNt nt
      · rw [if_pos (by simp [hb])] at h
        exact Option.noConfusion h
      · rw [if_neg (by simp [hb])] at h
        simp only [Nat.zero_add, Option.map_eq_none'] at h
        cases p with
        | zero => exact hb
        | succ q =>
          simp only [List.length_cons] at hp
          exact (ih.2) h q (by omega)

theorem acgt_bounds (t : ℕ) (ht : isACGT t) : 65 ≤ t ∧ t ≤ 84 := by
  rcases ht with rfl | rfl | rfl | rfl <;> omega

/-- Occurrences of a two-byte ACGT needle, in cleaned-value form. -/
theorem occurs_pair_iff (s : List ℕ) (hA : asciiBytes s) (n0 n1 : ℕ)
    (hn0 : isACGT n0) (hn1 : isACGT n1) (p : ℕ) :
    occursAt s [n0, n1] p ↔
      p + 2 ≤ s.length ∧ (cleanNt (byteAt s p)).toNat = n0 ∧
        (cleanNt (byteAt s (p + 1))).toNat = n1 := by
  unfold occursAt
  simp only [List.length_cons, List.length_nil]
  constructor
  · rintro ⟨hl, hm⟩
    have h0 := hm 0 (by omega)
    have h1 := hm 1 (by omega)
    have hb0 : byteAt s (p + 0) ∈ s := byteAt_mem s _ (by omega)
    have hb1 : byteAt s (p + 1) ∈ s := byteAt_mem s _ (by omega)
    rw [show byteAt [n0, n1] 0 = n0 from rfl, cleanNt_acgt n0 hn0] at h0
    rw [show byteAt [n0, n1] 1 = n1 from rfl, cleanNt_acgt n1 hn1] at h1
    rw [show p + 0 = p from rfl] at h0 hb0
    exact ⟨hl, by omega, by omega⟩
  · rintro ⟨hl, h0, h1⟩
    refine ⟨hl, ?_⟩
    intro j hj
    have hp0 : 0 < cleanNt (byteAt s p) :=
      cleanNt_pos _ (hA _ (byteAt_mem s _ (by omega))).1 (hA _ (byteAt_mem s _ (by omega))).2
    have hp1 : 0 < cleanNt (byteAt s (p + 1)) :=
      cleanNt_pos _ (hA _ (byteAt_mem s _ (by omega))).1 (hA _ (byteAt_mem s _ (by omega))).2
    interval_cases j
    · rw [show byteAt [n0, n1] 0 = n0 from rfl, cleanNt_acgt n0 hn0,
        show p + 0 = p from rfl]
      omega
    · rw [show byteAt [n0, n1] 1 = n1 from rfl, cleanNt_acgt n1 hn1]
      omega

/-- Soundness, leftmostness and completeness of the `seqseq2` lane scan. -/
theorem seqseq2Loop_spec (s : List ℕ) (hA : asciiBytes s) (n0 n1 : ℕ)
    (hn0 : isACGT n0) (hn1 : isACGT n1) :
    ∀ (t : List ℕ) (idx h2 : ℕ), t = s.drop idx → idx ≤ s.length →
      ((idx = 0 ∧ h2 = 0) ∨ (idx = 1 ∧ h2 = (cleanNt (byteAt s 0)).toNat) ∨
       (2 ≤ idx ∧ h2 = (cleanNt (byteAt s (idx - 2))).toNat * 2 ^ 16 +
          (cleanNt (byteAt s (idx - 1))).toNat)) →
      (∀ r, seqseq2Loop (intToU32 (cleanNt n0) * 2 ^ 16 ||| intToU32 (cleanNt n1))
          t idx h2 = some r →
        occursAt s [n0, n1] r ∧ ∀ p, idx ≤ p + 2 → p < r → ¬ occursAt s [n0, n1] p) ∧
      (seqseq2Loop (intToU32 (cleanNt n0) * 2 ^ 16 ||| intToU32 (cleanNt n1))
          t idx h2 = none →
        ∀ p, idx ≤ p + 2 → ¬ occursAt s [n0, n1] p) := by
  have hv0 := acgt_bounds n0 hn0
  have hv1 := acgt_bounds n1 hn1
  have hH : intToU32 (cleanNt n0) * 2 ^ 16 ||| intToU32 (cleanNt n1) =
      n0 * 2 ^ 16 + n1 := by
    rw [cleanNt_acgt n0 hn0, cleanNt_acgt n1 hn1, intToU32_ofNat _ (by omega),
      intToU32_ofNat _ (by omega), or_eq_add_pow 16 n0 n1 (by omega)]
  have hcb : ∀ p < s.length, (cleanNt (byteAt s p)).toNat < 128 := by
    intro p hp
    exact cleanNt_toNat_lt _ (hA _ (byteAt_mem s p hp)).2
  -- a current full pair state matching the needle hash is an occurrence, and
  -- conversely an occurrence ending exactly at `idx` forces the state hash
  have hkey : ∀ idx h2, 2 ≤ idx → idx ≤ s.length →
      h2 = (cleanNt (byteAt s (idx - 2))).toNat * 2 ^ 16 +
        (cleanNt (byteAt s (idx - 1))).toNat →
      (n0 * 2 ^ 16 + n1 = h2 ↔ occursAt s [n0, n1] (idx - 2)) := by
    intro idx h2 hi2 hil hh
    rw [occurs_pair_iff s hA n0 n1 hn0 hn1]
    have hc1 : (cleanNt (byteAt s (idx - 2))).toNat < 128 := hcb _ (by omega)
    have hc2 : (cleanNt (byteAt s (idx - 1))).toNat < 128 := hcb _ (by omega)
    rw [show idx - 2 + 1 = idx - 1 from by omega]
    constructor
    · intro he
      exact ⟨by omega, by omega, by omega⟩
    · rintro ⟨h1, h2', h3⟩
      omega
  intro t
  induction t with
  | nil =>
    intro idx h2 ht hidx hst
    rw [hH]
    have hlen : s.length ≤ idx := by
      have := congrArg List.length ht
      simp only [List.length_nil, List.length_drop] at this
      omega
    constructor
    · intro r hr
      rw [seqseq2Loop] at hr
      by_cases heq : n0 * 2 ^ 16 + n1 = h2
      · rw [if_pos heq] at hr
        injection hr with hr
        subst hr
        rcases hst with ⟨hi0, hh⟩ | ⟨hi1, hh⟩ | ⟨hi2, hh⟩
        · omega
        · have := hcb 0 (by omega)
          omega
        · exact ⟨(hkey idx h2 hi2 hidx hh).mp heq,
            fun p hp1 hp2 _ => by omega⟩
      · rw [if_neg heq] at hr
        exact Option.noConfusion hr
    · intro hr p hp hocc
      rw [seqseq2Loop] at hr
      by_cases heq : n0 * 2 ^ 16 + n1 = h2
      · rw [if_pos heq] at hr
        exact Option.noConfusion hr
      · have hple := (occurs_pair_iff s hA n0 n1 hn0 hn1 p).mp hocc
        have hpidx : p + 2 = idx := by omega
        rcases hst with ⟨hi0, hh⟩ | ⟨hi1, hh⟩ | ⟨hi2, hh⟩
        · omega
        · omega
        · apply heq
          rw [hkey idx h2 hi2 hidx hh, show idx - 2 = p from by omega]
          exact hocc
  | cons b rest ih =>
    intro idx h2 ht hidx hst
    have hlt : idx < s.length := drop_cons_lt s idx b rest ht.symm
    have hrest : rest = s.drop (idx + 1) := (drop_cons_tail s idx b rest ht.symm).symm
    have hbb : byteAt s idx = b := drop_cons_byteAt s idx b rest ht.symm
    have hbmem : b ∈ s := by rw [← hbb]; exact byteAt_mem s idx hlt
    have hcbv : intToU32 (cleanNt b) = (cleanNt b).toNat :=
      intToU32_cleanNt b (hA b hbmem).2
    have hcbl : (cleanNt b).toNat < 128 := cleanNt_toNat_lt b (hA b hbmem).2
    -- the pushed state
    have hst2 : (1 ≤ idx ∧ ((h2 * 2 ^ 16) % 2 ^ 32 ||| intToU32 (cleanNt b)) =
        (cleanNt (byteAt s (idx + 1 - 2))).toNat * 2 ^ 16 +
          (cleanNt (byteAt s (idx + 1 - 1))).toNat) ∨
        (idx = 0 ∧ ((h2 * 2 ^ 16) % 2 ^ 32 ||| intToU32 (cleanNt b)) =
          (cleanNt (byteAt s 0)).toNat) := by
      rcases hst with ⟨hi0, hh⟩ | ⟨hi1, hh⟩ | ⟨hi2, hh⟩
      · right
        subst hi0 hh
        refine ⟨rfl, ?_⟩
        rw [hcbv, hbb.symm]
        simp
      · left
        refine ⟨by omega, ?_⟩
        subst hi1 hh
        rw [hcbv]
        have hm : ((cleanNt (byteAt s 0)).toNat * 2 ^ 16) % 2 ^ 32 =
            (cleanNt (byteAt s 0)).toNat * 2 ^ 16 := by
          have := hcb 0 (by omega)
          apply Nat.mod_eq_of_lt
          omega
        rw [hm, or_eq_add_pow 16 _ _ (by omega), show (1:ℕ) + 1 - 2 = 0 from rfl,
          show (1:ℕ) + 1 - 1 = 1 from rfl, hbb.symm]
      · refine Or.inl ⟨by omega, ?_⟩
        rw [hcbv, hh]
        have hc1 : (cleanNt (byteAt s (idx - 2))).toNat < 128 := hcb _ (by omega)
        have hc2 : (cleanNt (byteAt s (idx - 1))).toNat < 128 := hcb _ (by omega)
        have hexp : ((cleanNt (byteAt s (idx - 2))).toNat * 2 ^ 16 +
            (cleanNt (byteAt s (idx - 1))).toNat) * 2 ^ 16 =
            (cleanNt (byteAt s (idx - 2))).toNat * 2 ^ 32 +
            (cleanNt (byteAt s (idx - 1))).toNat * 2 ^ 16 := by ring
        rw [hexp]
        have hmod : ((cleanNt (byteAt s (idx - 2))).toNat * 2 ^ 32 +
            (cleanNt (byteAt s (idx - 1))).toNat * 2 ^ 16) % 2 ^ 32 =
            (cleanNt (byteAt s (idx - 1))).toNat * 2 ^ 16 := by
          omega
        rw [hmod, or_eq_add_pow 16 _ _ (by omega),
          show idx + 1 - 2 = idx - 1 from by omega, hbb.symm,
          show idx + 1 - 1 = idx from rfl]
    have hreck := ih (idx + 1) ((h2 * 2 ^ 16) % 2 ^ 32 ||| intToU32 (cleanNt b))
      hrest (by omega) (by
        rcases hst2 with ⟨hi1, h⟩ | ⟨hi0, h⟩
        · right; right
          exact ⟨by omega, h⟩
        · right; left
          exact ⟨by omega, h⟩)
    rw [hH] at hreck ⊢
    constructor
    · intro r hr
      rw [seqseq2Loop] at hr
      by_cases heq : n0 * 2 ^ 16 + n1 = h2
      · rw [if_pos heq] at hr
        injection hr with hr
        subst hr
        rcases hst with ⟨hi0, hh⟩ | ⟨hi1, hh⟩ | ⟨hi2, hh⟩
        · omega
        · have := hcb 0 (by omega)
          omega
        · exact ⟨(hkey idx h2 hi2 (by omega) hh).mp heq,
            fun p hp1 hp2 _ => by omega⟩
      · rw [if_neg heq] at hr
        obtain ⟨hoccr, hleftr⟩ := hreck.1 r hr
        refine ⟨hoccr, ?_⟩
        intro p hp1 hp2 hocc
        by_cases hp3 : idx + 1 ≤ p + 2
        · exact hleftr p hp3 hp2 hocc
        · have hpidx : p + 2 = idx := by omega
          rcases hst with ⟨hi0, hh⟩ | ⟨hi1, hh⟩ | ⟨hi2, hh⟩
          · omega
          · omega
          · apply heq
            rw [hkey idx h2 hi2 (by omega) hh, show idx - 2 = p from by omega]
            exact hocc
    · intro hr p hp hocc
      rw [seqseq2Loop] at hr
      by_cases heq : n0 * 2 ^ 16 + n1 = h2
      · rw [if_pos heq] at hr
        exact Option.noConfusion hr
      · rw [if_neg heq] at hr
        by_cases hp3 : idx + 1 ≤ p + 2
        · exact hreck.2 hr p hp3 hocc
        · have hpidx : p + 2 = idx := by omega
          rcases hst with ⟨hi0, hh⟩ | ⟨hi1, hh⟩ | ⟨hi2, hh⟩
          · omega
          · omega
          · apply heq
            rw [hkey idx h2 hi2 (by omega) hh, show idx - 2 = p from by omega]
            exact hocc

/-- Occurrences of a three-byte ACGT needle, in cleaned-value form. -/
theorem occurs_triple_iff (s : List ℕ) (hA : asciiBytes s) (n0 n1 n2 : ℕ)
    (hn0 : isACGT n0) (hn1 : isACGT n1) (hn2 : isACGT n2) (p : ℕ) :
    occursAt s [n0, n1, n2] p ↔
      p + 3 ≤ s.length ∧ (cleanNt (byteAt s p)).toNat = n0 ∧
        (cleanNt (byteAt s (p + 1))).toNat = n1 ∧
        (cleanNt (byteAt s (p + 2))).toNat = n2 := by
  unfold occursAt
  simp only [List.length_cons, List.length_nil]
  constructor
  · rintro ⟨hl, hm⟩
    have h0 := hm 0 (by omega)
    have h1 := hm 1 (by omega)
    have h2 := hm 2 (by omega)
    have hb0 : byteAt s (p + 0) ∈ s := byteAt_mem s _ (by omega)
    have hb1 : byteAt s (p + 1) ∈ s := byteAt_mem s _ (by omega)
    have hb2 : byteAt s (p + 2) ∈ s := byteAt_mem s _ (by omega)
    rw [show byteAt [n0, n1, n2] 0 = n0 from rfl, cleanNt_acgt n0 hn0] at h0
    rw [show byteAt [n0, n1, n2] 1 = n1 from rfl, cleanNt_acgt n1 hn1] at h1
    rw [show byteAt [n0, n1, n2] 2 = n2 from rfl, cleanNt_acgt n2 hn2] at h2
    rw [show p + 0 = p from rfl] at h0 hb0
    exact ⟨hl, by omega, by omega, by omega⟩
  · rintro ⟨hl, h0, h1, h2⟩
    refine ⟨hl, ?_⟩
    intro j hj
    have hp0 : 0 < cleanNt (byteAt s p) :=
      cleanNt_pos _ (hA _ (byteAt_mem s _ (by omega))).1 (hA _ (byteAt_mem s _ (by omega))).2
    have hp1 : 0 < cleanNt (byteAt s (p + 1)) :=
      cleanNt_pos _ (hA _ (byteAt_mem s _ (by omega))).1 (hA _ (byteAt_mem s _ (by omega))).2
    have hp2 : 0 < cleanNt (byteAt s (p + 2)) :=
      cleanNt_pos _ (hA _ (byteAt_mem s _ (by omega))).1 (hA _ (byteAt_mem s _ (by omega))).2
    interval_cases j
    · rw [show byteAt [n0, n1, n2] 0 = n0 from rfl, cleanNt_acgt n0 hn0,
        show p + 0 = p from rfl]
      omega
    · rw [show byteAt [n0, n1, n2] 1 = n1 from rfl, cleanNt_acgt n1 hn1]
      omega
    · rw [show byteAt [n0, n1, n2] 2 = n2 from rfl, cleanNt_acgt n2 hn2]
      omega

/-- Soundness, leftmostness and completeness of the `seqseq3` lane scan. -/
theorem seqseq3Loop_spec (s : List ℕ) (hA : asciiBytes s) (n0 n1 n2 : ℕ)
    (hn0 : isACGT n0) (hn1 : isACGT n1) (hn2 : isACGT n2) :
    ∀ (t : List ℕ) (idx h2 : ℕ), t = s.drop idx → idx ≤ s.length →
      ((idx = 0 ∧ h2 = 0) ∨
       (idx = 1 ∧ h2 = (cleanNt (byteAt s 0)).toNat * 2 ^ 8) ∨
       (idx = 2 ∧ h2 = (cleanNt (byteAt s 0)).toNat * 2 ^ 16 +
          (cleanNt (byteAt s 1)).toNat * 2 ^ 8) ∨
       (3 ≤ idx ∧ h2 = (cleanNt (byteAt s (idx - 3))).toNat * 2 ^ 24 +
          (cleanNt (byteAt s (idx - 2))).toNat * 2 ^ 16 +
          (cleanNt (byteAt s (idx - 1))).toNat * 2 ^ 8)) →
      (∀ r, seqseq3Loop (intToU32 (cleanNt n0) * 2 ^ 24 ||| intToU32 (cleanNt n1) * 2 ^ 16 |||
          intToU32 (cleanNt n2) * 2 ^ 8) t idx h2 = some r →
        occursAt s [n0, n1, n2] r ∧ ∀ p, idx ≤ p + 3 → p < r → ¬ occursAt s [n0, n1, n2] p) ∧
      (seqseq3Loop (intToU32 (cleanNt n0) * 2 ^ 24 ||| intToU32 (cleanNt n1) * 2 ^ 16 |||
          intToU32 (cleanNt n2) * 2 ^ 8) t idx h2 = none →
        ∀ p, idx ≤ p + 3 → ¬ occursAt s [n0, n1, n2] p) := by
  have hv0 := acgt_bounds n0 hn0
  have hv1 := acgt_bounds n1 hn1
  have hv2 := acgt_bounds n2 hn2
  have hH : intToU32 (cleanNt n0) * 2 ^ 24 ||| intToU32 (cleanNt n1) * 2 ^ 16 |||
      intToU32 (cleanNt n2) * 2 ^ 8 =
      n0 * 2 ^ 24 + n1 * 2 ^ 16 + n2 * 2 ^ 8 := by
    rw [cleanNt_acgt n0 hn0, cleanNt_acgt n1 hn1, cleanNt_acgt n2 hn2,
      intToU32_ofNat _ (by omega), intToU32_ofNat _ (by omega),
      intToU32_ofNat _ (by omega), or_eq_add_pow 24 n0 (n1 * 2 ^ 16) (by omega),
      show n0 * 2 ^ 24 + n1 * 2 ^ 16 = (n0 * 2 ^ 8 + n1) * 2 ^ 16 from by ring,
      or_eq_add_pow 16 _ (n2 * 2 ^ 8) (by omega)]
  have hcb : ∀ p < s.length, (cleanNt (byteAt s p)).toNat < 128 := by
    intro p hp
    exact cleanNt_toNat_lt _ (hA _ (byteAt_mem s p hp)).2
  have hkey : ∀ idx h2, 3 ≤ idx → idx ≤ s.length →
      h2 = (cleanNt (byteAt s (idx - 3))).toNat * 2 ^ 24 +
        (cleanNt (byteAt s (idx - 2))).toNat * 2 ^ 16 +
        (cleanNt (byteAt s (idx - 1))).toNat * 2 ^ 8 →
      (n0 * 2 ^ 24 + n1 * 2 ^ 16 + n2 * 2 ^ 8 = h2 ↔
        occursAt s [n0, n1, n2] (idx - 3)) := by
    intro idx h2 hi3 hil hh
    rw [occurs_triple_iff s hA n0 n1 n2 hn0 hn1 hn2]
    have hc1 : (cleanNt (byteAt s (idx - 3))).toNat < 128 := hcb _ (by omega)
    have hc2 : (cleanNt (byteAt s (idx - 2))).toNat < 128 := hcb _ (by omega)
    have hc3 : (cleanNt (byteAt s (idx - 1))).toNat < 128 := hcb _ (by omega)
    rw [show idx - 3 + 1 = idx - 2 from by omega, show idx - 3 + 2 = idx - 1 from by omega]
    constructor
    · intro he
      exact ⟨by omega, by omega, by omega, by omega⟩
    · rintro ⟨h1, ha, hb, hc⟩
      omega
  intro t
  induction t with
  | nil =>
    intro idx h2 ht hidx hst
    rw [hH]
    have hlen : s.length ≤ idx := by
      have := congrArg List.length ht
      simp only [List.length_nil, List.length_drop] at this
      omega
    constructor
    · intro r hr
      rw [seqseq3Loop] at hr
      by_cases heq : n0 * 2 ^ 24 + n1 * 2 ^ 16 + n2 * 2 ^ 8 = h2
      · rw [if_pos heq] at hr
        injection hr with hr
        subst hr
        rcases hst with ⟨hi0, hh⟩ | ⟨hi1, hh⟩ | ⟨hi2, hh⟩ | ⟨hi3, hh⟩
        · omega
        · have := hcb 0 (by omega)
          omega
        · have := hcb 0 (by omega)
          have := hcb 1 (by omega)
          omega
        · exact ⟨(hkey idx h2 hi3 hidx hh).mp heq,
            fun p hp1 hp2 _ => by omega⟩
      · rw [if_neg heq] at hr
        exact Option.noConfusion hr
    · intro hr p hp hocc
      rw [seqseq3Loop] at hr
      by_cases heq : n0 * 2 ^ 24 + n1 * 2 ^ 16 + n2 * 2 ^ 8 = h2
      · rw [if_pos heq] at hr
        exact Option.noConfusion hr
      · have hple := (occurs_triple_iff s hA n0 n1 n2 hn0 hn1 hn2 p).mp hocc
        have hpidx : p + 3 = idx := by omega
        rcases hst with ⟨hi0, hh⟩ | ⟨hi1, hh⟩ | ⟨hi2, hh⟩ | ⟨hi3, hh⟩
        · omega
        · omega
        · omega
        · apply heq
          rw [hkey idx h2 hi3 hidx hh, show idx - 3 = p from by omega]
          exact hocc
  | cons b rest ih =>
    intro idx h2 ht hidx hst
    have hlt : idx < s.length := drop_cons_lt s idx b rest ht.symm
    have hrest : rest = s.drop (idx + 1) := (drop_cons_tail s idx b rest ht.symm).symm
    have hbb : byteAt s idx = b := drop_cons_byteAt s idx b rest ht.symm
    have hbmem : b ∈ s := by rw [← hbb]; exact byteAt_mem s idx hlt
    have hcbv : intToU32 (cleanNt b) = (cleanNt b).toNat :=
      intToU32_cleanNt b (hA b hbmem).2
    have hcbl : (cleanNt b).toNat < 128 := cleanNt_toNat_lt b (hA b hbmem).2
    have hst2 : (2 ≤ idx ∧ ((h2 ||| intToU32 (cleanNt b)) * 2 ^ 8) % 2 ^ 32 =
        (cleanNt (byteAt s (idx + 1 - 3))).toNat * 2 ^ 24 +
        (cleanNt (byteAt s (idx + 1 - 2))).toNat * 2 ^ 16 +
        (cleanNt (byteAt s (idx + 1 - 1))).toNat * 2 ^ 8) ∨
        (idx = 0 ∧ ((h2 ||| intToU32 (cleanNt b)) * 2 ^ 8) % 2 ^ 32 =
          (cleanNt (byteAt s 0)).toNat * 2 ^ 8) ∨
        (idx = 1 ∧ ((h2 ||| intToU32 (cleanNt b)) * 2 ^ 8) % 2 ^ 32 =
          (cleanNt (byteAt s 0)).toNat * 2 ^ 16 +
          (cleanNt (byteAt s 1)).toNat * 2 ^ 8) := by
      rcases hst with ⟨hi0, hh⟩ | ⟨hi1, hh⟩ | ⟨hi2, hh⟩ | ⟨hi3, hh⟩
      · right; left
        subst hi0 hh
        refine ⟨rfl, ?_⟩
        rw [hcbv, hbb.symm]
        simp only [Nat.zero_or]
        apply Nat.mod_eq_of_lt
        have := hcb 0 (by omega)
        omega
      · right; right
        refine ⟨hi1, ?_⟩
        subst hi1 hh
        rw [hcbv, or_eq_add_pow 8 _ _ (by omega)]
        have h0 := hcb 0 (by omega)
        rw [show ((cleanNt (byteAt s 0)).toNat * 2 ^ 8 + (cleanNt b).toNat) * 2 ^ 8 =
          (cleanNt (byteAt s 0)).toNat * 2 ^ 16 + (cleanNt b).toNat * 2 ^ 8 from by ring,
          hbb.symm, show (1:ℕ) = 1 from rfl]
        apply Nat.mod_eq_of_lt
        have := hcb 1 (by omega)
        omega
      · refine Or.inl ⟨by omega, ?_⟩
        subst hi2 hh
        have h0 := hcb 0 (by omega)
        have h1 := hcb 1 (by omega)
        rw [hcbv,
          show (cleanNt (byteAt s 0)).toNat * 2 ^ 16 + (cleanNt (byteAt s 1)).toNat * 2 ^ 8 =
            ((cleanNt (byteAt s 0)).toNat * 2 ^ 8 + (cleanNt (byteAt s 1)).toNat) * 2 ^ 8
            from by ring,
          or_eq_add_pow 8 _ _ (by omega)]
        rw [show (((cleanNt (byteAt s 0)).toNat * 2 ^ 8 + (cleanNt (byteAt s 1)).toNat) * 2 ^ 8 +
            (cleanNt b).toNat) * 2 ^ 8 =
          (cleanNt (byteAt s 0)).toNat * 2 ^ 24 + (cleanNt (byteAt s 1)).toNat * 2 ^ 16 +
            (cleanNt b).toNat * 2 ^ 8 from by ring, hbb.symm]
        apply Nat.mod_eq_of_lt
        have hb2 := hcb 2 (by omega)
        omega
      · refine Or.inl ⟨by omega, ?_⟩
        have ha := hcb (idx - 3) (by omega)
        have hb2 := hcb (idx - 2) (by omega)
        have hc2 := hcb (idx - 1) (by omega)
        rw [hcbv, hh,
          show (cleanNt (byteAt s (idx - 3))).toNat * 2 ^ 24 +
            (cleanNt (byteAt s (idx - 2))).toNat * 2 ^ 16 +
            (cleanNt (byteAt s (idx - 1))).toNat * 2 ^ 8 =
            ((cleanNt (byteAt s (idx - 3))).toNat * 2 ^ 16 +
             (cleanNt (byteAt s (idx - 2))).toNat * 2 ^ 8 +
             (cleanNt (byteAt s (idx - 1))).toNat) * 2 ^ 8 from by ring,
          or_eq_add_pow 8 _ _ (by omega)]
        have hexp : (((cleanNt (byteAt s (idx - 3))).toNat * 2 ^ 16 +
            (cleanNt (byteAt s (idx - 2))).toNat * 2 ^ 8 +
            (cleanNt (byteAt s (idx - 1))).toNat) * 2 ^ 8 + (cleanNt b).toNat) * 2 ^ 8 =
            (cleanNt (byteAt s (idx - 3))).toNat * 2 ^ 32 +
            ((cleanNt (byteAt s (idx - 2))).toNat * 2 ^ 24 +
             (cleanNt (byteAt s (idx - 1))).toNat * 2 ^ 16 +
             (cleanNt b).toNat * 2 ^ 8) := by ring
        rw [hexp]
        have hmod : ((cleanNt (byteAt s (idx - 3))).toNat * 2 ^ 32 +
            ((cleanNt (byteAt s (idx - 2))).toNat * 2 ^ 24 +
             (cleanNt (byteAt s (idx - 1))).toNat * 2 ^ 16 +
             (cleanNt b).toNat * 2 ^ 8)) % 2 ^ 32 =
            (cleanNt (byteAt s (idx - 2))).toNat * 2 ^ 24 +
            (cleanNt (byteAt s (idx - 1))).toNat * 2 ^ 16 +
            (cleanNt b).toNat * 2 ^ 8 := by
          omega
        rw [hmod, show idx + 1 - 3 = idx - 2 from by omega,
          show idx + 1 - 2 = idx - 1 from by omega, hbb.symm,
          show idx + 1 - 1 = idx from rfl]
    have hreck := ih (idx + 1) (((h2 ||| intToU32 (cleanNt b)) * 2 ^ 8) % 2 ^ 32)
      hrest (by omega) (by
        rcases hst2 with ⟨hi2, h⟩ | ⟨hi0, h⟩ | ⟨hi1, h⟩
        · right; right; right
          exact ⟨by omega, h⟩
        · right; left
          exact ⟨by omega, h⟩
        · right; right; left
          exact ⟨by omega, h⟩)
    rw [hH] at hreck ⊢
    constructor
    · intro r hr
      rw [seqseq3Loop] at hr
      by_cases heq : n0 * 2 ^ 24 + n1 * 2 ^ 16 + n2 * 2 ^ 8 = h2
      · rw [if_pos heq] at hr
        injection hr with hr
        subst hr
        rcases hst with ⟨hi0, hh⟩ | ⟨hi1, hh⟩ | ⟨hi2, hh⟩ | ⟨hi3, hh⟩
        · omega
        · have := hcb 0 (by omega)
          omega
        · have := hcb 0 (by omega)
          have := hcb 1 (by omega)
          omega
        · exact ⟨(hkey idx h2 hi3 (by omega) hh).mp heq,
            fun p hp1 hp2 _ => by omega⟩
      · rw [if_neg heq] at hr
        obtain ⟨hoccr, hleftr⟩ := hreck.1 r hr
        refine ⟨hoccr, ?_⟩
        intro p hp1 hp2 hocc
        by_cases hp3 : idx + 1 ≤ p + 3
        · exact hleftr p hp3 hp2 hocc
        · have hpidx : p + 3 = idx := by omega
          rcases hst with ⟨hi0, hh⟩ | ⟨hi1, hh⟩ | ⟨hi2, hh⟩ | ⟨hi3, hh⟩
          · omega
          · omega
          · omega
          · apply heq
            rw [hkey idx h2 hi3 (by omega) hh, show idx - 3 = p from by omega]
            exact hocc
    · intro hr p hp hocc
      rw [seqseq3Loop] at hr
      by_cases heq : n0 * 2 ^ 24 + n1 * 2 ^ 16 + n2 * 2 ^ 8 = h2
      · rw [if_pos heq] at hr
        exact Option.noConfusion hr
      · rw [if_neg heq] at hr
        by_cases hp3 : idx + 1 ≤ p + 3
        · exact hreck.2 hr p hp3 hocc
        · have hpidx : p + 3 = idx := by omega
          rcases hst with ⟨hi0, hh⟩ | ⟨hi1, hh⟩ | ⟨hi2, hh⟩ | ⟨hi3, hh⟩
          · omega
          · omega
          · omega
          · apply heq
            rw [hkey idx h2 hi3 (by omega) hh, show idx - 3 = p from by omega]
            exact hocc

/-- `seqseq` on an ASCII haystack with a nonempty ACGT needle of at most
three bytes: a returned index is the leftmost occurrence, `none` means no
occurrence. -/
theorem seqseqIdx_spec (hay ne : List ℕ) (hA : asciiBytes hay)
    (hne : ne ≠ []) (hlen : ne.length ≤ 3) (hacgt : ∀ b ∈ ne, isACGT b) :
    (∀ r, seqseqIdx hay ne = some r →
      occursAt hay ne r ∧ ∀ p < r, ¬ occursAt hay ne p) ∧
    (seqseqIdx hay ne = none → ∀ p, ¬ occursAt hay ne p) := by
  rcases ne with _ | ⟨n0, _ | ⟨n1, _ | ⟨n2, _ | ⟨n3, netl⟩⟩⟩⟩
  · exact absurd rfl hne
  · -- single byte
    have hn0 : isACGT n0 := hacgt n0 (by simp)
    have hocc : ∀ p, occursAt hay [n0] p ↔
        p + 1 ≤ hay.length ∧ cleanNt (byteAt hay p) = cleanNt n0 := by
      intro p
      unfold occursAt
      simp only [List.length_cons, List.length_nil]
      constructor
      · rintro ⟨hl, hm⟩
        have := hm 0 (by omega)
        rw [show p + 0 = p from rfl] at this
        exact ⟨hl, this⟩
      · rintro ⟨hl, hm⟩
        refine ⟨hl, ?_⟩
        intro j hj
        interval_cases j
        rw [show p + 0 = p from rfl]
        exact hm
    rcases hsc : seqchrIdx hay n0 with _ | i
    · refine ⟨?_, ?_⟩
      · intro r hr
        simp only [seqseqIdx, hsc] at hr
        exact Option.noConfusion hr
      · intro _ p hp
        rw [hocc] at hp
        exact (seqchrIdx_spec n0 hay).2 hsc p (by omega) hp.2
    · obtain ⟨hilen, himatch, hileft⟩ := (seqchrIdx_spec n0 hay).1 i hsc
      refine ⟨?_, ?_⟩
      · intro r hr
        simp only [seqseqIdx, hsc, Option.some_inj] at hr
        subst hr
        constructor
        · rw [hocc]
          exact ⟨by omega, himatch⟩
        · intro p hp hoc
          rw [hocc] at hoc
          exact hileft p hp hoc.2
      · intro hr
        simp only [seqseqIdx, hsc] at hr
        exact absurd hr (by simp)
  · -- two bytes
    have hn0 : isACGT n0 := hacgt n0 (by simp)
    have hn1 : isACGT n1 := hacgt n1 (by simp)
    rcases hsc : seqchrIdx hay n0 with _ | i
    · refine ⟨?_, ?_⟩
      · intro r hr
        simp only [seqseqIdx, hsc] at hr
        exact Option.noConfusion hr
      · intro _ p hp
        obtain ⟨hl, hm⟩ := hp
        have := hm 0 (by simp)
        rw [show p + 0 = p from rfl, show byteAt [n0, n1] 0 = n0 from rfl] at this
        simp only [List.length_cons, List.length_nil] at hl
        exact (seqchrIdx_spec n0 hay).2 hsc p (by omega) this
    · obtain ⟨hilen, himatch, hileft⟩ := (seqchrIdx_spec n0 hay).1 i hsc
      have hsA : asciiBytes (hay.drop i) := fun b hb => hA b (List.mem_of_mem_drop hb)
      have hspec := seqseq2Loop_spec (hay.drop i) hsA n0 n1 hn0 hn1
        (hay.drop i) 0 0 (List.drop_zero _).symm (by omega) (Or.inl ⟨rfl, rfl⟩)
      refine ⟨?_, ?_⟩
      · intro r hr
        simp only [seqseqIdx, seqseq2Idx, Option.map_eq_some', hsc] at hr
        obtain ⟨r2, hr2, rfl⟩ := hr
        obtain ⟨hoccr, hleftr⟩ := hspec.1 r2 hr2
        constructor
        · exact (occursAt_drop hay [n0, n1] i r2 (by omega)).mp hoccr
        · intro p hp hoc
          by_cases hpi : p < i
          · obtain ⟨hl, hm⟩ := hoc
            have := hm 0 (by simp)
            rw [show p + 0 = p from rfl, show byteAt [n0, n1] 0 = n0 from rfl] at this
            simp only [List.length_cons, List.length_nil] at hl
            exact hileft p hpi this
          · obtain ⟨q, rfl⟩ : ∃ q, p = i + q := ⟨p - i, by omega⟩
            exact hleftr q (by omega) (by omega)
              ((occursAt_drop hay [n0, n1] i q (by omega)).mpr hoc)
      · intro hr p hoc
        simp only [seqseqIdx, seqseq2Idx, Option.map_eq_none', hsc] at hr
        by_cases hpi : p < i
        · obtain ⟨hl, hm⟩ := hoc
          have := hm 0 (by simp)
          rw [show p + 0 = p from rfl, show byteAt [n0, n1] 0 = n0 from rfl] at this
          simp only [List.length_cons, List.length_nil] at hl
          exact hileft p hpi this
        · obtain ⟨q, rfl⟩ : ∃ q, p = i + q := ⟨p - i, by omega⟩
          exact hspec.2 hr q (by omega)
            ((occursAt_drop hay [n0, n1] i q (by omega)).mpr hoc)
  · -- three bytes
    have hn0 : isACGT n0 := hacgt n0 (by simp)
    have hn1 : isACGT n1 := hacgt n1 (by simp)
    have hn2 : isACGT n2 := hacgt n2 (by simp)
    rcases hsc : seqchrIdx hay n0 with _ | i
    · refine ⟨?_, ?_⟩
      · intro r hr
        simp only [seqseqIdx, hsc] at hr
        exact Option.noConfusion hr
      · intro _ p hp
        obtain ⟨hl, hm⟩ := hp
        have := hm 0 (by simp)
        rw [show p + 0 = p from rfl, show byteAt [n0, n1, n2] 0 = n0 from rfl] at this
        simp only [List.length_cons, List.length_nil] at hl
        exact (seqchrIdx_spec n0 hay).2 hsc p (by omega) this
    · obtain ⟨hilen, himatch, hileft⟩ := (seqchrIdx_spec n0 hay).1 i hsc
      have hsA : asciiBytes (hay.drop i) := fun b hb => hA b (List.mem_of_mem_drop hb)
      have hspec := seqseq3Loop_spec (hay.drop i) hsA n0 n1 n2 hn0 hn1 hn2
        (hay.drop i) 0 0 (List.drop_zero _).symm (by omega) (Or.inl ⟨rfl, rfl⟩)
      refine ⟨?_, ?_⟩
      · intro r hr
        simp only [seqseqIdx, seqseq3Idx, Option.map_eq_some', hsc] at hr
        obtain ⟨r2, hr2, rfl⟩ := hr
        obtain ⟨hoccr, hleftr⟩ := hspec.1 r2 hr2
        constructor
        · exact (occursAt_drop hay [n0, n1, n2] i r2 (by omega)).mp hoccr
        · intro p hp hoc
          by_cases hpi : p < i
          · obtain ⟨hl, hm⟩ := hoc
            have := hm 0 (by simp)
            rw [show p + 0 = p from rfl, show byteAt [n0, n1, n2] 0 = n0 from rfl] at this
            simp only [List.length_cons, List.length_nil] at hl
            exact hileft p hpi this
          · obtain ⟨q, rfl⟩ : ∃ q, p = i + q := ⟨p - i, by omega⟩
            exact hleftr q (by omega) (by omega)
              ((occursAt_drop hay [n0, n1, n2] i q (by omega)).mpr hoc)
      · intro hr p hoc
        simp only [seqseqIdx, seqseq3Idx, Option.map_eq_none', hsc] at hr
        by_cases hpi : p < i
        · obtain ⟨hl, hm⟩ := hoc
          have := hm 0 (by simp)
          rw [show p + 0 = p from rfl, show byteAt [n0, n1, n2] 0 = n0 from rfl] at this
          simp only [List.length_cons, List.length_nil] at hl
          exact hileft p hpi this
        · obtain ⟨q, rfl⟩ : ∃ q, p = i + q := ⟨p - i, by omega⟩
          exact hspec.2 hr q (by omega)
            ((occursAt_drop hay [n0, n1, n2] i q (by omega)).mpr hoc)
  · simp at hlen

/-! ## Masking (cross_out) -/

theorem maskRange_length (b : List ℕ) (p len : ℕ) :
    (maskRange b p len).length = b.length := by
  unfold maskRange
  generalize List.range len = idxs
  induction idxs generalizing b with
  | nil => rfl
  | cons k ks ih =>
    simp only [List.foldl_cons]
    rw [ih, List.length_set]

theorem maskRange_getElem_outside (b : List ℕ) (p len q : ℕ)
    (h : q < p ∨ p + len ≤ q) : (maskRange b p len)[q]? = b[q]? := by
  unfold maskRange
  have hk : ∀ k ∈ List.range len, p + k ≠ q := by
    intro k hk
    simp only [List.mem_range] at hk
    omega
  generalize List.range len = idxs at hk
  induction idxs generalizing b with
  | nil => rfl
  | cons k ks ih =>
    simp only [List.foldl_cons]
    rw [ih _ (fun k2 hk2 => hk k2 (List.mem_cons_of_mem _ hk2)),
      List.getElem?_set_ne (hk k (List.mem_cons_self _ _))]

theorem maskRange_byteAt_outside (b : List ℕ) (p len q : ℕ)
    (h : q < p ∨ p + len ≤ q) : byteAt (maskRange b p len) q = byteAt b q := by
  unfold byteAt
  rw [List.getD_eq_getElem?_getD, List.getD_eq_getElem?_getD,
    maskRange_getElem_outside b p len q h]

theorem maskRange_byteAt_inside (b : List ℕ) (p len q : ℕ)
    (h1 : p ≤ q) (h2 : q < p + len) (h3 : q < b.length) :
    byteAt (maskRange b p len) q = 88 := by
  induction len with
  | zero => omega
  | succ l ih =>
    unfold maskRange
    rw [List.range_succ, List.foldl_append, List.foldl_cons, List.foldl_nil]
    by_cases hq : q = p + l
    · subst hq
      unfold byteAt
      rw [List.getD_eq_getElem?_getD, List.getElem?_set_self (by
        rw [show (List.range l).foldl (fun acc k => acc.set (p + k) 88) b =
          maskRange b p l from rfl, maskRange_length]
        exact h3)]
      rfl
    · unfold byteAt
      rw [List.getD_eq_getElem?_getD, List.getElem?_set_ne (by omega),
        show (List.range l).foldl (fun acc k => acc.set (p + k) 88) b =
          maskRange b p l from rfl, ← List.getD_eq_getElem?_getD]
      exact ih (by omega)

theorem maskRange_ascii (b : List ℕ) (p len : ℕ) (hA : asciiBytes b) :
    asciiBytes (maskRange b p len) := by
  unfold maskRange
  generalize List.range len = idxs
  induction idxs generalizing b with
  | nil => exact hA
  | cons k ks ih =>
    simp only [List.foldl_cons]
    apply ih
    intro x hx
    rcases List.mem_or_eq_of_mem_set hx with hx | rfl
    · exact hA x hx
    · omega

theorem cleanNt_ten : cleanNt 10 = 10 := by decide

theorem cleanNt_eightyEight : cleanNt 88 = 88 := by decide

/-- The byte at an occurrence position of an ACGT needle is a nucleotide
letter: in particular it is neither the newline nor the mask byte. -/
theorem occursAt_byte_ne (b ne : List ℕ) (hacgt : ∀ x ∈ ne, isACGT x) (q j : ℕ)
    (hj : j < ne.length) (hocc : occursAt b ne q) :
    byteAt b (q + j) ≠ 10 ∧ byteAt b (q + j) ≠ 88 := by
  obtain ⟨hl, hm⟩ := hocc
  have := hm j hj
  have hmem : byteAt ne j ∈ ne := byteAt_mem ne j hj
  have hn := hacgt _ hmem
  rw [cleanNt_acgt _ hn] at this
  constructor
  · intro h10
    rw [h10, cleanNt_ten] at this
    rcases hn with h | h | h | h <;> omega
  · intro h88
    rw [h88, cleanNt_eightyEight] at this
    rcases hn with h | h | h | h <;> omega

/-- Masking cannot create an occurrence of an ACGT needle. -/
theorem occursAt_maskRange_rev (b : List ℕ) (p len : ℕ) (ne : List ℕ)
    (hacgt : ∀ x ∈ ne, isACGT x) (q : ℕ)
    (hocc : occursAt (maskRange b p len) ne q) : occursAt b ne q := by
  obtain ⟨hl, hm⟩ := hocc
  rw [maskRange_length] at hl
  refine ⟨hl, ?_⟩
  intro j hj
  have hmj := hm j hj
  by_cases hin : p ≤ q + j ∧ q + j < p + len
  · exfalso
    have h88 : byteAt (maskRange b p len) (q + j) = 88 :=
      maskRange_byteAt_inside b p len (q + j) hin.1 hin.2 (by omega)
    exact (occursAt_byte_ne (maskRange b p len) ne hacgt q j hj
      ⟨by rw [maskRange_length]; exact hl, hm⟩).2 h88
  · rw [maskRange_byteAt_outside b p len (q + j) (by omega)] at hmj
    exact hmj

/-- Masking at an occurrence of an ACGT needle keeps the final newline. -/
theorem maskRange_getLast (b ne : List ℕ) (hacgt : ∀ x ∈ ne, isACGT x) (r : ℕ)
    (hocc : occursAt b ne r) (hlast : b.getLast? = some 10) :
    (maskRange b r ne.length).getLast? = some 10 := by
  have hne0 : b ≠ [] := by
    intro he
    subst he
    simp at hlast
  have hlen0 : 0 < b.length := List.length_pos.mpr hne0
  rw [List.getLast?_eq_getElem?] at hlast ⊢
  rw [maskRange_length, maskRange_getElem_outside]
  · exact hlast
  · by_contra hcon
    push_neg at hcon
    obtain ⟨h1, h2⟩ := hcon
    have hj : b.length - 1 = r + (b.length - 1 - r) := by omega
    have h10 : byteAt b (b.length - 1) = 10 := by
      unfold byteAt
      rw [List.getD_eq_getElem?_getD, hlast]
      rfl
    refine (occursAt_byte_ne b ne hacgt r (b.length - 1 - r) (by omega) hocc).1 ?_
    rw [← hj]
    exact h10

/-- One `cross_out` pass preserves byte validity, the length, the final
newline, and the absence of occurrences of any ACGT word. -/
theorem crossOutLoop_preserve (ne : List ℕ) (hne : ne ≠ []) (hlen3 : ne.length ≤ 3)
    (hacgt : ∀ x ∈ ne, isACGT x) :
    ∀ (fuel : ℕ) (b : List ℕ) (j : ℕ), asciiBytes b →
      asciiBytes (crossOutLoop 'r' ne fuel b j) ∧
      (crossOutLoop 'r' ne fuel b j).length = b.length ∧
      (b.getLast? = some 10 → (crossOutLoop 'r' ne fuel b j).getLast? = some 10) ∧
      (∀ w : List ℕ, (∀ x ∈ w, isACGT x) →
        (∀ q, ¬ occursAt b w q) → ∀ q, ¬ occursAt (crossOutLoop 'r' ne fuel b j) w q) := by
  intro fuel
  induction fuel with
  | zero =>
    intro b j hA
    exact ⟨hA, rfl, fun h => h, fun w _ hw => hw⟩
  | succ f ih =>
    intro b j hA
    have hdA : asciiBytes (b.drop j) := fun x hx => hA x (List.mem_of_mem_drop hx)
    rcases hsr : seqseqIdx (b.drop j) ne with _ | r
    · simp only [crossOutLoop, if_neg (by decide : ¬('r' = 'a')), hsr]
      exact ⟨hA, by simp, fun h => h, fun w _ hw => hw⟩
    · have hoccd := ((seqseqIdx_spec (b.drop j) ne hdA hne hlen3 hacgt).1 r hsr).1
      have hjb : j ≤ b.length := by
        obtain ⟨hl, _⟩ := hoccd
        rw [List.length_drop] at hl
        have hnel : 0 < ne.length := List.length_pos.mpr hne
        omega
      have hocc : occursAt b ne (j + r) := (occursAt_drop b ne j r hjb).mp hoccd
      simp only [crossOutLoop, if_neg (by decide : ¬('r' = 'a')), hsr]
      have hmA : asciiBytes (maskRange b (j + r) ne.length) :=
        maskRange_ascii b (j + r) ne.length hA
      obtain ⟨ihA, ihlen, ihlast, ihocc⟩ := ih (maskRange b (j + r) ne.length) (j + r) hmA
      refine ⟨ihA, by rw [ihlen, maskRange_length], ?_, ?_⟩
      · intro hlast
        exact ihlast (maskRange_getLast b ne hacgt (j + r) hocc hlast)
      · intro w hw hnocc q
        exact ihocc w hw
          (fun q2 hq2 => hnocc q2 (occursAt_maskRange_rev b (j + r) ne.length w hw q2 hq2)) q

/-- The `cross_out` masking loop removes every occurrence of its needle:
the match position carries a mask byte after the first round, so it strictly
advances and the fuel `length + 1` suffices. -/
theorem crossOutLoop_complete (ne : List ℕ) (hne : ne ≠ []) (hlen3 : ne.length ≤ 3)
    (hacgt : ∀ x ∈ ne, isACGT x) :
    ∀ (fuel : ℕ) (b : List ℕ) (j : ℕ), asciiBytes b →
      (∀ p < j, ¬ occursAt b ne p) →
      ((byteAt b j = 88 ∧ b.length ≤ fuel + j) ∨ (j = 0 ∧ b.length + 1 ≤ fuel)) →
      ∀ q, ¬ occursAt (crossOutLoop 'r' ne fuel b j) ne q := by
  intro fuel
  induction fuel with
  | zero =>
    intro b j hA hinv hf q
    rcases hf with ⟨h88, hle⟩ | ⟨_, hle⟩
    · exfalso
      unfold byteAt at h88
      rw [List.getD_eq_default _ _ (by omega)] at h88
      omega
    · omega
  | succ f ih =>
    intro b j hA hinv hf q
    have hdA : asciiBytes (b.drop j) := fun x hx => hA x (List.mem_of_mem_drop hx)
    have hjb : j ≤ b.length := by
      rcases hf with ⟨h88, _⟩ | ⟨hj0, _⟩
      · by_contra hc
        unfold byteAt at h88
        rw [List.getD_eq_default _ _ (by omega)] at h88
        omega
      · omega
    rcases hsr : seqseqIdx (b.drop j) ne with _ | r
    · simp only [crossOutLoop, if_neg (by decide : ¬('r' = 'a')), hsr]
      intro hocc
      by_cases hq : q < j
      · exact hinv q hq hocc
      · obtain ⟨p, rfl⟩ : ∃ p, q = j + p := ⟨q - j, by omega⟩
        exact (seqseqIdx_spec (b.drop j) ne hdA hne hlen3 hacgt).2 hsr p
          ((occursAt_drop b ne j p hjb).mpr hocc)
    · obtain ⟨hoccd, hleft⟩ := (seqseqIdx_spec (b.drop j) ne hdA hne hlen3 hacgt).1 r hsr
      have hocc : occursAt b ne (j + r) := (occursAt_drop b ne j r hjb).mp hoccd
      have hnel : 0 < ne.length := List.length_pos.mpr hne
      have hjrb : j + r < b.length := by
        obtain ⟨hl, _⟩ := hocc
        omega
      simp only [crossOutLoop, if_neg (by decide : ¬('r' = 'a')), hsr]
      have hmA : asciiBytes (maskRange b (j + r) ne.length) :=
        maskRange_ascii b (j + r) ne.length hA
      have hinv2 : ∀ p < j + r, ¬ occursAt (maskRange b (j + r) ne.length) ne p := by
        intro p hp hocc2
        have hocc3 := occursAt_maskRange_rev b (j + r) ne.length ne hacgt p hocc2
        by_cases hpj : p < j
        · exact hinv p hpj hocc3
        · exact hleft (p - j) (by omega)
            ((occursAt_drop b ne j (p - j) hjb).mpr (by
              rw [show j + (p - j) = p from by omega]
              exact hocc3))
      have h88 : byteAt (maskRange b (j + r) ne.length) (j + r) = 88 :=
        maskRange_byteAt_inside b (j + r) ne.length (j + r) (Nat.le_refl _)
          (by omega) hjrb
      have hfuel : (maskRange b (j + r) ne.length).length ≤ f + (j + r) := by
        rw [maskRange_length]
        rcases hf with ⟨hb88, hle⟩ | ⟨hj0, hle⟩
        · have hr1 : 1 ≤ r := by
            by_contra hr0
            have hr0' : r = 0 := by omega
            subst hr0'
            exact (occursAt_byte_ne b ne hacgt j 0 (by omega) (by
              rw [show j + 0 = j from rfl] at hocc
              exact hocc)).2 (by rw [show j + 0 = j from rfl]; exact hb88)
          omega
        · omega
      exact ih (maskRange b (j + r) ne.length) (j + r) hmA hinv2
        (Or.inl ⟨h88, hfuel⟩) q

/-- `cross_out` in raw mode: the result has no occurrence of the needle. -/
theorem crossOut_complete (b ne : List ℕ) (hA : asciiBytes b) (hne : ne ≠ [])
    (hlen3 : ne.length ≤ 3) (hacgt : ∀ x ∈ ne, isACGT x) :
    ∀ q, ¬ occursAt (crossOut b ne 'r') ne q := by
  unfold crossOut
  exact crossOutLoop_complete ne hne hlen3 hacgt (b.length + 1) b 0 hA
    (fun p hp => absurd hp (by omega)) (Or.inr ⟨rfl, Nat.le_refl _⟩)

/-- The removed-list masking pass: valid bytes, length and final newline are
preserved, and no occurrence of any removed kmer survives. -/
theorem crossOutAll_spec (removed : List (List ℕ))
    (hall : ∀ w ∈ removed, w ≠ [] ∧ w.length ≤ 3 ∧ ∀ x ∈ w, isACGT x) :
    ∀ b, asciiBytes b →
      asciiBytes (crossOutAll b removed 'r') ∧
      (crossOutAll b removed 'r').length = b.length ∧
      (b.getLast? = some 10 → (crossOutAll b removed 'r').getLast? = some 10) ∧
      (∀ w : List ℕ, (∀ x ∈ w, isACGT x) →
        (∀ q, ¬ occursAt b w q) → ∀ q, ¬ occursAt (crossOutAll b removed 'r') w q) ∧
      (∀ w ∈ removed, ∀ q, ¬ occursAt (crossOutAll b removed 'r') w q) := by
  induction removed with
  | nil =>
    intro b hA
    refine ⟨hA, rfl, fun h => h, fun w _ hw => hw, ?_⟩
    intro w hw
    simp at hw
  | cons w ws ih =>
    intro b hA
    obtain ⟨hwne, hwlen, hwacgt⟩ := hall w (List.mem_cons_self _ _)
    have hall2 : ∀ w2 ∈ ws, w2 ≠ [] ∧ w2.length ≤ 3 ∧ ∀ x ∈ w2, isACGT x :=
      fun w2 hw2 => hall w2 (List.mem_cons_of_mem _ hw2)
    obtain ⟨h1A, h1len, h1last, h1occ⟩ :=
      crossOutLoop_preserve w hwne hwlen hwacgt (b.length + 1) b 0 hA
    have hwkill : ∀ q, ¬ occursAt (crossOut b w 'r') w q :=
      crossOut_complete b w hA hwne hwlen hwacgt
    have hrest := ih hall2 (crossOut b w 'r') h1A
    have hco : crossOutAll b (w :: ws) 'r' = crossOutAll (crossOut b w 'r') ws 'r' := rfl
    rw [hco]
    refine ⟨hrest.1, hrest.2.1.trans h1len, fun hl => hrest.2.2.1 (h1last hl), ?_, ?_⟩
    · intro w2 hw2 hnocc q
      exact hrest.2.2.2.1 w2 hw2 (h1occ w2 hw2 hnocc) q
    · intro w2 hw2 q
      rcases List.mem_cons.mp hw2 with rfl | hw2
      · exact hrest.2.2.2.1 w2 hwacgt hwkill q
      · exact hrest.2.2.2.2 w2 hw2 q

/-! ## Recounting removes the masked kmers -/

theorem countAt_replicate_zero (a b t : ℕ) (r : List (List ℕ)) (m κ : ℕ) :
    countAt ⟨a, b, List.replicate m 0, t, r⟩ κ = 0 := by
  unfold countAt
  simp only [List.getD_eq_getElem?_getD, List.getElem?_replicate]
  rcases Nat.lt_or_ge κ m with h | h
  · rw [if_pos h]
    rfl
  · rw [if_neg (by omega)]
    rfl

/-- One buffer round (`katss_set_seq` plus the drain loop) started from a
clean hasher: emitted hashes are windows, and the final state is clean again
on a newline-terminated buffer. -/
theorem drainChunk_spec (buf : List ℕ) (k : ℕ) (hk1 : 1 ≤ k) (hk16 : k ≤ 16)
    (hbuf : buf ≠ []) (hnul : ∀ b ∈ buf, 0 < b)
    (h : KatssHasher) (hv : ℕ) (hkm : h.kmer = k) (hhp : h.hasPrev = false)
    (hpos : h.pos = 0) (hen : h.endno = 0) :
    (∀ x ∈ (drainChunk h buf hv 'r').1, ∃ i, windowAt buf i k x) ∧
    (drainChunk h buf hv 'r').2.1.kmer = k ∧
    (drainChunk h buf hv 'r').2.1.endno = 0 ∧
    (buf.getLast? = some 10 →
      (drainChunk h buf hv 'r').2.1.hasPrev = false ∧
      (drainChunk h buf hv 'r').2.1.pos = 0) := by
  have hInv := setSeq_inv buf k hk1 hbuf hnul h hkm hhp hpos hen
  have hlen : (katssSetSeq h buf).seq.length < buf.length + 1 := by
    obtain ⟨h1, h2, h3, h4, h5, n, hn, hpn, hseq, hc1, hc2⟩ := hInv
    rw [hseq, List.length_drop]
    omega
  have hInv2 := setSeq_inv buf k hk1 hbuf hnul h hkm hhp hpos hen
  unfold drainChunk
  exact drain_sound buf k hk1 hk16 hnul (buf.length + 1) (katssSetSeq h buf) hv hInv2 hlen

/-- The raw-mode `katss_recount_kmer` as one equation: zero the cells, push
the removed kmer, mask, and run the two drain rounds of the do-while. -/
theorem katssRecountKmer_eq (c : KatssCounter) (content remove : List ℕ)
    (hft : determineFiletype content = 'r') :
    katssRecountKmer c content remove =
      some ((drainChunk
          (drainChunk (katssInitHasher c.kmer)
            (crossOutAll content (c.removed ++ [remove]) 'r') 0 'r').2.1
          (crossOutAll (crossOutAll content (c.removed ++ [remove]) 'r')
            (c.removed ++ [remove]) 'r')
          (drainChunk (katssInitHasher c.kmer)
            (crossOutAll content (c.removed ++ [remove]) 'r') 0 'r').2.2 'r').1.foldl
        katssIncrement
        ((drainChunk (katssInitHasher c.kmer)
            (crossOutAll content (c.removed ++ [remove]) 'r') 0 'r').1.foldl
          katssIncrement
          ⟨c.kmer, c.capacity, List.replicate (c.capacity + 1) 0, c.total,
            c.removed ++ [remove]⟩)) := by
  obtain ⟨a, b, cs, t, r⟩ := c
  simp only [katssRecountKmer, kctrPush]
  rw [hft, if_neg (by decide)]

/-- `katss_recount_kmer` on a raw newline-terminated ASCII stream succeeds,
keeps the counter's kmer length, capacity and total, appends the removed
kmer, and leaves a zero count for every key whose unhashed word is on the
removed list: the masked buffers hold no occurrence of those words, so no
window with their codes is ever emitted. -/
theorem recount_spec (tc : KatssCounter) (content remove : List ℕ) (k : ℕ)
    (hk1 : 1 ≤ k) (hk16 : k ≤ 16) (hkm : tc.kmer = k)
    (hA : asciiBytes content) (hlast : content.getLast? = some 10)
    (hft : determineFiletype content = 'r')
    (hall : ∀ w ∈ tc.removed ++ [remove], w ≠ [] ∧ w.length ≤ 3 ∧ ∀ x ∈ w, isACGT x) :
    ∃ tc2, katssRecountKmer tc content remove = some tc2 ∧
      tc2.kmer = k ∧ tc2.capacity = tc.capacity ∧
      tc2.removed = tc.removed ++ [remove] ∧
      ∀ κ, katssUnhash κ k true ∈ tc.removed ++ [remove] → countAt tc2 κ = 0 := by
  have hcne : content ≠ [] := by
    intro he
    subst he
    simp at hlast
  have hm1 := crossOutAll_spec (tc.removed ++ [remove]) hall content hA
  set m1 := crossOutAll content (tc.removed ++ [remove]) 'r' with hm1def
  obtain ⟨hm1A, hm1len, hm1last, hm1pres, hm1occ⟩ := hm1
  have hm1last2 : m1.getLast? = some 10 := hm1last hlast
  have hm1ne : m1 ≠ [] := by
    intro he
    rw [he] at hm1last2
    simp at hm1last2
  have hm1nul : ∀ x ∈ m1, 0 < x := fun x hx => (hm1A x hx).1
  have hd1 := drainChunk_spec m1 k hk1 hk16 hm1ne hm1nul (katssInitHasher tc.kmer) 0
    (by rw [hkm]; rfl) rfl rfl rfl
  obtain ⟨hd1win, hd1km, hd1en, hd1clean⟩ := hd1
  obtain ⟨hd1hp, hd1pos⟩ := hd1clean hm1last2
  have hm2 := crossOutAll_spec (tc.removed ++ [remove]) hall m1 hm1A
  set m2 := crossOutAll m1 (tc.removed ++ [remove]) 'r' with hm2def
  obtain ⟨hm2A, hm2len, hm2last, hm2pres, hm2occ⟩ := hm2
  have hm2last2 : m2.getLast? = some 10 := hm2last hm1last2
  have hm2ne : m2 ≠ [] := by
    intro he
    rw [he] at hm2last2
    simp at hm2last2
  have hm2nul : ∀ x ∈ m2, 0 < x := fun x hx => (hm2A x hx).1
  have hd2 := drainChunk_spec m2 k hk1 hk16 hm2ne hm2nul
    (drainChunk (katssInitHasher tc.kmer) m1 0 'r').2.1
    (drainChunk (katssInitHasher tc.kmer) m1 0 'r').2.2
    hd1km hd1hp hd1pos hd1en
  obtain ⟨hd2win, hd2km, hd2en, hd2clean⟩ := hd2
  refine ⟨_, katssRecountKmer_eq tc content remove hft, ?_, ?_, ?_, ?_⟩
  · rw [(foldl_increment_fields _ _).1, (foldl_increment_fields _ _).1]
    exact hkm
  · rw [(foldl_increment_fields _ _).2.1, (foldl_increment_fields _ _).2.1]
  · rw [(foldl_increment_fields _ _).2.2, (foldl_increment_fields _ _).2.2]
  · intro κ hκ
    have hno1 : κ ∉ (drainChunk (katssInitHasher tc.kmer) m1 0 'r').1 := by
      intro hmem
      obtain ⟨i, hwin⟩ := hd1win κ hmem
      exact hm1occ _ hκ i ((occurs_iff_window m1 κ k i hm1A).mpr hwin)
    have hno2 : κ ∉ (drainChunk (drainChunk (katssInitHasher tc.kmer) m1 0 'r').2.1
        m2 (drainChunk (katssInitHasher tc.kmer) m1 0 'r').2.2 'r').1 := by
      intro hmem
      obtain ⟨i, hwin⟩ := hd2win κ hmem
      exact hm2occ _ hκ i ((occurs_iff_window m2 κ k i hm2A).mpr hwin)
    rw [countAt_foldl_increment _ _ _ hno2, countAt_foldl_increment _ _ _ hno1]
    exact countAt_replicate_zero _ _ _ _ _ _

/-! ## IKKE key distinctness -/

/-- The recount rounds of `katss_ikke`: when every reported enrichment is not
the `-DBL_MAX` sentinel, every reported key avoids the already removed keys
and the pending one, and the reported keys are pairwise distinct.  The
invariant is that the test counter's removed list is exactly the unhashed
previously reported keys. -/
theorem ikkeLoop_keys (test ctrl : List ℕ) (k : ℕ) (normalize : Bool)
    (hk1 : 1 ≤ k) (hk3 : k ≤ 3)
    (hA : asciiBytes test) (hlast : test.getLast? = some 10)
    (hft : determineFiletype test = 'r') :
    ∀ (n : ℕ) (tc cc : KatssCounter) (prevKey : ℕ) (K : List ℕ),
      tc.kmer = k →
      tc.removed = K.map (fun κ => katssUnhash κ k true) →
      (∀ e ∈ ikkeLoop test ctrl k normalize n tc cc prevKey,
        e.enrichment ≠ .fin (-dblMax)) →
      (∀ e ∈ ikkeLoop test ctrl k normalize n tc cc prevKey,
        e.key ∉ K ∧ e.key ≠ prevKey) ∧
      ((ikkeLoop test ctrl k normalize n tc cc prevKey).map
        (fun e => e.key)).Pairwise (· ≠ ·) := by
  intro n
  induction n with
  | zero =>
    intro tc cc prevKey K hkm hrem hns
    constructor
    · intro e he
      simp [ikkeLoop] at he
    · simp [ikkeLoop]
  | succ m ih =>
    intro tc cc prevKey K hkm hrem hns
    have hall : ∀ w ∈ tc.removed ++ [katssUnhash prevKey k true],
        w ≠ [] ∧ w.length ≤ 3 ∧ ∀ x ∈ w, isACGT x := by
      intro w hw
      have hwu : ∃ κ, w = katssUnhash κ k true := by
        rcases List.mem_append.mp hw with hw | hw
        · rw [hrem] at hw
          obtain ⟨κ, _, hκ⟩ := List.mem_map.mp hw
          exact ⟨κ, hκ.symm⟩
        · exact ⟨prevKey, (List.mem_singleton.mp hw)⟩
      obtain ⟨κ, rfl⟩ := hwu
      refine ⟨?_, ?_, unhash_acgt κ k⟩
      · intro he
        have := unhash_length κ k true
        rw [he] at this
        simp at this
        omega
      · rw [unhash_length]
        exact hk3
    obtain ⟨tc2, hrec, htc2km, htc2cap, htc2rem, htc2zero⟩ :=
      recount_spec tc test (katssUnhash prevKey k true) k hk1 (by omega) hkm
        hA hlast hft hall
    have hloop : ikkeLoop test ctrl k normalize (m + 1) tc cc prevKey =
        katssTopEnrichment tc2
            ((katssRecountKmer cc ctrl (katssUnhash prevKey k true)).getD cc) normalize ::
          ikkeLoop test ctrl k normalize m tc2
            ((katssRecountKmer cc ctrl (katssUnhash prevKey k true)).getD cc)
            (katssTopEnrichment tc2
              ((katssRecountKmer cc ctrl (katssUnhash prevKey k true)).getD cc)
              normalize).key := by
      simp only [ikkeLoop, hrec, Option.getD_some]
    set cc2 := (katssRecountKmer cc ctrl (katssUnhash prevKey k true)).getD cc with hcc2
    set e := katssTopEnrichment tc2 cc2 normalize with he
    have hnse : e.enrichment ≠ .fin (-dblMax) := by
      apply hns
      rw [hloop]
      exact List.mem_cons_self _ _
    have htop := topEnrichment_nonsentinel tc2 cc2 normalize hnse
    have hekey : e.key ∉ K ∧ e.key ≠ prevKey := by
      constructor
      · intro hmem
        refine htop.2 (htc2zero e.key ?_)
        rw [hrem]
        exact List.mem_append_left _ (List.mem_map_of_mem _ hmem)
      · intro heq
        refine htop.2 (htc2zero e.key ?_)
        rw [heq]
        exact List.mem_append_right _ (List.mem_singleton_self _)
    have hrem2 : tc2.removed = (K ++ [prevKey]).map (fun κ => katssUnhash κ k true) := by
      rw [htc2rem, hrem, List.map_append]
      rfl
    have hns2 : ∀ e2 ∈ ikkeLoop test ctrl k normalize m tc2 cc2 e.key,
        e2.enrichment ≠ .fin (-dblMax) := by
      intro e2 he2
      apply hns
      rw [hloop]
      exact List.mem_cons_of_mem _ he2
    obtain ⟨ihmem, ihpair⟩ := ih tc2 cc2 e.key (K ++ [prevKey]) htc2km hrem2 hns2
    constructor
    · intro e2 he2
      rw [hloop] at he2
      rcases List.mem_cons.mp he2 with rfl | he2
      · exact hekey
      · obtain ⟨hnk, hne⟩ := ihmem e2 he2
        rw [List.mem_append] at hnk
        push_neg at hnk
        exact ⟨hnk.1, fun hc => hnk.2 (by rw [hc]; exact List.mem_singleton_self _)⟩
    · rw [hloop, List.map_cons]
      rw [List.pairwise_cons]
      constructor
      · intro key2 hkey2
        obtain ⟨e2, he2, hke⟩ := List.mem_map.mp hkey2
        rw [← hke]
        exact fun hc => (ihmem e2 he2).2 hc.symm
      · exact ihpair

/-- The fields `katss_count_kmers` establishes: a successful run forces a
valid kmer length and starts from a fresh table with an empty removed
list. -/
theorem countKmers_fields (content : List ℕ) (k : ℕ) (c : KatssCounter)
    (h : katssCountKmers content k = some c) :
    1 ≤ k ∧ k ≤ 16 ∧ c.kmer = k ∧ c.removed = [] := by
  unfold katssCountKmers countFile at h
  rcases hinit : katssInitCounter k with _ | c0
  · rw [hinit] at h
    simp at h
  · rw [hinit] at h
    have hk : ¬(k = 0 ∨ 16 < k) := by
      intro hc
      unfold katssInitCounter at hinit
      rw [if_pos hc] at hinit
      exact Option.noConfusion hinit
    push_neg at hk
    have hc0 : c0 = ⟨k, 2 ^ (2 * k) - 1, List.replicate (2 ^ (2 * k)) 0, 0, []⟩ := by
      unfold katssInitCounter at hinit
      rw [if_neg (by omega)] at hinit
      exact (Option.some_inj.mp hinit).symm
    by_cases hft : determineFiletype content = 'e' ∨ determineFiletype content = 'N'
    · rw [if_pos hft] at h
      exact Option.noConfusion h
    · rw [if_neg hft] at h
      rcases hd : drainChunk (katssInitHasher k) content 0 (determineFiletype content)
        with ⟨em, h2, hv2⟩
      rw [hd] at h
      have hc : c = em.foldl katssIncrement c0 := (Option.some_inj.mp h).symm
      subst hc hc0
      exact ⟨by omega, by omega, (foldl_increment_fields _ _).1,
        (foldl_increment_fields _ _).2.2⟩

open scoped Classical in
/-- Supporting lemma for C3: in the regime where the masking pipeline is
proved exact (raw-classified, NUL-free ASCII, newline-terminated test
streams; kmer lengths at most 3, the needle sizes of the `seqseq` lane
scans), whenever a `katss_ikke` run reports no `-DBL_MAX` sentinel entry,
the reported kmer keys are pairwise distinct: each round recounts the test
file with every previously reported kmer masked out, so a later
non-sentinel top enrichment has a nonzero test count and cannot repeat an
earlier key.  This isolates the sentinel fall-through as the one source of
duplicate keys. -/
theorem ikke_nonsentinel_distinct (test ctrl : List ℕ) (k iterations : ℕ)
    (normalize : Bool) (out : List KatssEnrichment)
    (hA : asciiBytes test) (hlast : test.getLast? = some 10)
    (hft : determineFiletype test = 'r') (hk3 : k ≤ 3)
    (hrun : katssIkke test ctrl k iterations normalize = some out)
    (hns : ∀ e ∈ out, e.enrichment ≠ .fin (-dblMax)) :
    (out.map (fun e => e.key)).Pairwise (· ≠ ·) := by
  rcases hct : katssCountKmers test k with _ | tc
  · rw [katssIkke, hct] at hrun
    exact Option.noConfusion hrun
  rcases hcc : katssCountKmers ctrl k with _ | cc
  · rw [katssIkke, hct, hcc] at hrun
    exact Option.noConfusion hrun
  obtain ⟨hk1, hk16, htckm, htcrem⟩ := countKmers_fields test k tc hct
  rw [katssIkke, hct, hcc] at hrun
  simp only [Option.some_inj] at hrun
  set iters := if tc.capacity < iterations then tc.capacity + 1 else iterations with hiters
  set e0 := katssTopEnrichment tc cc normalize with he0
  have hout : out = e0 :: ikkeLoop test ctrl k normalize (iters - 1) tc cc e0.key :=
    hrun.symm
  have hns2 : ∀ e ∈ ikkeLoop test ctrl k normalize (iters - 1) tc cc e0.key,
      e.enrichment ≠ .fin (-dblMax) := by
    intro e he
    apply hns
    rw [hout]
    exact List.mem_cons_of_mem _ he
  obtain ⟨hmem, hpair⟩ := ikkeLoop_keys test ctrl k normalize hk1 hk3 hA hlast hft
    (iters - 1) tc cc e0.key [] htckm (by rw [htcrem]; rfl) hns2
  rw [hout, List.map_cons, List.pairwise_cons]
  constructor
  · intro key2 hkey2
    obtain ⟨e2, he2, hke⟩ := List.mem_map.mp hkey2
    rw [← hke]
    exact fun hc => (hmem e2 he2).2 hc.symm
  · exact hpair

/-! ## Concrete IKKE runs on the ten-adenine-lines stream -/

set_option maxRecDepth 40000 in
theorem tenA_count :
    katssCountKmers tenLinesTenA 1 = some ⟨1, 3, [100, 0, 0, 0], 100, []⟩ := by
  decide

set_option maxRecDepth 40000 in
theorem tenA_recount :
    katssRecountKmer ⟨1, 3, [100, 0, 0, 0], 100, []⟩ tenLinesTenA [65] =
      some ⟨1, 3, [0, 0, 0, 0], 100, [[65]]⟩ := by
  decide

theorem dblMax_pos : (0 : ℝ) < dblMax := by
  unfold dblMax
  have h1 : (2 : ℝ) ^ 971 < 2 ^ 1024 := by
    apply pow_lt_pow_right₀ (by norm_num)
    omega
  linarith

open scoped Classical in
/-- The top enrichment of the k=1 count table of ten lines of ten adenines
against itself: key 0 (the `A` cell) with ratio 1. -/
theorem topEnrichment_tenA_full :
    katssTopEnrichment ⟨1, 3, [100, 0, 0, 0], 100, []⟩
      ⟨1, 3, [100, 0, 0, 0], 100, []⟩ false = ⟨0, .fin 1⟩ := by
  have hs0 : topStep ⟨1, 3, [100, 0, 0, 0], 100, []⟩ ⟨1, 3, [100, 0, 0, 0], 100, []⟩
      false (0, .fin (-dblMax)) 0 = (0, .fin 1) := by
    unfold topStep
    rw [if_neg (by decide)]
    rw [show countAt ⟨1, 3, [100, 0, 0, 0], 100, []⟩ 0 = 100 from rfl,
      show (⟨1, 3, [100, 0, 0, 0], 100, []⟩ : KatssCounter).total = 100 from rfl,
      enrValue_eq 100 100 100 100 (by norm_num) (by norm_num) (by norm_num)]
    rw [show ((100 : ℕ) : ℝ) / ((100 : ℕ) : ℝ) / (((100 : ℕ) : ℝ) / ((100 : ℕ) : ℝ)) = 1
      from by norm_num]
    simp only [Bool.false_eq_true, if_false]
    rw [if_pos (show dlt (Dbl.fin (-dblMax)) (.fin 1) from by
      rw [dlt_fin_fin]
      have := dblMax_pos
      linarith)]
  have hs1 : topStep ⟨1, 3, [100, 0, 0, 0], 100, []⟩ ⟨1, 3, [100, 0, 0, 0], 100, []⟩
      false (0, .fin 1) 1 = (0, .fin 1) := by
    unfold topStep
    rw [if_pos (by decide)]
  have hs2 : topStep ⟨1, 3, [100, 0, 0, 0], 100, []⟩ ⟨1, 3, [100, 0, 0, 0], 100, []⟩
      false (0, .fin 1) 2 = (0, .fin 1) := by
    unfold topStep
    rw [if_pos (by decide)]
  unfold katssTopEnrichment
  rw [if_neg (by decide)]
  rw [show ((⟨1, 3, [100, 0, 0, 0], 100, []⟩ : KatssCounter).capacity) = 3 from rfl,
    show List.range 3 = [0, 1, 2] from rfl]
  simp only [List.foldl_cons, List.foldl_nil]
  rw [hs0, hs1, hs2]
  rw [if_neg (show ¬ deq (0, Dbl.fin 1).2 (.fin (-dblMax)) from by
    intro h
    have h2 : (1 : ℝ) = -dblMax := h
    have := dblMax_pos
    linarith)]

open scoped Classical in
/-- The top enrichment after the recount zeroed the test cells: every hash
is skipped, the running maximum stays at `-DBL_MAX`, and the sentinel is
returned - with key 0 again. -/
theorem topEnrichment_tenA_zero :
    katssTopEnrichment ⟨1, 3, [0, 0, 0, 0], 100, [[65]]⟩
      ⟨1, 3, [0, 0, 0, 0], 100, [[65]]⟩ false = ⟨0, .fin (-dblMax)⟩ := by
  have hs : ∀ i, topStep ⟨1, 3, [0, 0, 0, 0], 100, [[65]]⟩
      ⟨1, 3, [0, 0, 0, 0], 100, [[65]]⟩ false (0, .fin (-dblMax)) i =
      (0, .fin (-dblMax)) := by
    intro i
    unfold topStep
    rw [if_pos (Or.inl (show countAt ⟨1, 3, [0, 0, 0, 0], 100, [[65]]⟩ i = 0 from by
      unfold countAt
      rcases i with _ | _ | _ | _ | i <;> rfl))]
  unfold katssTopEnrichment
  rw [if_neg (by decide)]
  rw [show ((⟨1, 3, [0, 0, 0, 0], 100, [[65]]⟩ : KatssCounter).capacity) = 3 from rfl,
    show List.range 3 = [0, 1, 2] from rfl]
  simp only [List.foldl_cons, List.foldl_nil]
  rw [hs 0, hs 1, hs 2]
  rw [if_pos (show deq (0, Dbl.fin (-dblMax)).2 (.fin (-dblMax)) from rfl)]

/-- The two-iteration IKKE run on the ten-adenine stream against itself. -/
theorem ikke_tenA_two :
    katssIkke tenLinesTenA tenLinesTenA 1 2 false =
      some [⟨0, .fin 1⟩, ⟨0, .fin (-dblMax)⟩] := by
  have hloop1 : ikkeLoop tenLinesTenA tenLinesTenA 1 false 1
      ⟨1, 3, [100, 0, 0, 0], 100, []⟩ ⟨1, 3, [100, 0, 0, 0], 100, []⟩ 0 =
      [⟨0, .fin (-dblMax)⟩] := by
    rw [show (1 : ℕ) = 0 + 1 from rfl]
    simp only [ikkeLoop]
    rw [show katssUnhash 0 1 true = [65] from rfl, tenA_recount]
    simp only [Option.getD_some]
    rw [topEnrichment_tenA_zero]
  simp only [katssIkke, tenA_count]
  rw [show ((if (⟨1, 3, [100, 0, 0, 0], 100, []⟩ : KatssCounter).capacity < 2
      then (⟨1, 3, [100, 0, 0, 0], 100, []⟩ : KatssCounter).capacity + 1 else 2) : ℕ)
      = 2 from by norm_num]
  rw [topEnrichment_tenA_full]
  rw [show (2 : ℕ) - 1 = 1 from rfl,
    show (⟨0, Dbl.fin 1⟩ : KatssEnrichment).key = 0 from rfl, hloop1]

/-- C3: the claim that the kmer keys reported by `katss_ikke` across its
iterations are pairwise distinct fails in the code.  On the ten-adenine test
and control stream with k = 1 and two iterations, the first round reports
the `A` cell (key 0); its removal zeroes every test cell, the second
round's top-enrichment scan finds no candidate and falls through to its
`{key 0, -DBL_MAX}` sentinel, which `katss_ikke` stores unconditionally -
so the run reports keys 0 and 0. -/
theorem c3_ikke_sentinel_duplicate :
    katssIkke tenLinesTenA tenLinesTenA 1 2 false =
      some [⟨0, .fin 1⟩, ⟨0, .fin (-dblMax)⟩] ∧
    ¬ (([⟨0, .fin 1⟩, ⟨0, .fin (-dblMax)⟩] : List KatssEnrichment).map
        (fun e => e.key)).Pairwise (· ≠ ·) := by
  refine ⟨ikke_tenA_two, ?_⟩
  intro h
  simp only [List.map_cons, List.map_nil] at h
  exact (List.pairwise_cons.mp h).1 0 (List.mem_cons_self _ _) rfl

/-- The one-iteration IKKE run on the ten-adenine stream against itself. -/
theorem ikke_tenA_one :
    katssIkke tenLinesTenA tenLinesTenA 1 1 false = some [⟨0, .fin 1⟩] := by
  simp only [katssIkke, tenA_count]
  rw [show ((if (⟨1, 3, [100, 0, 0, 0], 100, []⟩ : KatssCounter).capacity < 1
      then (⟨1, 3, [100, 0, 0, 0], 100, []⟩ : KatssCounter).capacity + 1 else 1) : ℕ)
      = 1 from by norm_num]
  rw [topEnrichment_tenA_full]
  rw [show (1 : ℕ) - 1 = 0 from rfl]
  simp only [ikkeLoop]

set_option maxRecDepth 40000 in
/-- Concrete instantiation of `ikke_nonsentinel_distinct`: the one-iteration
run on the ten-adenine stream satisfies every hypothesis, and the lemma
yields the (trivially) pairwise distinct singleton key list. -/
theorem ikke_nonsentinel_distinct_example :
    asciiBytes tenLinesTenA ∧ tenLinesTenA.getLast? = some 10 ∧
    determineFiletype tenLinesTenA = 'r' ∧ (1 : ℕ) ≤ 3 ∧
    katssIkke tenLinesTenA tenLinesTenA 1 1 false = some [⟨0, .fin 1⟩] ∧
    (∀ e ∈ ([⟨0, .fin 1⟩] : List KatssEnrichment), e.enrichment ≠ .fin (-dblMax)) ∧
    (([⟨0, .fin 1⟩] : List KatssEnrichment).map (fun e => e.key)).Pairwise (· ≠ ·) := by
  have h1 : asciiBytes tenLinesTenA := by decide
  have h2 : tenLinesTenA.getLast? = some 10 := by decide
  have h3 : determineFiletype tenLinesTenA = 'r' := by decide
  have h4 : (1 : ℕ) ≤ 3 := by decide
  have h5 := ikke_tenA_one
  have h6 : ∀ e ∈ ([⟨0, .fin 1⟩] : List KatssEnrichment),
      e.enrichment ≠ .fin (-dblMax) := by
    intro e he
    simp only [List.mem_singleton] at he
    subst he
    intro hc
    have hc2 : Dbl.fin 1 = Dbl.fin (-dblMax) := hc
    injection hc2 with hc3
    have := dblMax_pos
    linarith
  exact ⟨h1, h2, h3, h4, h5, h6,
    ikke_nonsentinel_distinct tenLinesTenA tenLinesTenA 1 1 false _ h1 h2 h3 h4 h5 h6⟩

end RKats
